import Mathlib

/-!
# BaitSTR `merge_STR_reads`: merging reads that support the same short tandem repeat

A shallow embedding of `src/merge_STR_reads.c` and the properties proved of it.

Conventions of the embedding.

* A C string is a `List Char` holding the characters before the terminating
  NUL; `strlen` is `List.length`.  Reading `s[k]` at or past the end yields NUL
  (`charAt`); in C a read past the terminator is outside the object.
* Offsets and counters (`zstart`, `end`, `slen`, `support`, `nsupport`, loop
  indices) are natural numbers: the program only ever uses them as
  non-negative values below `2^31`.  Copy numbers come from `%d` and stay `Int`.
* The scratch buffers `seq`/`qual` of `Align` are the lists of characters
  written so far, in write order; `sindx` is their length.
* The hash map `blocks` is an association list from key strings to chains, a
  chain (blocks linked through `next`) is a `List Block`, head first.
* `float pid` is `Option ℚ`: `none` is the NaN obtained from `0.0 / 0`, and
  `some q` the exact quotient.  The comparison with the threshold `90.0`
  agrees with the rounded single-precision value as long as
  `matches + mismatches < 2621440` (a quotient below 90 is then at least
  `2^-18` away from 90, more than half a unit in the last place).
-/

namespace BaitSTR

/-! ## Data model -/

/-- Modelled from the spec: the record `Copies`, one entry of a block's
copy-number tally; its declaration is in a header that is not part of the
source file, the field names are those the source uses (`next` is the tail of
the list).  The copy number is an integer, as the data model has it. -/
structure Copies where
  copies : Int
  nsupport : Nat
deriving DecidableEq

/-- Modelled from the spec: the record `Block`, the consensus of one candidate
allele; its declaration is in a header that is not part of the source file,
the field names are those the source uses (`end` is written `end_`).  The
`next` link is the tail of the chain the block is stored in. -/
structure Block where
  seq : List Char
  qual : List Char
  zstart : Nat
  end_ : Nat
  slen : Nat
  support : Nat
  supports : List Copies
deriving DecidableEq

/-- Modelled from the spec: the record `FastqSequence` of the reader library
(not part of the source file), a read as delivered by the reader: bases,
qualities and their length. -/
structure FastqSequence where
  bases : List Char
  quals : List Char
  slen : Nat
deriving DecidableEq

/-- The fields that `sscanf` extracts from the name of a read: the forward
and the reverse annotation of the repeat (the leading read name is unused). -/
structure Header where
  fmotif : List Char
  fcopies : Int
  fzstart : Nat
  fend : Nat
  rmotif : List Char
  rcopies : Int
  rzstart : Nat
  rend : Nat
deriving DecidableEq

/-- The constant `pid_threshold`. -/
def pid_threshold : ℚ := 90

/-- Character `s[k]` of a C string. -/
def charAt (s : List Char) (k : Nat) : Char := s.getD k (Char.ofNat 0)

/-- The function `Reverse(seq, len)`: reverses the first `len` characters in place. -/
def Reverse (seq : List Char) (len : Nat) : List Char :=
  (seq.take len).reverse ++ seq.drop len

/-! ## `Align` -/

/-- Score of a diagonal step on equal characters (`match`). -/
def matchScore : Int := 1

/-- Score of a diagonal step on different characters (`mismatch`). -/
def mismatchScore : Int := -1

/-- Score of a gap step (`gap`). -/
def gapScore : Int := -3

/-- The matrices `A` and `B` of `Align` with the running best cell. -/
structure Matrices where
  A : Nat → Nat → Int
  B : Nat → Nat → Nat
  best : Int
  optlox : Nat
  optloy : Nat

/-- Assignment `M[i][j] = v`. -/
def setCell {α : Type} (M : Nat → Nat → α) (i j : Nat) (v : α) : Nat → Nat → α :=
  fun x y => if x = i ∧ y = j then v else M x y

/-- State after `CkalloczOrDie`: zeroed matrices, `best = optlox = optloy = 0`. -/
def initMatrices : Matrices :=
  { A := fun _ _ => 0, B := fun _ _ => 0, best := 0, optlox := 0, optloy := 0 }

/-- Body of the inner loop of the fill (lines 83-107) at cell `(i, j)`. -/
def cellStep (t1 t2 : List Char) (i j : Nat) (m : Matrices) : Matrices :=
  let score1 := m.A i (j - 1) + gapScore
  let score2 := m.A (i - 1) j + gapScore
  let score3 :=
    if charAt t1 (i - 1) = charAt t2 (j - 1) then m.A (i - 1) (j - 1) + matchScore
    else m.A (i - 1) (j - 1) + mismatchScore
  let v := max (max score1 score2) (max score3 0)
  let B1 :=
    if v = score3 then setCell m.B i j 0
    else if v = score2 then setCell m.B i j 1
    else if v = score1 then setCell m.B i j 2
    else m.B
  if v ≥ m.best then
    { A := setCell m.A i j v, B := B1, best := v, optlox := i, optloy := j }
  else
    { A := setCell m.A i j v, B := B1, best := m.best, optlox := m.optlox, optloy := m.optloy }

/-- Inner loop `for (j = 1; j < len2; j++)` of the fill, for row `i`. -/
def fillRow (t1 t2 : List Char) (len2 i : Nat) (m : Matrices) : Matrices :=
  (List.range' 1 (len2 - 1)).foldl (fun s j => cellStep t1 t2 i j s) m

/-- Outer loop `for (i = 1; i < len1; i++)` of the fill. -/
def fill (t1 t2 : List Char) (len1 len2 : Nat) : Matrices :=
  (List.range' 1 (len1 - 1)).foldl (fun s i => fillRow t1 t2 len2 i s) initMatrices

/-- The loop `while (a > lo) { seq[sindx++] = t[a-1]; a--; }`: the characters
it writes, in write order. -/
def copyDown (t : List Char) (lo : Nat) : Nat → List Char
  | 0 => []
  | a + 1 => if a + 1 > lo then charAt t a :: copyDown t lo a else []

/-- Local variables of the traceback loop. -/
structure Trace where
  i : Nat
  j : Nat
  max_score : Int
  seq : List Char
  qual : List Char
  matches_ : Nat
  mismatches : Nat
  num_gaps : Nat

/-- Body of the traceback loop (lines 142-173). -/
def traceStep (t1 q1 t2 q2 : List Char) (m : Matrices) (s : Trace) : Trace :=
  if m.B s.i s.j = 0 then
    let c := if charAt q1 (s.i - 1) > charAt q2 (s.j - 1) then charAt t1 (s.i - 1) else charAt t2 (s.j - 1)
    let q := if charAt q1 (s.i - 1) > charAt q2 (s.j - 1) then charAt q1 (s.i - 1) else charAt q2 (s.j - 1)
    let differ := charAt t1 (s.i - 1) ≠ charAt t2 (s.j - 1)
    { i := s.i - 1, j := s.j - 1, max_score := m.A (s.i - 1) (s.j - 1),
      seq := s.seq ++ [c], qual := s.qual ++ [q],
      matches_ := if differ then s.matches_ else s.matches_ + 1,
      mismatches := if differ then s.mismatches + 1 else s.mismatches,
      num_gaps := s.num_gaps }
  else if m.B s.i s.j = 1 then
    let keep := charAt q1 (s.i - 1) > '5'
    { i := s.i - 1, j := s.j, max_score := m.A (s.i - 1) s.j,
      seq := if keep then s.seq ++ [charAt t1 (s.i - 1)] else s.seq,
      qual := if keep then s.qual ++ [charAt q1 (s.i - 1)] else s.qual,
      matches_ := s.matches_, mismatches := s.mismatches, num_gaps := s.num_gaps + 1 }
  else if m.B s.i s.j = 2 then
    let keep := charAt q2 (s.j - 1) > '5'
    { i := s.i, j := s.j - 1, max_score := m.A s.i (s.j - 1),
      seq := if keep then s.seq ++ [charAt t2 (s.j - 1)] else s.seq,
      qual := if keep then s.qual ++ [charAt q2 (s.j - 1)] else s.qual,
      matches_ := s.matches_, mismatches := s.mismatches, num_gaps := s.num_gaps + 1 }
  else
    { s with max_score := m.A s.i s.j }

/-- The loop `while ((max_score > 0) && (i >= 1) && (j >= 1))`, run for at
most `fuel` iterations. -/
def traceLoop (t1 q1 t2 q2 : List Char) (m : Matrices) : Nat → Trace → Trace
  | 0, s => s
  | fuel + 1, s =>
    if s.max_score > 0 ∧ s.i ≥ 1 ∧ s.j ≥ 1 then
      traceLoop t1 q1 t2 q2 m fuel (traceStep t1 q1 t2 q2 m s)
    else s

/-- What `Align` hands back: `*gaps`, the merged `*pseq` and `*pqual`, and the
two counters from which `*pid` is computed. -/
structure Alignment where
  gaps : Nat
  matches_ : Nat
  mismatches : Nat
  seq : List Char
  qual : List Char
deriving DecidableEq

/-- The function `Align` (lines 43-213).  `len1`, `len2` are the matrix
dimensions `end - zstart + 1`; the loop runs on `t1 = seq1 + zstart1` and
`t2 = seq2 + zstart2`.  Every iteration of the traceback loop lowers `i + j`,
so `optlox + optloy` iterations exhaust it. -/
def Align (seq1 qual1 : List Char) (zstart1 end1 : Nat) (seq2 qual2 : List Char)
    (zstart2 end2 : Nat) (is_right_gapped : Bool) : Alignment :=
  let len1 := end1 - zstart1 + 1
  let len2 := end2 - zstart2 + 1
  let t1 := seq1.drop zstart1
  let q1 := qual1.drop zstart1
  let t2 := seq2.drop zstart2
  let q2 := qual2.drop zstart2
  let m := fill t1 t2 len1 len2
  let start : Trace :=
    if is_right_gapped then
      if len1 > len2 then
        { i := m.optlox, j := m.optloy, max_score := m.best,
          seq := copyDown t1 m.optloy (len1 - 1), qual := copyDown q1 m.optloy (len1 - 1),
          matches_ := 0, mismatches := 0, num_gaps := 0 }
      else
        { i := m.optlox, j := m.optloy, max_score := m.best,
          seq := copyDown t2 m.optloy (len2 - 1), qual := copyDown q2 m.optloy (len2 - 1),
          matches_ := 0, mismatches := 0, num_gaps := 0 }
    else
      { i := m.optlox, j := m.optloy, max_score := m.best, seq := [], qual := [],
        matches_ := 0, mismatches := 0, num_gaps := len2 - m.optloy - 1 }
  let s := traceLoop t1 q1 t2 q2 m (m.optlox + m.optloy) start
  let num_gaps := if is_right_gapped then max s.i s.j - min s.i s.j else s.num_gaps
  let seq :=
    if is_right_gapped then s.seq
    else if len1 > len2 then s.seq ++ copyDown t1 0 s.i
    else s.seq ++ copyDown t2 0 s.j
  let qual :=
    if is_right_gapped then s.qual
    else if len1 > len2 then s.qual ++ copyDown q1 0 s.i
    else s.qual ++ copyDown q2 0 s.j
  { gaps := num_gaps, matches_ := s.matches_, mismatches := s.mismatches,
    seq := Reverse seq seq.length, qual := Reverse qual seq.length }

/-! ## `AlignFlanks` -/

/-- The value `*pid = matches * 100.0 / (matches + mismatches)`; `none` is the
NaN of `0.0 / 0`. -/
def Alignment.pid (a : Alignment) : Option ℚ :=
  if a.matches_ + a.mismatches = 0 then none
  else some ((a.matches_ : ℚ) * 100 / ((a.matches_ + a.mismatches : Nat) : ℚ))

/-- The comparison `pid < pid_threshold` of lines 235 and 253, decided on the
exact fraction `matches * 100 / (matches + mismatches)` by cross-multiplication;
every comparison with NaN (zero denominator) is false. -/
def pidBelow (a : Alignment) : Bool :=
  decide (a.matches_ + a.mismatches ≠ 0 ∧ a.matches_ * 100 < 90 * (a.matches_ + a.mismatches))

/-- The test `(pid < pid_threshold) || (gaps > 2)` of lines 235 and 253. -/
def rejected (a : Alignment) : Bool :=
  pidBelow a || decide (a.gaps > 2)

/-- Modelled from the spec: the list helper `SllAddHead(&list, node)` of the
utilities library, which is not part of the source file.  It pushes `node` in
front of the list whose head pointer it is given and stores the new head
through that pointer; the value here is the new head. -/
def SllAddHead {α : Type} (plist : List α) (node : α) : List α :=
  node :: plist

/-- The loop of lines 271-278: the tally after the search for `copies`, and
the flag `found`. -/
def bumpSupport (copies : Int) : List Copies → List Copies × Bool
  | [] => ([], false)
  | iter :: next =>
    if iter.copies = copies then
      ({ copies := iter.copies, nsupport := iter.nsupport + 1 } :: next, true)
    else ((iter :: (bumpSupport copies next).1), (bumpSupport copies next).2)

/-- The function `AlignFlanks` (lines 215-308): the returned flag and the
block as the call leaves it.  The parameter `max_threshold` is unused in the
source and left out. -/
def AlignFlanks (block : Block) (seq : FastqSequence) (motif : List Char) (copies : Int)
    (zstart end_ : Nat) : Bool × Block :=
  let l := Align block.seq block.qual 0 block.zstart seq.bases seq.quals 0 zstart false
  if rejected l then (false, block)
  else
    let r := Align block.seq block.qual block.end_ block.slen seq.bases seq.quals end_ seq.slen true
    if rejected r then (false, block)
    else
      let zstart1 := l.seq.length
      let found := bumpSupport copies block.supports
      let supports1 :=
        if found.2 = false then SllAddHead found.1 { copies := copies, nsupport := 1 }
        else found.1
      let end1 := zstart1 + motif.length
      let slen1 := end1 + r.seq.length
      (true,
        { seq := l.seq.take zstart1 ++ motif ++ r.seq.take (slen1 - end1),
          qual := l.qual.take zstart1 ++ List.replicate motif.length '!' ++ r.qual.take (slen1 - end1),
          zstart := zstart1, end_ := end1, slen := slen1,
          support := block.support + 1, supports := supports1 })

/-! ## Block store and read processing -/

/-- The hash map `blocks`: keys with the chain stored under each. -/
abbrev Store := List (List Char × List Block)

/-- The test `CheckInSparseWordHashMap(blocks, buffer)`. -/
def CheckInSparseWordHashMap (blocks : Store) (buffer : List Char) : Bool :=
  blocks.any (fun e => decide (e.1 = buffer))

/-- The chain `blocks[buffer]` of a key that is present. -/
def chainOf : Store → List Char → List Block
  | [], _ => []
  | e :: rest, buffer => if e.1 = buffer then e.2 else chainOf rest buffer

/-- The store after the blocks of the chain under `buffer` were updated in place. -/
def setChain : Store → List Char → List Block → Store
  | [], _, _ => []
  | e :: rest, buffer, chain =>
    if e.1 = buffer then (e.1, chain) :: rest else e :: setChain rest buffer chain

/-- Copy of `n` characters from offset `off` of `src` (`memcpy(dst, src + off, n)`). -/
def memcpy (src : List Char) (off n : Nat) : List Char :=
  (src.drop off).take n

/-- The key written into `buffer` (lines 361-365 and 383-387):
`sprintf(buffer, "%s %s %s", motif, lflank, rflank)`. -/
def flankKey (motif bases : List Char) (klength zstart end_ : Nat) : List Char :=
  let lflank := memcpy bases (zstart - klength) klength
  let rflank := memcpy bases end_ klength
  motif ++ [' '] ++ lflank ++ [' '] ++ rflank

/-- Modelled from the spec: `ReverseComplementSequence` of the reader library
(an external collaborator): bases reversed and complemented through the table
`comp`, qualities reversed, length kept. -/
def ReverseComplementSequence (comp : Char → Char) (sequence : FastqSequence) : FastqSequence :=
  { bases := sequence.bases.reverse.map comp, quals := sequence.quals.reverse,
    slen := sequence.slen }

/-- The chain walk of lines 372-378 and 394-400: `merged_block` and the chain
afterwards. -/
def walkChain (sequence : FastqSequence) (motif : List Char) (copies : Int)
    (zstart end_ : Nat) : List Block → Bool × List Block
  | [] => (false, [])
  | iter :: next =>
    if (AlignFlanks iter sequence motif copies zstart end_).1 then
      (true, (AlignFlanks iter sequence motif copies zstart end_).2 :: next)
    else
      ((walkChain sequence motif copies zstart end_ next).1,
        (AlignFlanks iter sequence motif copies zstart end_).2 ::
          (walkChain sequence motif copies zstart end_ next).2)

/-- One merge attempt under the key in `buffer` (lines 368-379, 390-401). -/
def tryKey (blocks : Store) (buffer : List Char) (sequence : FastqSequence)
    (motif : List Char) (copies : Int) (zstart end_ : Nat) : Bool × Store :=
  if CheckInSparseWordHashMap blocks buffer then
    ((walkChain sequence motif copies zstart end_ (chainOf blocks buffer)).1,
      setChain blocks buffer (walkChain sequence motif copies zstart end_ (chainOf blocks buffer)).2)
  else (false, blocks)

/-- The block built at lines 405-414 from the reverse-oriented fields. -/
def newBlock (sequence : FastqSequence) (h : Header) : Block :=
  { zstart := h.rzstart, end_ := h.rend, slen := sequence.slen, support := 1,
    seq := sequence.bases, qual := sequence.quals,
    supports := [{ copies := h.rcopies, nsupport := 1 }] }

/-- Lines 417-422: the store after the insertion, and the local variable
`head` of the branch `in_hash == TRUE` (empty in the other branch).
`SllAddHead(&head, block)` assigns the local copy of the chain head; the map
entry is not assigned. -/
def insertBlock (blocks : Store) (buffer : List Char) (in_hash : Bool) (block : Block) :
    Store × List Block :=
  if in_hash then (blocks, SllAddHead (chainOf blocks buffer) block)
  else (blocks ++ [(buffer, [block])], [])

/-- Body of the read loop of `MergeShortTandemRepeatReads` (lines 359-423). -/
def processRead (comp : Char → Char) (klength : Nat) (blocks : Store)
    (sequence : FastqSequence) (h : Header) : Store :=
  let fwd := tryKey blocks (flankKey h.fmotif sequence.bases klength h.fzstart h.fend)
    sequence h.fmotif h.fcopies h.fzstart h.fend
  if fwd.1 then fwd.2
  else
    let rc := ReverseComplementSequence comp sequence
    let buffer := flankKey h.rmotif rc.bases klength h.rzstart h.rend
    let rev := tryKey fwd.2 buffer rc h.rmotif h.rcopies h.rzstart h.rend
    if rev.1 then rev.2
    else (insertBlock rev.2 buffer (CheckInSparseWordHashMap fwd.2 buffer) (newBlock rc h)).1

/-- The read loop of `MergeShortTandemRepeatReads`: the store after all reads. -/
def mergeReads (comp : Char → Char) (klength : Nat)
    (reads : List (FastqSequence × Header)) : Store :=
  reads.foldl (fun blocks r => processRead comp klength blocks r.1 r.2) []

/-! ## Emitter -/

/-- The locals `i`, `maxcopies`, `copies[3]`, `nsupport[3]` of the emitter. -/
structure Kept where
  i : Nat
  maxcopies : Int
  copies : List Nat
  nsupport : List Nat
deriving DecidableEq

/-- Lines 444-449. -/
def initKept : Kept :=
  { i := 0, maxcopies := 0, copies := [0, 0, 0], nsupport := [0, 0, 0] }

/-- Lines 451-456; the stores into the `uint16_t` slots reduce modulo `2^16`. -/
def keepStep (k : Kept) (tmp : Copies) : Kept :=
  if tmp.nsupport ≥ 2 then
    { i := k.i + 1,
      maxcopies :=
        if ((tmp.copies % 65536).toNat : Int) > k.maxcopies then ((tmp.copies % 65536).toNat : Int)
        else k.maxcopies,
      copies := k.copies.set k.i (tmp.copies % 65536).toNat,
      nsupport := k.nsupport.set k.i (tmp.nsupport % 65536) }
  else k

/-- The loop of lines 450-458 over the tally, with its `if (i == 3) break`. -/
def scanSupports : List Copies → Kept → Kept
  | [], k => k
  | tmp :: next, k =>
    if (keepStep k tmp).i = 3 then keepStep k tmp else scanSupports next (keepStep k tmp)

/-- The two nested conditions of lines 460-463 that guard the output of a block. -/
def emitted (min_threshold max_threshold : Nat) (include_all : Bool) (iter : Block) : Bool :=
  let k := scanSupports iter.supports initKept
  (decide (iter.support ≥ min_threshold) && decide (iter.support ≤ max_threshold)) &&
    ((!include_all && k.copies.getD 2 0 == 0 && k.copies.getD 1 0 != 0) ||
      (include_all && k.copies.getD 2 0 == 0))

/-- The function `isspace` of the C locale. -/
def isspace (c : Char) : Bool :=
  c = ' ' || c = '\t' || c = '\n' || c = Char.ofNat 11 || c = Char.ofNat 12 || c = '\r'

/-- The motif that `sscanf(key, "%s %*s %*s", fmotif)` reads back from a
stored key (line 437): the first blank-delimited token. -/
def keyMotif (key : List Char) : List Char :=
  (key.dropWhile isspace).takeWhile (fun c => !isspace c)

/-- The condition of `ForceAssert` at line 471. -/
def assertion (fmotif : List Char) (iter : Block) : Bool :=
  decide (iter.end_ = iter.zstart + fmotif.length)

/-- Complement table of DNA bases, used for the worked examples. -/
def dnaComplement (c : Char) : Char :=
  if c = 'A' then 'T' else if c = 'T' then 'A' else if c = 'C' then 'G'
  else if c = 'G' then 'C' else c

/-- A motif as `sscanf("%s")` delivers it from the name of a read: a
non-empty token without blanks. -/
def isToken (motif : List Char) : Prop :=
  motif ≠ [] ∧ ∀ c ∈ motif, isspace c = false

instance (motif : List Char) : Decidable (isToken motif) := by
  unfold isToken
  infer_instance

/-- What a block is after its creation or after a merge under the key `key`:
either it is as created (support 1, a single tally entry with `nsupport = 1`),
or a read has been merged into it and its repeat region holds one copy of the
motif of the key. -/
def spanInv (key : List Char) (b : Block) : Prop :=
  (b.support = 1 ∧ ∃ c, b.supports = [{ copies := c, nsupport := 1 }]) ∨
    (2 ≤ b.support ∧ b.end_ = b.zstart + (keyMotif key).length)

/-! ## The traceback of `Align` by parts -/

/-- The locals of `Align` when the traceback loop is entered (lines 112-139):
in right-flank mode the overhang is already in the buffers, in left-flank mode
`num_gaps` starts at `len2 - optloy - 1`. -/
def traceStart (t1 q1 t2 q2 : List Char) (len1 len2 : Nat) (is_right_gapped : Bool) : Trace :=
  if is_right_gapped then
    if len1 > len2 then
      { i := (fill t1 t2 len1 len2).optlox, j := (fill t1 t2 len1 len2).optloy,
        max_score := (fill t1 t2 len1 len2).best,
        seq := copyDown t1 (fill t1 t2 len1 len2).optloy (len1 - 1),
        qual := copyDown q1 (fill t1 t2 len1 len2).optloy (len1 - 1),
        matches_ := 0, mismatches := 0, num_gaps := 0 }
    else
      { i := (fill t1 t2 len1 len2).optlox, j := (fill t1 t2 len1 len2).optloy,
        max_score := (fill t1 t2 len1 len2).best,
        seq := copyDown t2 (fill t1 t2 len1 len2).optloy (len2 - 1),
        qual := copyDown q2 (fill t1 t2 len1 len2).optloy (len2 - 1),
        matches_ := 0, mismatches := 0, num_gaps := 0 }
  else
    { i := (fill t1 t2 len1 len2).optlox, j := (fill t1 t2 len1 len2).optloy,
      max_score := (fill t1 t2 len1 len2).best, seq := [], qual := [],
      matches_ := 0, mismatches := 0,
      num_gaps := len2 - (fill t1 t2 len1 len2).optloy - 1 }

/-- The locals of `Align` when the traceback loop is left (line 174). -/
def traceEnd (t1 q1 t2 q2 : List Char) (len1 len2 : Nat) (is_right_gapped : Bool) : Trace :=
  traceLoop t1 q1 t2 q2 (fill t1 t2 len1 len2)
    ((fill t1 t2 len1 len2).optlox + (fill t1 t2 len1 len2).optloy)
    (traceStart t1 q1 t2 q2 len1 len2 is_right_gapped)

/-- Number of iterations of the traceback loop that take a gap branch
(`B[i][j] == 1` or `B[i][j] == 2`), counted along the run of `traceLoop`. -/
def gapSteps (t1 q1 t2 q2 : List Char) (m : Matrices) : Nat → Trace → Nat
  | 0, _ => 0
  | fuel + 1, s =>
    if s.max_score > 0 ∧ s.i ≥ 1 ∧ s.j ≥ 1 then
      (if m.B s.i s.j = 1 ∨ m.B s.i s.j = 2 then 1 else 0) +
        gapSteps t1 q1 t2 q2 m fuel (traceStep t1 q1 t2 q2 m s)
    else 0

/-- The body of `Align` after the pointer arithmetic of lines 53-59: the
alignment of the regions `t1`, `t2` (with qualities `q1`, `q2`) for matrix
dimensions `len1`, `len2`, put together from `traceStart` and `traceEnd`. -/
def alignRegions (t1 q1 t2 q2 : List Char) (len1 len2 : Nat) (is_right_gapped : Bool) :
    Alignment :=
  { gaps :=
      if is_right_gapped then
        max (traceEnd t1 q1 t2 q2 len1 len2 is_right_gapped).i
            (traceEnd t1 q1 t2 q2 len1 len2 is_right_gapped).j -
          min (traceEnd t1 q1 t2 q2 len1 len2 is_right_gapped).i
            (traceEnd t1 q1 t2 q2 len1 len2 is_right_gapped).j
      else (traceEnd t1 q1 t2 q2 len1 len2 is_right_gapped).num_gaps,
    matches_ := (traceEnd t1 q1 t2 q2 len1 len2 is_right_gapped).matches_,
    mismatches := (traceEnd t1 q1 t2 q2 len1 len2 is_right_gapped).mismatches,
    seq :=
      (if is_right_gapped then (traceEnd t1 q1 t2 q2 len1 len2 is_right_gapped).seq
        else if len1 > len2 then
          (traceEnd t1 q1 t2 q2 len1 len2 is_right_gapped).seq ++
            copyDown t1 0 (traceEnd t1 q1 t2 q2 len1 len2 is_right_gapped).i
        else
          (traceEnd t1 q1 t2 q2 len1 len2 is_right_gapped).seq ++
            copyDown t2 0 (traceEnd t1 q1 t2 q2 len1 len2 is_right_gapped).j).reverse,
    qual :=
      (if is_right_gapped then (traceEnd t1 q1 t2 q2 len1 len2 is_right_gapped).qual
        else if len1 > len2 then
          (traceEnd t1 q1 t2 q2 len1 len2 is_right_gapped).qual ++
            copyDown q1 0 (traceEnd t1 q1 t2 q2 len1 len2 is_right_gapped).i
        else
          (traceEnd t1 q1 t2 q2 len1 len2 is_right_gapped).qual ++
            copyDown q2 0 (traceEnd t1 q1 t2 q2 len1 len2 is_right_gapped).j).reverse }

/-! ## The score matrix in closed form -/

/-- Row `i` of the score matrix computed from the row above it (`prev`): column
0 is the zero border, column `j + 1` follows lines 83-93. -/
def scoreRow (t1 t2 : List Char) (i : Nat) (prev : Nat → Int) : Nat → Int
  | 0 => 0
  | j + 1 =>
    max (max (scoreRow t1 t2 i prev j + gapScore) (prev (j + 1) + gapScore))
      (max (if charAt t1 (i - 1) = charAt t2 j then prev j + matchScore
        else prev j + mismatchScore) 0)

/-- The value that the fill loop stores in `A[i][j]`, as a function of the two
regions alone: zero borders and the recurrence of lines 83-93. -/
def scoreAt (t1 t2 : List Char) : Nat → Nat → Int
  | 0 => fun _ => 0
  | i + 1 => scoreRow t1 t2 (i + 1) (scoreAt t1 t2 i)

/-- The value that the fill loop stores in `B[i][j]` (lines 95-101); a cell
whose score equals none of the three candidates keeps the 0 of the allocation. -/
def dirAt (t1 t2 : List Char) (i j : Nat) : Nat :=
  if scoreAt t1 t2 i j =
      (if charAt t1 (i - 1) = charAt t2 (j - 1) then scoreAt t1 t2 (i - 1) (j - 1) + matchScore
        else scoreAt t1 t2 (i - 1) (j - 1) + mismatchScore) then 0
  else if scoreAt t1 t2 i j = scoreAt t1 t2 (i - 1) j + gapScore then 1
  else if scoreAt t1 t2 i j = scoreAt t1 t2 i (j - 1) + gapScore then 2
  else 0

/-- The cells that the fill loop has written when it is in row `i` and has
finished column `c` of it (rows and columns start at 1, columns end before
`len2`). -/
def filled (len2 i c x y : Nat) : Prop :=
  1 ≤ x ∧ 1 ≤ y ∧ y < len2 ∧ (x < i ∨ (x = i ∧ y ≤ c))

/-- Loop invariant of the fill: written cells hold `scoreAt` and `dirAt`, all
other cells are zero, `best` bounds the written cells and `(optlox, optloy)` is
the last written cell, in row-major order, that holds `best`. -/
def FillInv (t1 t2 : List Char) (len2 i c : Nat) (m : Matrices) : Prop :=
  (∀ x y, filled len2 i c x y → m.A x y = scoreAt t1 t2 x y) ∧
  (∀ x y, ¬ filled len2 i c x y → m.A x y = 0) ∧
  (∀ x y, filled len2 i c x y → m.B x y = dirAt t1 t2 x y) ∧
  (∀ x y, ¬ filled len2 i c x y → m.B x y = 0) ∧
  (∀ x y, filled len2 i c x y → scoreAt t1 t2 x y ≤ m.best) ∧
  ((∃ x y, filled len2 i c x y) →
    filled len2 i c m.optlox m.optloy ∧ scoreAt t1 t2 m.optlox m.optloy = m.best ∧
    ∀ x y, filled len2 i c x y → scoreAt t1 t2 x y = m.best →
      x < m.optlox ∨ (x = m.optlox ∧ y ≤ m.optloy)) ∧
  ((¬ ∃ x y, filled len2 i c x y) → m.best = 0 ∧ m.optlox = 0 ∧ m.optloy = 0)

/-- The value that the body of the fill loop stores in `A[i][j]` (line 93). -/
def cellValue (t1 t2 : List Char) (i j : Nat) (m : Matrices) : Int :=
  max (max (m.A i (j - 1) + gapScore) (m.A (i - 1) j + gapScore))
    (max (if charAt t1 (i - 1) = charAt t2 (j - 1) then m.A (i - 1) (j - 1) + matchScore
      else m.A (i - 1) (j - 1) + mismatchScore) 0)

/-! ## The record written for a block -/

/-- Output of `printf("%d", n)` for a non-negative `n`. -/
def printDec (n : Nat) : List Char :=
  Nat.toDigits 10 n

/-- The copy numbers of the header (lines 465-469): `copies[0]` alone when
`include_all` holds and the second slot is empty, else `copies[0],copies[1]`. -/
def copiesText (include_all : Bool) (k : Kept) : List Char :=
  if include_all && k.copies.getD 1 0 == 0 then printDec (k.copies.getD 0 0)
  else printDec (k.copies.getD 0 0) ++ [','] ++ printDec (k.copies.getD 1 0)

/-- The header line of a block (lines 464-473), with its newline. -/
def headerLine (bindex : Nat) (fmotif : List Char) (include_all : Bool) (iter : Block) :
    List Char :=
  "@Block".toList ++ printDec bindex ++ ['\t'] ++ fmotif ++ ['\t'] ++
    copiesText include_all (scanSupports iter.supports initKept) ++ ['\t'] ++
    printDec iter.zstart ++ ['\t'] ++
    printDec (iter.zstart +
      (scanSupports iter.supports initKept).maxcopies.toNat * fmotif.length) ++ ['\n']

/-- The sequence line of a block (lines 475-483), without its newline: the
three `printf` loops. -/
def seqLine (fmotif : List Char) (iter : Block) : List Char :=
  (List.range iter.zstart).map (charAt iter.seq) ++
    ((List.range (scanSupports iter.supports initKept).maxcopies.toNat).map
      (fun _ => fmotif)).flatten ++
    (List.range' iter.end_ (iter.slen - iter.end_)).map (charAt iter.seq)

/-- The quality line of a block (lines 486-494), without its newline. -/
def qualLine (fmotif : List Char) (iter : Block) : List Char :=
  (List.range iter.zstart).map (charAt iter.qual) ++
    (List.range ((scanSupports iter.supports initKept).maxcopies.toNat * fmotif.length)).map
      (fun _ => '!') ++
    (List.range' iter.end_ (iter.slen - iter.end_)).map (charAt iter.qual)

/-- Everything that lines 464-495 write for a block that passes the filter
and the assertion. -/
def printBlock (bindex : Nat) (fmotif : List Char) (include_all : Bool) (iter : Block) :
    List Char :=
  headerLine bindex fmotif include_all iter ++ seqLine fmotif iter ++ "\n+\n".toList ++
    qualLine fmotif iter ++ ['\n']

/-! ## Worked inputs -/

/-- A block whose left flank `AAA` shares no base with the left flank `C` of
`nanRead`: the state of the block of key `CA C T` once the read `AAATC·CA·T`
was merged into the block created from `AAAC·CACA·T`. -/
def nanBlock : Block :=
  { seq := "AAACAT".toList, qual := "III!!I".toList, zstart := 3, end_ := 5, slen := 6,
    support := 2, supports := [{ copies := 1, nsupport := 1 }, { copies := 2, nsupport := 1 }] }

/-- The read `C·CA·T` (reverse orientation), annotated with `zstart = 1`, `end = 3`. -/
def nanRead : FastqSequence :=
  { bases := "CCAT".toList, quals := "IIII".toList, slen := 4 }

/-- Three reads (as read from the file, forward orientation) whose reverse
complements are `AAAC·CACA·T`, `AAATC·CA·T` and `C·CA·T`. -/
def nanReads : List (FastqSequence × Header) :=
  [({ bases := "ATGTGGTTT".toList, quals := "IIIIIIIII".toList, slen := 9 },
    { fmotif := "TG".toList, fcopies := 2, fzstart := 1, fend := 5,
      rmotif := "CA".toList, rcopies := 2, rzstart := 4, rend := 8 }),
   ({ bases := "ATGGATTT".toList, quals := "IIIIIIII".toList, slen := 8 },
    { fmotif := "TG".toList, fcopies := 1, fzstart := 1, fend := 3,
      rmotif := "CA".toList, rcopies := 1, rzstart := 5, rend := 7 }),
   ({ bases := "ATGG".toList, quals := "IIII".toList, slen := 4 },
    { fmotif := "TG".toList, fcopies := 1, fzstart := 1, fend := 3,
      rmotif := "CA".toList, rcopies := 1, rzstart := 1, rend := 3 })]

/-- The block of key `CA C T` after all three reads of `nanReads`. -/
def mergedBlock : Block :=
  { seq := "AAACAT".toList, qual := "III!!I".toList, zstart := 3, end_ := 5, slen := 6,
    support := 3, supports := [{ copies := 1, nsupport := 2 }, { copies := 2, nsupport := 1 }] }

/-- The block that the first read of `nanReads` creates: the whole read
`AAAC·CACA·T` with the repeat range `[4, 8)` of its annotation. -/
def firstBlock : Block :=
  { seq := "AAACCACAT".toList, qual := "IIIIIIIII".toList, zstart := 4, end_ := 8, slen := 9,
    support := 1, supports := [{ copies := 2, nsupport := 1 }] }

/-- Two reads (forward orientation) whose reverse complements `G·CACA·TA`
and `G·CA·TCCCTA` have the same key `CA G T`; the right flank of the second
aligns with that of the first only after four extra bases. -/
def lostReads : List (FastqSequence × Header) :=
  [({ bases := "TATGTGC".toList, quals := "IIIIIII".toList, slen := 7 },
    { fmotif := "TG".toList, fcopies := 2, fzstart := 2, fend := 6,
      rmotif := "CA".toList, rcopies := 2, rzstart := 1, rend := 5 }),
   ({ bases := "TAGGGATGC".toList, quals := "IIIIIIIII".toList, slen := 9 },
    { fmotif := "TG".toList, fcopies := 1, fzstart := 6, fend := 8,
      rmotif := "CA".toList, rcopies := 1, rzstart := 1, rend := 3 })]

/-- The block created from the first read of `lostReads`. -/
def keptBlock : Block :=
  { seq := "GCACATA".toList, qual := "IIIIIII".toList, zstart := 1, end_ := 5, slen := 7,
    support := 1, supports := [{ copies := 2, nsupport := 1 }] }

/-- The block created from the second read of `lostReads`. -/
def lostBlock : Block :=
  { seq := "GCATCCCTA".toList, qual := "IIIIIIIII".toList, zstart := 1, end_ := 3, slen := 9,
    support := 1, supports := [{ copies := 1, nsupport := 1 }] }

/-- A block with the tally of the biallelic-filter example: copy number 10
seen twice and copy number 12 seen once (the later entry is the head). -/
def oneAlleleBlock : Block :=
  { seq := "GACAT".toList, qual := "II!!I".toList, zstart := 2, end_ := 4, slen := 5,
    support := 3, supports := [{ copies := 12, nsupport := 1 }, { copies := 10, nsupport := 2 }] }

/-- Four reads (forward orientation) whose reverse complements are
`G·CA·T`, `G·CACA·T`, `G·CACACA·T` and `G·CACACACA·T`: the same key `CA G T`,
identical flanks, four different copy numbers. -/
def noAlleleReads : List (FastqSequence × Header) :=
  [({ bases := "ATGC".toList, quals := "IIII".toList, slen := 4 },
    { fmotif := "TG".toList, fcopies := 1, fzstart := 1, fend := 3,
      rmotif := "CA".toList, rcopies := 1, rzstart := 1, rend := 3 }),
   ({ bases := "ATGTGC".toList, quals := "IIIIII".toList, slen := 6 },
    { fmotif := "TG".toList, fcopies := 2, fzstart := 1, fend := 5,
      rmotif := "CA".toList, rcopies := 2, rzstart := 1, rend := 5 }),
   ({ bases := "ATGTGTGC".toList, quals := "IIIIIIII".toList, slen := 8 },
    { fmotif := "TG".toList, fcopies := 3, fzstart := 1, fend := 7,
      rmotif := "CA".toList, rcopies := 3, rzstart := 1, rend := 7 }),
   ({ bases := "ATGTGTGTGC".toList, quals := "IIIIIIIIII".toList, slen := 10 },
    { fmotif := "TG".toList, fcopies := 4, fzstart := 1, fend := 9,
      rmotif := "CA".toList, rcopies := 4, rzstart := 1, rend := 9 })]

/-- The block that the reads `noAlleleReads` are merged into: support 4, and
no tally entry with `nsupport = 2`. -/
def noAlleleBlock : Block :=
  { seq := "GCAT".toList, qual := "I!!I".toList, zstart := 1, end_ := 3, slen := 4,
    support := 4,
    supports := [{ copies := 4, nsupport := 1 }, { copies := 3, nsupport := 1 },
      { copies := 2, nsupport := 1 }, { copies := 1, nsupport := 1 }] }

/-- A block `G·CA·TCC` of the key `CA G T`. -/
def secondAllele : Block :=
  { seq := "GCATCC".toList, qual := "IIIIII".toList, zstart := 1, end_ := 3, slen := 6,
    support := 1, supports := [{ copies := 1, nsupport := 1 }] }

/-- A block with left flank `A`, repeat `CA`, right flank `T`. -/
def sampleBlock : Block :=
  { seq := "ACAT".toList, qual := "IIII".toList, zstart := 1, end_ := 3, slen := 4,
    support := 1, supports := [{ copies := 1, nsupport := 1 }] }

/-- The read `ACCC·CA·T`: its left flank aligns with `sampleBlock` at the
first base only, three bases before the repeat. -/
def farRead : FastqSequence :=
  { bases := "ACCCCAT".toList, quals := "IIIIIII".toList, slen := 7 }

/-- The read `GA·CACA·T`, which extends the left flank of `sampleBlock`. -/
def nearRead : FastqSequence :=
  { bases := "GACACAT".toList, quals := "JJJJJJJ".toList, slen := 7 }

/-- A block `G·CA·TACGT` and the read `G·CA·TCG` (next definition): the right
flanks align best at cell `(4, 3)`, `CG` against `CG`. -/
def dupBlock : Block :=
  { seq := "GCATACGT".toList, qual := "IIIIIIII".toList, zstart := 1, end_ := 3, slen := 8,
    support := 1, supports := [{ copies := 1, nsupport := 1 }] }

/-- The read `G·CA·TCG`. -/
def dupRead : FastqSequence :=
  { bases := "GCATCG".toList, quals := "JJJJJJ".toList, slen := 6 }

/-- Two reads (forward orientation) whose reverse complements are
`G·CA·TACGT` and `G·CA·TCG`; the first one creates `dupBlock`. -/
def dupReads : List (FastqSequence × Header) :=
  [({ bases := "ACGTATGC".toList, quals := "IIIIIIII".toList, slen := 8 },
    { fmotif := "TG".toList, fcopies := 1, fzstart := 5, fend := 7,
      rmotif := "CA".toList, rcopies := 1, rzstart := 1, rend := 3 }),
   ({ bases := "CGATGC".toList, quals := "JJJJJJ".toList, slen := 6 },
    { fmotif := "TG".toList, fcopies := 1, fzstart := 3, fend := 5,
      rmotif := "CA".toList, rcopies := 1, rzstart := 1, rend := 3 })]

/-- A traceback state at cell `(1, 1)` with empty buffers. -/
def cellOne : Trace :=
  { i := 1, j := 1, max_score := 1, seq := [], qual := [], matches_ := 0, mismatches := 0,
    num_gaps := 0 }

/-- A block with `zstart = 5`, the motif `CA` at `[5, 7)`, a right flank of two
bases, and two alleles of 2 and 3 copies, each seen twice. -/
def renderBlock : Block :=
  { seq := "GGGGGCATT".toList, qual := "IIIII!!JJ".toList, zstart := 5, end_ := 7, slen := 9,
    support := 4, supports := [{ copies := 2, nsupport := 2 }, { copies := 3, nsupport := 2 }] }

/-- Four reads (forward orientation) whose reverse complements are
`G·CACA·T`, `G·CA·T`, `G·CACA·T`, `G·CA·T`: copy number 2 is seen first, copy
number 1 second, each of them twice. -/
def orderReads : List (FastqSequence × Header) :=
  [({ bases := "ATGTGC".toList, quals := "IIIIII".toList, slen := 6 },
    { fmotif := "TG".toList, fcopies := 2, fzstart := 1, fend := 5,
      rmotif := "CA".toList, rcopies := 2, rzstart := 1, rend := 5 }),
   ({ bases := "ATGC".toList, quals := "IIII".toList, slen := 4 },
    { fmotif := "TG".toList, fcopies := 1, fzstart := 1, fend := 3,
      rmotif := "CA".toList, rcopies := 1, rzstart := 1, rend := 3 }),
   ({ bases := "ATGTGC".toList, quals := "IIIIII".toList, slen := 6 },
    { fmotif := "TG".toList, fcopies := 2, fzstart := 1, fend := 5,
      rmotif := "CA".toList, rcopies := 2, rzstart := 1, rend := 5 }),
   ({ bases := "ATGC".toList, quals := "IIII".toList, slen := 4 },
    { fmotif := "TG".toList, fcopies := 1, fzstart := 1, fend := 3,
      rmotif := "CA".toList, rcopies := 1, rzstart := 1, rend := 3 })]

/-- The block that the reads `orderReads` are merged into. -/
def orderBlock : Block :=
  { seq := "GCAT".toList, qual := "I!!I".toList, zstart := 1, end_ := 3, slen := 4,
    support := 4, supports := [{ copies := 1, nsupport := 2 }, { copies := 2, nsupport := 2 }] }

/-- The block created from the first read of `noAlleleReads`, `G·CA·T` with
one copy. -/
def createdBlock : Block :=
  { seq := "GCAT".toList, qual := "IIII".toList, zstart := 1, end_ := 3, slen := 4,
    support := 1, supports := [{ copies := 1, nsupport := 1 }] }

/-- The reverse complement of the second read of `noAlleleReads`, `G·CACA·T`. -/
def twoCopyRead : FastqSequence :=
  { bases := "GCACAT".toList, quals := "IIIIII".toList, slen := 6 }

/-- The reverse complement of the first read of `noAlleleReads`, `G·CA·T`. -/
def oneCopyRead : FastqSequence :=
  { bases := "GCAT".toList, quals := "IIII".toList, slen := 4 }

/-- A block with two alleles seen twice each, one of them with the copy
number 65537, which does not fit the 16-bit slots of the emitter. -/
def truncBlock : Block :=
  { seq := "GCAT".toList, qual := "I!!I".toList, zstart := 1, end_ := 3, slen := 4,
    support := 4,
    supports := [{ copies := 65537, nsupport := 2 }, { copies := 3, nsupport := 2 }] }

/-- The annotation of the read `G·CACA·T` (first read of `orderReads`): two
copies of `CA` at `[1, 5)` in reverse orientation. -/
def supportHeader : Header :=
  { fmotif := "TG".toList, fcopies := 2, fzstart := 1, fend := 5, rmotif := "CA".toList,
    rcopies := 2, rzstart := 1, rend := 5 }

/-- The read `GCCC·CA·T`: its left flank aligns with the left flank `G` of a
block at the first base only, which leaves three gaps before the repeat. -/
def gapRead : FastqSequence :=
  { bases := "GCCCCAT".toList, quals := "IIIIIII".toList, slen := 7 }

/-- Three merge attempts (read, motif, copies, zstart, end) on the block created
from `twoCopyRead`: `G·CA·T` with one copy (accepted), `gapRead` (rejected),
`G·CACA·T` with two copies (accepted). -/
def supportAttempts : List (FastqSequence × List Char × Int × Nat × Nat) :=
  [(oneCopyRead, "CA".toList, 1, 1, 3), (gapRead, "CA".toList, 1, 4, 6),
    (twoCopyRead, "CA".toList, 2, 1, 5)]

/-- The block created from `twoCopyRead` after the attempts `supportAttempts`. -/
def supportBlock : Block :=
  { seq := "GCAT".toList, qual := "I!!I".toList, zstart := 1, end_ := 3, slen := 4,
    support := 3, supports := [{ copies := 1, nsupport := 1 }, { copies := 2, nsupport := 2 }] }

/-! ## Properties of `Align` -/

section AlignLemmas

theorem pidBelow_iff (a : Alignment) :
    pidBelow a = true ↔ ∃ v, a.pid = some v ∧ v < pid_threshold := by
  unfold pidBelow Alignment.pid pid_threshold
  by_cases h0 : a.matches_ + a.mismatches = 0
  · simp [h0]
  · have hpos : (0 : ℚ) < ((a.matches_ + a.mismatches : Nat) : ℚ) := by
      exact_mod_cast Nat.pos_of_ne_zero h0
    simp only [h0, ne_eq, not_false_eq_true, true_and, decide_eq_true_eq, if_false,
      Option.some.injEq, exists_eq_left']
    rw [div_lt_iff₀ hpos]
    constructor
    · intro h
      exact_mod_cast h
    · intro h
      exact_mod_cast h

theorem copyDown_length (t q : List Char) (lo a : Nat) :
    (copyDown t lo a).length = (copyDown q lo a).length := by
  induction a with
  | zero => rfl
  | succ a ih =>
    simp only [copyDown]
    split_ifs
    · simp [ih]
    · rfl

theorem traceStep_lockstep (t1 q1 t2 q2 : List Char) (m : Matrices) (s : Trace)
    (h : s.seq.length = s.qual.length) :
    (traceStep t1 q1 t2 q2 m s).seq.length = (traceStep t1 q1 t2 q2 m s).qual.length := by
  unfold traceStep
  split_ifs <;> simp only [] <;> (try split_ifs) <;> simp [h]

theorem traceLoop_lockstep (t1 q1 t2 q2 : List Char) (m : Matrices) (fuel : Nat) (s : Trace)
    (h : s.seq.length = s.qual.length) :
    (traceLoop t1 q1 t2 q2 m fuel s).seq.length = (traceLoop t1 q1 t2 q2 m fuel s).qual.length := by
  induction fuel generalizing s with
  | zero => simpa [traceLoop] using h
  | succ fuel ih =>
    simp only [traceLoop]
    split_ifs
    · exact ih _ (traceStep_lockstep t1 q1 t2 q2 m s h)
    · exact h

theorem Reverse_length (seq : List Char) (len : Nat) : (Reverse seq len).length = seq.length := by
  simp [Reverse]
  omega

theorem Align_qual_length (seq1 qual1 : List Char) (zstart1 end1 : Nat) (seq2 qual2 : List Char)
    (zstart2 end2 : Nat) (g : Bool) :
    (Align seq1 qual1 zstart1 end1 seq2 qual2 zstart2 end2 g).qual.length =
      (Align seq1 qual1 zstart1 end1 seq2 qual2 zstart2 end2 g).seq.length := by
  simp only [Align, Reverse_length]
  cases g
  · simp only [Bool.false_eq_true, if_false]
    split_ifs
    · rw [List.length_append, List.length_append, copyDown_length _ (List.drop zstart1 seq1)]
      rw [traceLoop_lockstep]
      rfl
    · rw [List.length_append, List.length_append, copyDown_length _ (List.drop zstart2 seq2)]
      rw [traceLoop_lockstep]
      rfl
  · simp only [if_true]
    symm
    apply traceLoop_lockstep
    split_ifs
    · exact copyDown_length _ _ _ _
    · exact copyDown_length _ _ _ _

end AlignLemmas

/-! ### Termination of the traceback -/

section Termination

theorem cellStep_B_le (t1 t2 : List Char) (i j : Nat) (m : Matrices)
    (h : ∀ x y, m.B x y ≤ 2) : ∀ x y, (cellStep t1 t2 i j m).B x y ≤ 2 := by
  intro x y
  have hset : ∀ v : Nat, v ≤ 2 → setCell m.B i j v x y ≤ 2 := by
    intro v hv
    unfold setCell
    split_ifs
    · exact hv
    · exact h x y
  unfold cellStep
  simp only []
  split_ifs <;> first | exact hset _ (by omega) | exact h x y

theorem fillRow_B_le (t1 t2 : List Char) (len2 i : Nat) (m : Matrices)
    (h : ∀ x y, m.B x y ≤ 2) : ∀ x y, (fillRow t1 t2 len2 i m).B x y ≤ 2 := by
  unfold fillRow
  generalize List.range' 1 (len2 - 1) = js
  induction js generalizing m with
  | nil => simpa using h
  | cons j js ih => exact ih _ (cellStep_B_le t1 t2 i j m h)

theorem fill_B_le (t1 t2 : List Char) (len1 len2 : Nat) :
    ∀ x y, (fill t1 t2 len1 len2).B x y ≤ 2 := by
  unfold fill
  have h0 : ∀ x y, initMatrices.B x y ≤ 2 := by
    intro x y
    simp [initMatrices]
  revert h0
  generalize initMatrices = m
  generalize List.range' 1 (len1 - 1) = rows
  induction rows generalizing m with
  | nil => intro h0; simpa using h0
  | cons i rows ih => intro h0; exact ih _ (fillRow_B_le t1 t2 len2 i m h0)

theorem traceStep_lowers (t1 q1 t2 q2 : List Char) (m : Matrices) (s : Trace)
    (hB : m.B s.i s.j ≤ 2) (hi : s.i ≥ 1) (hj : s.j ≥ 1) :
    (traceStep t1 q1 t2 q2 m s).i + (traceStep t1 q1 t2 q2 m s).j < s.i + s.j := by
  unfold traceStep
  split_ifs <;> simp only [] <;> omega

/-- The traceback loop of `Align` has left its guard after `i + j` iterations:
the fuel that `Align` passes is enough. -/
theorem traceLoop_terminates (t1 q1 t2 q2 : List Char) (m : Matrices)
    (hB : ∀ x y, m.B x y ≤ 2) (fuel : Nat) (s : Trace) (h : s.i + s.j ≤ fuel) :
    ¬ ((traceLoop t1 q1 t2 q2 m fuel s).max_score > 0 ∧
        (traceLoop t1 q1 t2 q2 m fuel s).i ≥ 1 ∧ (traceLoop t1 q1 t2 q2 m fuel s).j ≥ 1) := by
  induction fuel generalizing s with
  | zero =>
    simp only [traceLoop]
    omega
  | succ fuel ih =>
    simp only [traceLoop]
    split_ifs with hg
    · have := traceStep_lowers t1 q1 t2 q2 m s (hB _ _) hg.2.1 hg.2.2
      exact ih _ (by omega)
    · exact hg

end Termination

/-! ## Properties of `AlignFlanks` -/

section FlankLemmas

variable (block : Block) (seq : FastqSequence) (motif : List Char) (copies : Int)
  (zstart end_ : Nat)

theorem AlignFlanks_of_rejected
    (h : rejected (Align block.seq block.qual 0 block.zstart seq.bases seq.quals 0 zstart false) = true ∨
      rejected (Align block.seq block.qual block.end_ block.slen seq.bases seq.quals end_ seq.slen true) = true) :
    AlignFlanks block seq motif copies zstart end_ = (false, block) := by
  unfold AlignFlanks
  simp only []
  rcases h with h | h
  · rw [if_pos h]
  · by_cases h1 : rejected (Align block.seq block.qual 0 block.zstart seq.bases seq.quals 0 zstart false) = true
    · rw [if_pos h1]
    · rw [if_neg h1, if_pos h]

theorem AlignFlanks_of_accepted
    (h1 : rejected (Align block.seq block.qual 0 block.zstart seq.bases seq.quals 0 zstart false) = false)
    (h2 : rejected (Align block.seq block.qual block.end_ block.slen seq.bases seq.quals end_ seq.slen true) = false) :
    AlignFlanks block seq motif copies zstart end_ =
      (true,
        { seq := (Align block.seq block.qual 0 block.zstart seq.bases seq.quals 0 zstart false).seq ++ motif ++
            (Align block.seq block.qual block.end_ block.slen seq.bases seq.quals end_ seq.slen true).seq,
          qual := (Align block.seq block.qual 0 block.zstart seq.bases seq.quals 0 zstart false).qual ++
            List.replicate motif.length '!' ++
            (Align block.seq block.qual block.end_ block.slen seq.bases seq.quals end_ seq.slen true).qual,
          zstart := (Align block.seq block.qual 0 block.zstart seq.bases seq.quals 0 zstart false).seq.length,
          end_ := (Align block.seq block.qual 0 block.zstart seq.bases seq.quals 0 zstart false).seq.length +
            motif.length,
          slen := (Align block.seq block.qual 0 block.zstart seq.bases seq.quals 0 zstart false).seq.length +
            motif.length +
            (Align block.seq block.qual block.end_ block.slen seq.bases seq.quals end_ seq.slen true).seq.length,
          support := block.support + 1,
          supports :=
            if (bumpSupport copies block.supports).2 = false then
              SllAddHead (bumpSupport copies block.supports).1 { copies := copies, nsupport := 1 }
            else (bumpSupport copies block.supports).1 }) := by
  unfold AlignFlanks
  simp only [h1, h2, Bool.false_eq_true, if_false, Nat.add_sub_cancel_left, List.take_length]
  have hq1 := Align_qual_length block.seq block.qual 0 block.zstart seq.bases seq.quals 0 zstart false
  have hq2 := Align_qual_length block.seq block.qual block.end_ block.slen seq.bases seq.quals
    end_ seq.slen true
  rw [← hq1, ← hq2, List.take_length, List.take_length]

theorem AlignFlanks_flag :
    (AlignFlanks block seq motif copies zstart end_).1 =
      (!rejected (Align block.seq block.qual 0 block.zstart seq.bases seq.quals 0 zstart false) &&
        !rejected (Align block.seq block.qual block.end_ block.slen seq.bases seq.quals end_ seq.slen true)) := by
  cases h1 : rejected (Align block.seq block.qual 0 block.zstart seq.bases seq.quals 0 zstart false)
  · cases h2 : rejected (Align block.seq block.qual block.end_ block.slen seq.bases seq.quals
      end_ seq.slen true)
    · rw [AlignFlanks_of_accepted block seq motif copies zstart end_ h1 h2]
      rfl
    · rw [AlignFlanks_of_rejected block seq motif copies zstart end_ (Or.inr h2)]
      rfl
  · rw [AlignFlanks_of_rejected block seq motif copies zstart end_ (Or.inl h1)]
    rfl

theorem AlignFlanks_unchanged (h : (AlignFlanks block seq motif copies zstart end_).1 = false) :
    (AlignFlanks block seq motif copies zstart end_).2 = block := by
  rw [AlignFlanks_flag] at h
  have h' : rejected (Align block.seq block.qual 0 block.zstart seq.bases seq.quals 0 zstart false) = true ∨
      rejected (Align block.seq block.qual block.end_ block.slen seq.bases seq.quals end_ seq.slen true) = true := by
    revert h
    cases rejected (Align block.seq block.qual 0 block.zstart seq.bases seq.quals 0 zstart false) <;>
      cases rejected (Align block.seq block.qual block.end_ block.slen seq.bases seq.quals end_ seq.slen true) <;>
      simp
  rw [AlignFlanks_of_rejected block seq motif copies zstart end_ h']

/-- What the acceptance test does guarantee: on TRUE both alignments have at
most two gaps and a percent identity that is either undefined or at least 90. -/
theorem AlignFlanks_accept_thresholds
    (h : (AlignFlanks block seq motif copies zstart end_).1 = true) :
    ∀ a, (a = Align block.seq block.qual 0 block.zstart seq.bases seq.quals 0 zstart false ∨
        a = Align block.seq block.qual block.end_ block.slen seq.bases seq.quals end_ seq.slen true) →
      a.gaps ≤ 2 ∧ (a.pid = none ∨ ∃ v, a.pid = some v ∧ pid_threshold ≤ v) := by
  rw [AlignFlanks_flag] at h
  simp only [Bool.and_eq_true, Bool.not_eq_true'] at h
  have key : ∀ a : Alignment, rejected a = false →
      a.gaps ≤ 2 ∧ (a.pid = none ∨ ∃ v, a.pid = some v ∧ pid_threshold ≤ v) := by
    intro a ha
    unfold rejected at ha
    simp only [Bool.or_eq_false_iff, decide_eq_false_iff_not, not_lt] at ha
    refine ⟨ha.2, ?_⟩
    cases hp : a.pid with
    | none => exact Or.inl rfl
    | some v =>
      right
      refine ⟨v, rfl, ?_⟩
      by_contra hcon
      have hb : pidBelow a = true := (pidBelow_iff a).2 ⟨v, hp, not_le.1 hcon⟩
      rw [ha.1] at hb
      exact absurd hb (by decide)
  intro a ha
  rcases ha with ha | ha
  · rw [ha]
    exact key _ h.1
  · rw [ha]
    exact key _ h.2

end FlankLemmas

/-! ## Properties of the store and of the read loop -/

section StoreLemmas

theorem mem_chainOf (blocks : Store) (buffer : List Char) (b : Block)
    (h : b ∈ chainOf blocks buffer) : ∃ e ∈ blocks, e.1 = buffer ∧ b ∈ e.2 := by
  induction blocks with
  | nil => simp [chainOf] at h
  | cons e rest ih =>
    simp only [chainOf] at h
    split_ifs at h with hk
    · exact ⟨e, List.mem_cons_self _ _, hk, h⟩
    · obtain ⟨e', he', hk', hb⟩ := ih h
      exact ⟨e', List.mem_cons_of_mem _ he', hk', hb⟩

theorem mem_setChain (blocks : Store) (buffer : List Char) (chain : List Block)
    (e : List Char × List Block) (h : e ∈ setChain blocks buffer chain) :
    e ∈ blocks ∨ e = (buffer, chain) := by
  induction blocks with
  | nil => simp [setChain] at h
  | cons e0 rest ih =>
    simp only [setChain] at h
    split_ifs at h with hk
    · rcases List.mem_cons.1 h with h | h
      · right
        rw [h, hk]
      · exact Or.inl (List.mem_cons_of_mem _ h)
    · rcases List.mem_cons.1 h with h | h
      · left
        rw [h]
        exact List.mem_cons_self _ _
      · rcases ih h with h | h
        · exact Or.inl (List.mem_cons_of_mem _ h)
        · exact Or.inr h

theorem walkChain_preserves (P : Block → Prop) (sequence : FastqSequence) (motif : List Char)
    (copies : Int) (zstart end_ : Nat)
    (hP : ∀ b, P b → P (AlignFlanks b sequence motif copies zstart end_).2)
    (chain : List Block) (h : ∀ b ∈ chain, P b) :
    ∀ b ∈ (walkChain sequence motif copies zstart end_ chain).2, P b := by
  induction chain with
  | nil => simp [walkChain]
  | cons iter next ih =>
    have hiter := hP iter (h iter (List.mem_cons_self _ _))
    have hnext : ∀ b ∈ next, P b := fun b hb => h b (List.mem_cons_of_mem _ hb)
    intro b hb
    simp only [walkChain] at hb
    split_ifs at hb
    · rcases List.mem_cons.1 hb with hb | hb
      · rw [hb]
        exact hiter
      · exact hnext b hb
    · rcases List.mem_cons.1 hb with hb | hb
      · rw [hb]
        exact hiter
      · exact ih hnext b hb

theorem tryKey_preserves (Q : List Char → Block → Prop) (blocks : Store) (buffer : List Char)
    (sequence : FastqSequence) (motif : List Char) (copies : Int) (zstart end_ : Nat)
    (hQ : ∀ b, Q buffer b → Q buffer (AlignFlanks b sequence motif copies zstart end_).2)
    (h : ∀ e ∈ blocks, ∀ b ∈ e.2, Q e.1 b) :
    ∀ e ∈ (tryKey blocks buffer sequence motif copies zstart end_).2, ∀ b ∈ e.2, Q e.1 b := by
  unfold tryKey
  split_ifs
  · intro e he b hb
    rcases mem_setChain _ _ _ _ he with he | he
    · exact h e he b hb
    · rw [he] at hb ⊢
      refine walkChain_preserves (Q buffer) sequence motif copies zstart end_ hQ _ ?_ b hb
      intro b' hb'
      obtain ⟨e', he', hk, hmem⟩ := mem_chainOf _ _ _ hb'
      rw [← hk]
      exact h e' he' b' hmem
  · exact h

theorem processRead_preserves (Q : List Char → Block → Prop) (comp : Char → Char)
    (klength : Nat) (blocks : Store) (sequence : FastqSequence) (h : Header)
    (hf : ∀ b, Q (flankKey h.fmotif sequence.bases klength h.fzstart h.fend) b →
      Q (flankKey h.fmotif sequence.bases klength h.fzstart h.fend)
        (AlignFlanks b sequence h.fmotif h.fcopies h.fzstart h.fend).2)
    (hr : ∀ b,
      Q (flankKey h.rmotif (ReverseComplementSequence comp sequence).bases klength h.rzstart h.rend) b →
      Q (flankKey h.rmotif (ReverseComplementSequence comp sequence).bases klength h.rzstart h.rend)
        (AlignFlanks b (ReverseComplementSequence comp sequence) h.rmotif h.rcopies h.rzstart h.rend).2)
    (hn : Q (flankKey h.rmotif (ReverseComplementSequence comp sequence).bases klength h.rzstart h.rend)
      (newBlock (ReverseComplementSequence comp sequence) h))
    (hI : ∀ e ∈ blocks, ∀ b ∈ e.2, Q e.1 b) :
    ∀ e ∈ processRead comp klength blocks sequence h, ∀ b ∈ e.2, Q e.1 b := by
  have h1 := tryKey_preserves Q blocks _ sequence h.fmotif h.fcopies h.fzstart h.fend hf hI
  have h2 := tryKey_preserves Q
    (tryKey blocks (flankKey h.fmotif sequence.bases klength h.fzstart h.fend) sequence h.fmotif
      h.fcopies h.fzstart h.fend).2 _ (ReverseComplementSequence comp sequence) h.rmotif h.rcopies
    h.rzstart h.rend hr h1
  unfold processRead
  simp only []
  split_ifs
  · exact h1
  · exact h2
  · unfold insertBlock
    split_ifs
    · exact h2
    · intro e he b hb
      rcases List.mem_append.1 he with he | he
      · exact h2 e he b hb
      · rw [List.mem_singleton] at he
        rw [he] at hb ⊢
        rw [List.mem_singleton] at hb
        rw [hb]
        exact hn

theorem foldl_processRead_preserves (Q : List Char → Block → Prop) (comp : Char → Char)
    (klength : Nat) (reads : List (FastqSequence × Header))
    (hreads : ∀ r ∈ reads,
      (∀ b, Q (flankKey r.2.fmotif r.1.bases klength r.2.fzstart r.2.fend) b →
        Q (flankKey r.2.fmotif r.1.bases klength r.2.fzstart r.2.fend)
          (AlignFlanks b r.1 r.2.fmotif r.2.fcopies r.2.fzstart r.2.fend).2) ∧
      (∀ b, Q (flankKey r.2.rmotif (ReverseComplementSequence comp r.1).bases klength r.2.rzstart
          r.2.rend) b →
        Q (flankKey r.2.rmotif (ReverseComplementSequence comp r.1).bases klength r.2.rzstart r.2.rend)
          (AlignFlanks b (ReverseComplementSequence comp r.1) r.2.rmotif r.2.rcopies r.2.rzstart
            r.2.rend).2) ∧
      Q (flankKey r.2.rmotif (ReverseComplementSequence comp r.1).bases klength r.2.rzstart r.2.rend)
        (newBlock (ReverseComplementSequence comp r.1) r.2))
    (blocks : Store) (hI : ∀ e ∈ blocks, ∀ b ∈ e.2, Q e.1 b) :
    ∀ e ∈ reads.foldl (fun blocks r => processRead comp klength blocks r.1 r.2) blocks,
      ∀ b ∈ e.2, Q e.1 b := by
  induction reads generalizing blocks with
  | nil => simpa using hI
  | cons r rest ih =>
    simp only [List.foldl_cons]
    apply ih (fun r' hr' => hreads r' (List.mem_cons_of_mem _ hr'))
    obtain ⟨hf, hr, hn⟩ := hreads r (List.mem_cons_self _ _)
    exact processRead_preserves Q comp klength blocks r.1 r.2 hf hr hn hI

theorem setChain_chainOf (blocks : Store) (buffer : List Char) :
    setChain blocks buffer (chainOf blocks buffer) = blocks := by
  induction blocks with
  | nil => rfl
  | cons e rest ih =>
    simp only [setChain, chainOf]
    split_ifs
    · rfl
    · rw [ih]

theorem walkChain_of_rejected (sequence : FastqSequence) (motif : List Char) (copies : Int)
    (zstart end_ : Nat) (chain : List Block)
    (h : (walkChain sequence motif copies zstart end_ chain).1 = false) :
    (walkChain sequence motif copies zstart end_ chain).2 = chain := by
  induction chain with
  | nil => rfl
  | cons iter next ih =>
    cases hflag : (AlignFlanks iter sequence motif copies zstart end_).1
    · simp only [walkChain, hflag, Bool.false_eq_true, if_false] at h ⊢
      rw [AlignFlanks_unchanged iter sequence motif copies zstart end_ hflag, ih h]
    · simp [walkChain, hflag] at h

theorem tryKey_of_rejected (blocks : Store) (buffer : List Char) (sequence : FastqSequence)
    (motif : List Char) (copies : Int) (zstart end_ : Nat)
    (h : (tryKey blocks buffer sequence motif copies zstart end_).1 = false) :
    (tryKey blocks buffer sequence motif copies zstart end_).2 = blocks := by
  unfold tryKey at h ⊢
  split_ifs at h ⊢
  · simp only [] at h ⊢
    rw [walkChain_of_rejected sequence motif copies zstart end_ _ h, setChain_chainOf]
  · rfl

/-- A read that no chain member accepts in either orientation and whose
reverse key is already stored leaves the store exactly as it was: the block
created for it is pushed in front of the local `head` only. -/
theorem processRead_existing_key (comp : Char → Char) (klength : Nat) (blocks : Store)
    (sequence : FastqSequence) (h : Header)
    (hf : (tryKey blocks (flankKey h.fmotif sequence.bases klength h.fzstart h.fend) sequence
      h.fmotif h.fcopies h.fzstart h.fend).1 = false)
    (hr : (tryKey blocks
      (flankKey h.rmotif (ReverseComplementSequence comp sequence).bases klength h.rzstart h.rend)
      (ReverseComplementSequence comp sequence) h.rmotif h.rcopies h.rzstart h.rend).1 = false)
    (hin : CheckInSparseWordHashMap blocks
      (flankKey h.rmotif (ReverseComplementSequence comp sequence).bases klength h.rzstart h.rend) =
        true) :
    processRead comp klength blocks sequence h = blocks := by
  have hf2 := tryKey_of_rejected _ _ _ _ _ _ _ hf
  have hr2 := tryKey_of_rejected _ _ _ _ _ _ _ hr
  unfold processRead
  simp only [hf, hf2, hr, hr2, hin, insertBlock, Bool.false_eq_true, if_false, if_true]

theorem takeWhile_append_stop (p : Char → Bool) (m rest : List Char) (x : Char)
    (hm : ∀ c ∈ m, p c = true) (hx : p x = false) : (m ++ x :: rest).takeWhile p = m := by
  induction m with
  | nil => simp [List.takeWhile, hx]
  | cons c m ih =>
    have hc := hm c (List.mem_cons_self _ _)
    rw [List.cons_append, List.takeWhile_cons, hc]
    simp only [if_true]
    rw [ih (fun c' hc' => hm c' (List.mem_cons_of_mem _ hc'))]

theorem keyMotif_flankKey (motif bases : List Char) (klength zstart end_ : Nat)
    (h : isToken motif) : keyMotif (flankKey motif bases klength zstart end_) = motif := by
  obtain ⟨hne, hsp⟩ := h
  unfold keyMotif flankKey
  simp only [List.append_assoc, List.singleton_append]
  have hdrop : ∀ rest : List Char, (motif ++ rest).dropWhile isspace = motif ++ rest := by
    intro rest
    cases motif with
    | nil => exact absurd rfl hne
    | cons c m =>
      have hc := hsp c (List.mem_cons_self _ _)
      simp [List.dropWhile, hc]
  rw [hdrop]
  apply takeWhile_append_stop
  · intro c hc
    simp [hsp c hc]
  · decide

theorem AlignFlanks_spanInv (key : List Char) (block : Block) (seq : FastqSequence)
    (motif : List Char) (copies : Int) (zstart end_ : Nat) (hkey : keyMotif key = motif)
    (h : spanInv key block) :
    spanInv key (AlignFlanks block seq motif copies zstart end_).2 := by
  cases hflag : (AlignFlanks block seq motif copies zstart end_).1
  · rw [AlignFlanks_unchanged block seq motif copies zstart end_ hflag]
    exact h
  · rw [AlignFlanks_flag] at hflag
    simp only [Bool.and_eq_true, Bool.not_eq_true'] at hflag
    rw [AlignFlanks_of_accepted block seq motif copies zstart end_ hflag.1 hflag.2]
    right
    refine ⟨?_, by rw [hkey]⟩
    rcases h with h | h
    · simp only [h.1]
      omega
    · simp only []
      omega

theorem emitted_fresh (min_threshold max_threshold : Nat) (b : Block) (c : Int)
    (h : b.supports = [{ copies := c, nsupport := 1 }]) :
    emitted min_threshold max_threshold false b = false := by
  unfold emitted
  rw [h]
  simp [scanSupports, keepStep, initKept]

theorem emitted_support (min_threshold max_threshold : Nat) (include_all : Bool) (b : Block)
    (h : emitted min_threshold max_threshold include_all b = true) :
    min_threshold ≤ b.support ∧ b.support ≤ max_threshold := by
  unfold emitted at h
  simp only [Bool.and_eq_true, decide_eq_true_eq] at h
  exact h.1

theorem AlignFlanks_lengths (block : Block) (seq : FastqSequence) (motif : List Char)
    (copies : Int) (zstart end_ : Nat)
    (h : block.seq.length = block.slen ∧ block.qual.length = block.slen) :
    (AlignFlanks block seq motif copies zstart end_).2.seq.length =
        (AlignFlanks block seq motif copies zstart end_).2.slen ∧
      (AlignFlanks block seq motif copies zstart end_).2.qual.length =
        (AlignFlanks block seq motif copies zstart end_).2.slen := by
  cases hflag : (AlignFlanks block seq motif copies zstart end_).1
  · rw [AlignFlanks_unchanged block seq motif copies zstart end_ hflag]
    exact h
  · rw [AlignFlanks_flag] at hflag
    simp only [Bool.and_eq_true, Bool.not_eq_true'] at hflag
    rw [AlignFlanks_of_accepted block seq motif copies zstart end_ hflag.1 hflag.2]
    simp only [List.length_append, List.length_replicate, Align_qual_length, and_self]

theorem newBlock_lengths (comp : Char → Char) (sequence : FastqSequence) (h : Header)
    (hlen : sequence.bases.length = sequence.slen ∧ sequence.quals.length = sequence.slen) :
    (newBlock (ReverseComplementSequence comp sequence) h).seq.length =
        (newBlock (ReverseComplementSequence comp sequence) h).slen ∧
      (newBlock (ReverseComplementSequence comp sequence) h).qual.length =
        (newBlock (ReverseComplementSequence comp sequence) h).slen := by
  simp [newBlock, ReverseComplementSequence, hlen]

/-- A block created from a read keeps `|seq| = |qual| = slen` through any
sequence of merge attempts, whatever read, motif and offsets each attempt uses. -/
theorem block_lengths_after_attempts (comp : Char → Char) (sequence : FastqSequence)
    (h : Header) (attempts : List (FastqSequence × List Char × Int × Nat × Nat))
    (hlen : sequence.bases.length = sequence.slen ∧ sequence.quals.length = sequence.slen) :
    (attempts.foldl (fun b a => (AlignFlanks b a.1 a.2.1 a.2.2.1 a.2.2.2.1 a.2.2.2.2).2)
        (newBlock (ReverseComplementSequence comp sequence) h)).seq.length =
      (attempts.foldl (fun b a => (AlignFlanks b a.1 a.2.1 a.2.2.1 a.2.2.2.1 a.2.2.2.2).2)
        (newBlock (ReverseComplementSequence comp sequence) h)).slen ∧
    (attempts.foldl (fun b a => (AlignFlanks b a.1 a.2.1 a.2.2.1 a.2.2.2.1 a.2.2.2.2).2)
        (newBlock (ReverseComplementSequence comp sequence) h)).qual.length =
      (attempts.foldl (fun b a => (AlignFlanks b a.1 a.2.1 a.2.2.1 a.2.2.2.1 a.2.2.2.2).2)
        (newBlock (ReverseComplementSequence comp sequence) h)).slen := by
  have h0 := newBlock_lengths comp sequence h hlen
  revert h0
  generalize newBlock (ReverseComplementSequence comp sequence) h = b
  induction attempts generalizing b with
  | nil => intro h0; simpa using h0
  | cons a rest ih =>
    intro h0
    simp only [List.foldl_cons]
    exact ih _ (AlignFlanks_lengths b a.1 a.2.1 a.2.2.1 a.2.2.2.1 a.2.2.2.2 h0)

end StoreLemmas

/-! ## Properties of the emitter -/

section EmitLemmas

theorem keepStep_slots (k : Kept) (tmp : Copies) (hq : 2 ≤ tmp.nsupport)
    (hc : 0 < tmp.copies ∧ tmp.copies < 65536) (hi : k.i < 3) (hlen : k.copies.length = 3)
    (hk : ∀ idx, idx < 3 → (k.copies.getD idx 0 ≠ 0 ↔ idx < k.i)) :
    (keepStep k tmp).i = k.i + 1 ∧ (keepStep k tmp).copies.length = 3 ∧
      ∀ idx, idx < 3 → ((keepStep k tmp).copies.getD idx 0 ≠ 0 ↔ idx < k.i + 1) := by
  have hne : (tmp.copies % 65536).toNat ≠ 0 := by
    have h1 : tmp.copies % 65536 = tmp.copies := Int.emod_eq_of_lt (le_of_lt hc.1) hc.2
    rw [h1]
    omega
  unfold keepStep
  rw [if_pos hq]
  refine ⟨rfl, by simp [hlen], ?_⟩
  intro idx hidx
  simp only []
  match hcop : k.copies, hlen with
  | [a, b, c], _ =>
    rw [hcop] at hk
    have h0 := hk 0 (by omega)
    have h1 := hk 1 (by omega)
    have h2 := hk 2 (by omega)
    simp only [List.getD_cons_zero, List.getD_cons_succ] at h0 h1 h2
    have hi' : k.i = 0 ∨ k.i = 1 ∨ k.i = 2 := by omega
    have hidx' : idx = 0 ∨ idx = 1 ∨ idx = 2 := by omega
    rcases hi' with hi' | hi' | hi' <;> rcases hidx' with hidx' | hidx' | hidx' <;>
      simp only [hi', hidx', List.set, List.getD_cons_zero, List.getD_cons_succ] <;>
      simp only [hi'] at h0 h1 h2 <;> simp_all

theorem scanSupports_slots (l : List Copies) (k : Kept)
    (hl : ∀ c ∈ l, 0 < c.copies ∧ c.copies < 65536) (hi : k.i < 3)
    (hlen : k.copies.length = 3)
    (hk : ∀ idx, idx < 3 → (k.copies.getD idx 0 ≠ 0 ↔ idx < k.i)) :
    ∀ idx, idx < 3 → ((scanSupports l k).copies.getD idx 0 ≠ 0 ↔
      idx < k.i + l.countP (fun c => decide (2 ≤ c.nsupport))) := by
  induction l generalizing k with
  | nil => simpa [scanSupports] using hk
  | cons tmp next ih =>
    have hnext : ∀ c ∈ next, 0 < c.copies ∧ c.copies < 65536 :=
      fun c hc => hl c (List.mem_cons_of_mem _ hc)
    intro idx hidx
    by_cases hq : 2 ≤ tmp.nsupport
    · obtain ⟨h1, h2, h3⟩ := keepStep_slots k tmp hq (hl tmp (List.mem_cons_self _ _)) hi hlen hk
      have hcount : (tmp :: next).countP (fun c => decide (2 ≤ c.nsupport)) =
          next.countP (fun c => decide (2 ≤ c.nsupport)) + 1 := by
        rw [List.countP_cons_of_pos]
        simpa using hq
      rw [hcount]
      simp only [scanSupports]
      split_ifs with h3i
      · rw [h3 idx hidx]
        omega
      · rw [ih (keepStep k tmp) hnext (by omega) h2 (by rw [h1]; exact h3) idx hidx, h1]
        omega
    · have hsame : keepStep k tmp = k := by
        unfold keepStep
        rw [if_neg hq]
      have hcount : (tmp :: next).countP (fun c => decide (2 ≤ c.nsupport)) =
          next.countP (fun c => decide (2 ≤ c.nsupport)) := by
        rw [List.countP_cons_of_neg]
        simpa using hq
      rw [hcount]
      simp only [scanSupports, hsame]
      rw [if_neg (by omega)]
      exact ih k hnext hi hlen hk idx hidx

theorem scanSupports_init (l : List Copies) (hl : ∀ c ∈ l, 0 < c.copies ∧ c.copies < 65536) :
    ((scanSupports l initKept).copies.getD 1 0 ≠ 0 ↔
        1 < l.countP (fun c => decide (2 ≤ c.nsupport))) ∧
      ((scanSupports l initKept).copies.getD 2 0 ≠ 0 ↔
        2 < l.countP (fun c => decide (2 ≤ c.nsupport))) := by
  have h := scanSupports_slots l initKept hl (by simp [initKept]) (by simp [initKept]) (by
    intro idx hidx
    have hidx' : idx = 0 ∨ idx = 1 ∨ idx = 2 := by omega
    rcases hidx' with h | h | h <;> simp [h, initKept])
  have h1 := h 1 (by omega)
  have h2 := h 2 (by omega)
  simp only [initKept, Nat.zero_add] at h1 h2
  exact ⟨h1, h2⟩

/-- With `include_all`, a block with tally copy numbers in `1 .. 65535` passes
the output filter exactly when its support is within the thresholds and at
most two tally entries have `nsupport >= 2`. -/
theorem emitted_all_iff (min_threshold max_threshold : Nat) (b : Block)
    (h : ∀ c ∈ b.supports, 0 < c.copies ∧ c.copies < 65536) :
    emitted min_threshold max_threshold true b = true ↔
      min_threshold ≤ b.support ∧ b.support ≤ max_threshold ∧
        b.supports.countP (fun c => decide (2 ≤ c.nsupport)) ≤ 2 := by
  obtain ⟨_, h2⟩ := scanSupports_init b.supports h
  unfold emitted
  simp only [Bool.not_true, Bool.false_and, Bool.true_and, Bool.false_or, Bool.and_eq_true,
    decide_eq_true_eq, beq_iff_eq, ge_iff_le]
  constructor
  · rintro ⟨⟨ha, hb⟩, hc⟩
    refine ⟨ha, hb, ?_⟩
    by_contra hcon
    exact (h2.2 (by omega)) hc
  · rintro ⟨ha, hb, hc⟩
    refine ⟨⟨ha, hb⟩, ?_⟩
    by_contra hcon
    have := h2.1 hcon
    omega

theorem scanSupports_copies (l : List Copies) (k : Kept) (hi : k.i < 3)
    (hlen : k.copies.length = 3) :
    ∀ idx, idx < 3 → (scanSupports l k).copies.getD idx 0 =
      if idx < k.i then k.copies.getD idx 0
      else (((l.filter (fun c => decide (2 ≤ c.nsupport)))[idx - k.i]?).map
        (fun e => (e.copies % 65536).toNat)).getD (k.copies.getD idx 0) := by
  induction l generalizing k with
  | nil =>
    intro idx _
    simp [scanSupports]
  | cons tmp next ih =>
    intro idx hidx
    by_cases hq : 2 ≤ tmp.nsupport
    · have hstep : keepStep k tmp =
          { i := k.i + 1,
            maxcopies :=
              if ((tmp.copies % 65536).toNat : Int) > k.maxcopies then
                ((tmp.copies % 65536).toNat : Int)
              else k.maxcopies,
            copies := k.copies.set k.i (tmp.copies % 65536).toNat,
            nsupport := k.nsupport.set k.i (tmp.nsupport % 65536) } := by
        unfold keepStep
        rw [if_pos hq]
      have hfil : (tmp :: next).filter (fun c => decide (2 ≤ c.nsupport)) =
          tmp :: next.filter (fun c => decide (2 ≤ c.nsupport)) := by
        rw [List.filter_cons_of_pos]
        simpa using hq
      rw [hfil]
      simp only [scanSupports]
      have hidx' : idx = 0 ∨ idx = 1 ∨ idx = 2 := by omega
      by_cases h3 : (keepStep k tmp).i = 3
      · rw [if_pos h3, hstep]
        rw [hstep] at h3
        have hi2 : k.i = 2 := by simpa using h3
        match hcop : k.copies, hlen with
        | [a, b, c], _ =>
          rcases hidx' with h | h | h <;> simp [h, hi2, List.set]
      · rw [if_neg h3]
        have hi1 : (keepStep k tmp).i = k.i + 1 := by rw [hstep]
        rw [ih (keepStep k tmp) (by omega) (by rw [hstep]; simp [hlen]) idx hidx, hi1, hstep]
        rw [hi1] at h3
        have hi' : k.i = 0 ∨ k.i = 1 := by omega
        match hcop : k.copies, hlen with
        | [a, b, c], _ =>
          rcases hi' with hi' | hi' <;> rcases hidx' with h | h | h <;>
            simp [h, hi', List.set]
    · have hsame : keepStep k tmp = k := by
        unfold keepStep
        rw [if_neg hq]
      have hfil : (tmp :: next).filter (fun c => decide (2 ≤ c.nsupport)) =
          next.filter (fun c => decide (2 ≤ c.nsupport)) := by
        rw [List.filter_cons_of_neg]
        simpa using hq
      rw [hfil]
      simp only [scanSupports, hsame]
      rw [if_neg (by omega)]
      exact ih k hi hlen idx hidx

theorem scanSupports_maxcopies (l : List Copies) (k : Kept) (hi : k.i < 3) :
    (scanSupports l k).maxcopies =
      ((l.filter (fun c => decide (2 ≤ c.nsupport))).take (3 - k.i)).foldl
        (fun m e => if ((e.copies % 65536).toNat : Int) > m then ((e.copies % 65536).toNat : Int)
          else m) k.maxcopies := by
  induction l generalizing k with
  | nil => simp [scanSupports]
  | cons tmp next ih =>
    by_cases hq : 2 ≤ tmp.nsupport
    · have hstep : keepStep k tmp =
          { i := k.i + 1,
            maxcopies :=
              if ((tmp.copies % 65536).toNat : Int) > k.maxcopies then
                ((tmp.copies % 65536).toNat : Int)
              else k.maxcopies,
            copies := k.copies.set k.i (tmp.copies % 65536).toNat,
            nsupport := k.nsupport.set k.i (tmp.nsupport % 65536) } := by
        unfold keepStep
        rw [if_pos hq]
      have hfil : (tmp :: next).filter (fun c => decide (2 ≤ c.nsupport)) =
          tmp :: next.filter (fun c => decide (2 ≤ c.nsupport)) := by
        rw [List.filter_cons_of_pos]
        simpa using hq
      have h3k : 3 - k.i = (3 - (k.i + 1)) + 1 := by omega
      rw [hfil, h3k, List.take_succ_cons, List.foldl_cons]
      simp only [scanSupports]
      by_cases h3 : (keepStep k tmp).i = 3
      · rw [if_pos h3, hstep]
        rw [hstep] at h3
        have hi2 : k.i = 2 := by simpa using h3
        simp [hi2]
      · rw [if_neg h3]
        have hi1 : (keepStep k tmp).i = k.i + 1 := by rw [hstep]
        rw [ih (keepStep k tmp) (by omega), hi1, hstep]
    · have hsame : keepStep k tmp = k := by
        unfold keepStep
        rw [if_neg hq]
      have hfil : (tmp :: next).filter (fun c => decide (2 ≤ c.nsupport)) =
          next.filter (fun c => decide (2 ≤ c.nsupport)) := by
        rw [List.filter_cons_of_neg]
        simpa using hq
      rw [hfil]
      simp only [scanSupports, hsame]
      rw [if_neg (by omega)]
      exact ih k hi

theorem foldl_max_spec (f : Copies → Int) (L : List Copies) (m0 : Int) :
    m0 ≤ L.foldl (fun m e => if f e > m then f e else m) m0 ∧
    (∀ e ∈ L, f e ≤ L.foldl (fun m e => if f e > m then f e else m) m0) ∧
    (L.foldl (fun m e => if f e > m then f e else m) m0 = m0 ∨
      ∃ e ∈ L, L.foldl (fun m e => if f e > m then f e else m) m0 = f e) := by
  induction L generalizing m0 with
  | nil => simp
  | cons x L ih =>
    simp only [List.foldl_cons]
    obtain ⟨h1, h2, h3⟩ := ih (if f x > m0 then f x else m0)
    have hstep : m0 ≤ (if f x > m0 then f x else m0) ∧ f x ≤ (if f x > m0 then f x else m0) := by
      split_ifs <;> omega
    refine ⟨le_trans hstep.1 h1, ?_, ?_⟩
    · intro e he
      rcases List.mem_cons.1 he with he | he
      · rw [he]
        exact le_trans hstep.2 h1
      · exact h2 e he
    · rcases h3 with h3 | ⟨e, he, h3⟩
      · by_cases hx : f x > m0
        · right
          exact ⟨x, List.mem_cons_self _ _, by rw [h3, if_pos hx]⟩
        · left
          rw [h3, if_neg hx]
      · right
        exact ⟨e, List.mem_cons_of_mem _ he, h3⟩

/-- With tally copy numbers in `1 .. 65535`, `maxcopies` is the largest copy
number among the kept entries (the first up to three entries with
`nsupport >= 2`), and 0 when nothing is kept. -/
theorem scanSupports_maxcopies_largest (l : List Copies)
    (hl : ∀ c ∈ l, 0 < c.copies ∧ c.copies < 65536) :
    (∀ e ∈ (l.filter (fun c => decide (2 ≤ c.nsupport))).take 3,
      e.copies ≤ (scanSupports l initKept).maxcopies) ∧
    ((l.filter (fun c => decide (2 ≤ c.nsupport))).take 3 = [] →
      (scanSupports l initKept).maxcopies = 0) ∧
    ((l.filter (fun c => decide (2 ≤ c.nsupport))).take 3 ≠ [] →
      ∃ e ∈ (l.filter (fun c => decide (2 ≤ c.nsupport))).take 3,
        (scanSupports l initKept).maxcopies = e.copies) := by
  have hf : ∀ e ∈ (l.filter (fun c => decide (2 ≤ c.nsupport))).take 3,
      ((e.copies % 65536).toNat : Int) = e.copies ∧ 0 < e.copies := by
    intro e he
    have hm := hl e (List.mem_of_mem_filter (List.mem_of_mem_take he))
    rw [Int.emod_eq_of_lt (le_of_lt hm.1) hm.2]
    exact ⟨Int.toNat_of_nonneg (le_of_lt hm.1), hm.1⟩
  have hmax : (scanSupports l initKept).maxcopies =
      ((l.filter (fun c => decide (2 ≤ c.nsupport))).take 3).foldl
        (fun m e => if ((e.copies % 65536).toNat : Int) > m then ((e.copies % 65536).toNat : Int)
          else m) 0 :=
    scanSupports_maxcopies l initKept (by decide)
  obtain ⟨h1, h2, h3⟩ := foldl_max_spec (fun e : Copies => ((e.copies % 65536).toNat : Int))
    ((l.filter (fun c : Copies => decide (2 ≤ c.nsupport))).take 3) 0
  rw [← hmax] at h1 h2 h3
  refine ⟨?_, ?_, ?_⟩
  · intro e he
    rw [← (hf e he).1]
    exact h2 e he
  · intro hnil
    rw [hmax, hnil]
    rfl
  · intro hne
    rcases h3 with h3 | ⟨e, he, h3⟩
    · obtain ⟨e, he⟩ := List.exists_mem_of_ne_nil _ hne
      have := h2 e he
      rw [(hf e he).1, h3] at this
      have := (hf e he).2
      omega
    · exact ⟨e, he, by rw [h3, (hf e he).1]⟩

end EmitLemmas

/-! ## `Align` by parts -/

section AlignParts

theorem traceStart_lockstep (t1 q1 t2 q2 : List Char) (len1 len2 : Nat) (g : Bool) :
    (traceStart t1 q1 t2 q2 len1 len2 g).seq.length =
      (traceStart t1 q1 t2 q2 len1 len2 g).qual.length := by
  unfold traceStart
  split_ifs
  · exact copyDown_length _ _ _ _
  · exact copyDown_length _ _ _ _
  · rfl

theorem traceEnd_lockstep (t1 q1 t2 q2 : List Char) (len1 len2 : Nat) (g : Bool) :
    (traceEnd t1 q1 t2 q2 len1 len2 g).seq.length =
      (traceEnd t1 q1 t2 q2 len1 len2 g).qual.length :=
  traceLoop_lockstep _ _ _ _ _ _ _ (traceStart_lockstep t1 q1 t2 q2 len1 len2 g)

theorem Reverse_of_length (seq : List Char) (n : Nat) (h : seq.length = n) :
    Reverse seq n = seq.reverse := by
  unfold Reverse
  rw [← h, List.take_length, List.drop_length, List.append_nil]

theorem Align_eq_regions (seq1 qual1 : List Char) (zstart1 end1 : Nat) (seq2 qual2 : List Char)
    (zstart2 end2 : Nat) (g : Bool) :
    Align seq1 qual1 zstart1 end1 seq2 qual2 zstart2 end2 g =
      alignRegions (seq1.drop zstart1) (qual1.drop zstart1) (seq2.drop zstart2)
        (qual2.drop zstart2) (end1 - zstart1 + 1) (end2 - zstart2 + 1) g := by
  have hl := traceEnd_lockstep (seq1.drop zstart1) (qual1.drop zstart1) (seq2.drop zstart2)
    (qual2.drop zstart2) (end1 - zstart1 + 1) (end2 - zstart2 + 1) g
  cases g
  · simp only [Align, alignRegions, Bool.false_eq_true, if_false]
    split_ifs
    · congr 1
      · exact Reverse_of_length _ _ rfl
      · apply Reverse_of_length
        rw [List.length_append, List.length_append, copyDown_length _ (List.drop zstart1 seq1)]
        congr 1
        exact hl.symm
    · congr 1
      · exact Reverse_of_length _ _ rfl
      · apply Reverse_of_length
        rw [List.length_append, List.length_append, copyDown_length _ (List.drop zstart2 seq2)]
        congr 1
        exact hl.symm
  · simp only [Align, alignRegions, if_true]
    congr 1
    · exact Reverse_of_length _ _ rfl
    · exact Reverse_of_length _ _ hl.symm

end AlignParts

/-! ## Steps of the traceback -/

section TraceLemmas

theorem traceStep_num_gaps (t1 q1 t2 q2 : List Char) (m : Matrices) (s : Trace) :
    (traceStep t1 q1 t2 q2 m s).num_gaps =
      s.num_gaps + (if m.B s.i s.j = 1 ∨ m.B s.i s.j = 2 then 1 else 0) := by
  unfold traceStep
  split_ifs <;> simp_all

theorem traceLoop_num_gaps (t1 q1 t2 q2 : List Char) (m : Matrices) (fuel : Nat) (s : Trace) :
    (traceLoop t1 q1 t2 q2 m fuel s).num_gaps = s.num_gaps + gapSteps t1 q1 t2 q2 m fuel s := by
  induction fuel generalizing s with
  | zero => simp [traceLoop, gapSteps]
  | succ fuel ih =>
    simp only [traceLoop, gapSteps]
    by_cases hg : s.max_score > 0 ∧ s.i ≥ 1 ∧ s.j ≥ 1
    · rw [if_pos hg, if_pos hg, ih, traceStep_num_gaps, Nat.add_assoc]
    · rw [if_neg hg, if_neg hg, Nat.add_zero]

theorem traceStep_diagonal (t1 q1 t2 q2 : List Char) (m : Matrices) (s : Trace)
    (h : m.B s.i s.j = 0) :
    traceStep t1 q1 t2 q2 m s =
      { i := s.i - 1, j := s.j - 1, max_score := m.A (s.i - 1) (s.j - 1),
        seq := s.seq ++
          [if charAt q1 (s.i - 1) > charAt q2 (s.j - 1) then charAt t1 (s.i - 1)
            else charAt t2 (s.j - 1)],
        qual := s.qual ++
          [if charAt q1 (s.i - 1) > charAt q2 (s.j - 1) then charAt q1 (s.i - 1)
            else charAt q2 (s.j - 1)],
        matches_ :=
          if charAt t1 (s.i - 1) ≠ charAt t2 (s.j - 1) then s.matches_ else s.matches_ + 1,
        mismatches :=
          if charAt t1 (s.i - 1) ≠ charAt t2 (s.j - 1) then s.mismatches + 1 else s.mismatches,
        num_gaps := s.num_gaps } := by
  unfold traceStep
  rw [if_pos h]

end TraceLemmas

/-! ## The fill loop computes the score matrix -/

section FillLemmas

theorem charAt_drop (l : List Char) (z k : Nat) : charAt (l.drop z) k = charAt l (z + k) := by
  unfold charAt
  simp only [List.getD_eq_getElem?_getD, List.getElem?_drop]

theorem scoreAt_zero_left (t1 t2 : List Char) (j : Nat) : scoreAt t1 t2 0 j = 0 := rfl

theorem scoreAt_zero_right (t1 t2 : List Char) (i : Nat) : scoreAt t1 t2 i 0 = 0 := by
  cases i <;> rfl

theorem scoreAt_succ (t1 t2 : List Char) (i j : Nat) :
    scoreAt t1 t2 (i + 1) (j + 1) =
      max (max (scoreAt t1 t2 (i + 1) j + gapScore) (scoreAt t1 t2 i (j + 1) + gapScore))
        (max (if charAt t1 i = charAt t2 j then scoreAt t1 t2 i j + matchScore
          else scoreAt t1 t2 i j + mismatchScore) 0) := rfl

theorem scoreAt_nonneg (t1 t2 : List Char) (i j : Nat) : 0 ≤ scoreAt t1 t2 i j := by
  cases i with
  | zero => exact le_of_eq (scoreAt_zero_left t1 t2 j).symm
  | succ i =>
    cases j with
    | zero => exact le_of_eq (scoreAt_zero_right t1 t2 (i + 1)).symm
    | succ j =>
      rw [scoreAt_succ]
      exact le_trans (le_max_right _ _) (le_max_right _ _)

theorem scoreAt_le_min (t1 t2 : List Char) (i j : Nat) :
    scoreAt t1 t2 i j ≤ (min i j : Nat) := by
  induction i generalizing j with
  | zero => simp [scoreAt_zero_left]
  | succ i ihi =>
    induction j with
    | zero => simp [scoreAt_zero_right]
    | succ j ihj =>
      rw [scoreAt_succ]
      have h1 := ihj
      have h2 := ihi (j + 1)
      have h3 := ihi j
      simp only [gapScore, matchScore, mismatchScore]
      have e1 : ((min (i + 1) j : Nat) : Int) ≤ (min (i + 1) (j + 1) : Nat) := by
        exact_mod_cast (by omega : min (i + 1) j ≤ min (i + 1) (j + 1))
      have e2 : ((min i (j + 1) : Nat) : Int) ≤ (min (i + 1) (j + 1) : Nat) := by
        exact_mod_cast (by omega : min i (j + 1) ≤ min (i + 1) (j + 1))
      have e3 : ((min i j : Nat) : Int) + 1 = (min (i + 1) (j + 1) : Nat) := by
        exact_mod_cast (by omega : min i j + 1 = min (i + 1) (j + 1))
      refine max_le (max_le (by omega) (by omega)) (max_le ?_ (by omega))
      split_ifs <;> omega

theorem cellStep_A (t1 t2 : List Char) (i j : Nat) (m : Matrices) (x y : Nat) :
    (cellStep t1 t2 i j m).A x y = if x = i ∧ y = j then cellValue t1 t2 i j m else m.A x y := by
  have h : (cellStep t1 t2 i j m).A = setCell m.A i j (cellValue t1 t2 i j m) := by
    unfold cellStep cellValue
    simp only []
    split_ifs <;> rfl
  rw [h]
  rfl

theorem cellStep_B (t1 t2 : List Char) (i j : Nat) (m : Matrices) (x y : Nat) :
    (cellStep t1 t2 i j m).B x y =
      if x = i ∧ y = j then
        (if cellValue t1 t2 i j m =
            (if charAt t1 (i - 1) = charAt t2 (j - 1) then m.A (i - 1) (j - 1) + matchScore
              else m.A (i - 1) (j - 1) + mismatchScore) then 0
          else if cellValue t1 t2 i j m = m.A (i - 1) j + gapScore then 1
          else if cellValue t1 t2 i j m = m.A i (j - 1) + gapScore then 2
          else m.B i j)
      else m.B x y := by
  have h : (cellStep t1 t2 i j m).B =
      (if cellValue t1 t2 i j m =
          (if charAt t1 (i - 1) = charAt t2 (j - 1) then m.A (i - 1) (j - 1) + matchScore
            else m.A (i - 1) (j - 1) + mismatchScore) then setCell m.B i j 0
        else if cellValue t1 t2 i j m = m.A (i - 1) j + gapScore then setCell m.B i j 1
        else if cellValue t1 t2 i j m = m.A i (j - 1) + gapScore then setCell m.B i j 2
        else m.B) := by
    unfold cellStep cellValue
    simp only []
    split_ifs <;> rfl
  rw [h]
  by_cases hxy : x = i ∧ y = j
  · rw [if_pos hxy]
    split_ifs <;> first | simp only [setCell, if_pos hxy] | rw [hxy.1, hxy.2]
  · rw [if_neg hxy]
    split_ifs <;> simp only [setCell, if_neg hxy]

theorem cellStep_best (t1 t2 : List Char) (i j : Nat) (m : Matrices) :
    (cellStep t1 t2 i j m).best =
        (if cellValue t1 t2 i j m ≥ m.best then cellValue t1 t2 i j m else m.best) ∧
      (cellStep t1 t2 i j m).optlox = (if cellValue t1 t2 i j m ≥ m.best then i else m.optlox) ∧
      (cellStep t1 t2 i j m).optloy = (if cellValue t1 t2 i j m ≥ m.best then j else m.optloy) := by
  unfold cellStep cellValue
  simp only []
  by_cases hv : max (max (m.A i (j - 1) + gapScore) (m.A (i - 1) j + gapScore))
      (max (if charAt t1 (i - 1) = charAt t2 (j - 1) then m.A (i - 1) (j - 1) + matchScore
        else m.A (i - 1) (j - 1) + mismatchScore) 0) ≥ m.best
  · rw [if_pos hv, if_pos hv, if_pos hv, if_pos hv]
    exact ⟨rfl, rfl, rfl⟩
  · rw [if_neg hv, if_neg hv, if_neg hv, if_neg hv]
    exact ⟨rfl, rfl, rfl⟩

theorem FillInv_step (t1 t2 : List Char) (len2 i c : Nat) (m : Matrices) (hi : 1 ≤ i)
    (hc : c + 1 < len2) (h : FillInv t1 t2 len2 i c m) :
    FillInv t1 t2 len2 i (c + 1) (cellStep t1 t2 i (c + 1) m) := by
  obtain ⟨hA, hA0, hB, hB0, hbest, hopt, hnone⟩ := h
  obtain ⟨i', rfl⟩ : ∃ i', i = i' + 1 := ⟨i - 1, by omega⟩
  have a1 : m.A (i' + 1) c = scoreAt t1 t2 (i' + 1) c := by
    by_cases hc0 : c = 0
    · subst hc0
      rw [hA0 _ _ (by unfold filled; omega), scoreAt_zero_right]
    · exact hA _ _ (by unfold filled; omega)
  have a2 : m.A i' (c + 1) = scoreAt t1 t2 i' (c + 1) := by
    by_cases hi0 : i' = 0
    · subst hi0
      rw [hA0 _ _ (by unfold filled; omega), scoreAt_zero_left]
    · exact hA _ _ (by unfold filled; omega)
  have a3 : m.A i' c = scoreAt t1 t2 i' c := by
    by_cases hi0 : i' = 0
    · subst hi0
      rw [hA0 _ _ (by unfold filled; omega), scoreAt_zero_left]
    · by_cases hc0 : c = 0
      · subst hc0
        rw [hA0 _ _ (by unfold filled; omega), scoreAt_zero_right]
      · exact hA _ _ (by unfold filled; omega)
  have hv : cellValue t1 t2 (i' + 1) (c + 1) m = scoreAt t1 t2 (i' + 1) (c + 1) := by
    unfold cellValue
    simp only [Nat.add_sub_cancel]
    rw [a1, a2, a3, scoreAt_succ]
  have hsplit : ∀ x y, filled len2 (i' + 1) (c + 1) x y →
      filled len2 (i' + 1) c x y ∨ (x = i' + 1 ∧ y = c + 1) := by
    intro x y
    unfold filled
    omega
  have hold : ∀ x y, filled len2 (i' + 1) c x y → filled len2 (i' + 1) (c + 1) x y := by
    intro x y
    unfold filled
    omega
  have hnew : filled len2 (i' + 1) (c + 1) (i' + 1) (c + 1) := by
    unfold filled
    omega
  have hne : ∀ x y, filled len2 (i' + 1) c x y → ¬ (x = i' + 1 ∧ y = c + 1) := by
    intro x y
    unfold filled
    omega
  have hnot : ¬ filled len2 (i' + 1) c (i' + 1) (c + 1) := fun hf => hne _ _ hf ⟨rfl, rfl⟩
  obtain ⟨hb1, hb2, hb3⟩ := cellStep_best t1 t2 (i' + 1) (c + 1) m
  have hvnn : 0 ≤ cellValue t1 t2 (i' + 1) (c + 1) m := by
    rw [hv]
    exact scoreAt_nonneg _ _ _ _
  refine ⟨?_, ?_, ?_, ?_, ?_, ?_, ?_⟩
  · intro x y hf
    rw [cellStep_A]
    rcases hsplit x y hf with hf' | hf'
    · rw [if_neg (hne x y hf')]
      exact hA x y hf'
    · rw [if_pos hf', hv, hf'.1, hf'.2]
  · intro x y hf
    rw [cellStep_A, if_neg (fun hxy => hf (by rw [hxy.1, hxy.2]; exact hnew))]
    exact hA0 x y (fun hf' => hf (hold x y hf'))
  · intro x y hf
    rw [cellStep_B]
    rcases hsplit x y hf with hf' | hf'
    · rw [if_neg (hne x y hf')]
      exact hB x y hf'
    · rw [if_pos hf', hf'.1, hf'.2]
      simp only [Nat.add_sub_cancel, hv, a1, a2, a3, hB0 _ _ hnot]
      unfold dirAt
      simp only [Nat.add_sub_cancel]
  · intro x y hf
    rw [cellStep_B, if_neg (fun hxy => hf (by rw [hxy.1, hxy.2]; exact hnew))]
    exact hB0 x y (fun hf' => hf (hold x y hf'))
  · intro x y hf
    rw [hb1]
    rcases hsplit x y hf with hf' | hf'
    · have := hbest x y hf'
      split_ifs <;> omega
    · rw [hf'.1, hf'.2, ← hv]
      split_ifs <;> omega
  · intro _
    rw [hb1, hb2, hb3]
    by_cases hge : cellValue t1 t2 (i' + 1) (c + 1) m ≥ m.best
    · rw [if_pos hge, if_pos hge, if_pos hge]
      refine ⟨hnew, hv.symm, ?_⟩
      intro x y hf _
      unfold filled at hf
      omega
    · rw [if_neg hge, if_neg hge, if_neg hge]
      have hex : ∃ x y, filled len2 (i' + 1) c x y := by
        by_contra hno
        have := (hnone hno).1
        omega
      obtain ⟨hf0, hs0, hlast⟩ := hopt hex
      refine ⟨hold _ _ hf0, hs0, ?_⟩
      intro x y hf hs
      rcases hsplit x y hf with hf' | hf'
      · exact hlast x y hf' hs
      · rw [hf'.1, hf'.2, ← hv] at hs
        omega
  · intro hno
    exact absurd ⟨i' + 1, c + 1, hnew⟩ hno

theorem FillInv_congr (t1 t2 : List Char) (len2 i c i2 c2 : Nat) (m : Matrices)
    (hiff : ∀ x y, filled len2 i c x y ↔ filled len2 i2 c2 x y) (h : FillInv t1 t2 len2 i c m) :
    FillInv t1 t2 len2 i2 c2 m := by
  have hfun : filled len2 i c = filled len2 i2 c2 := by
    funext x y
    exact propext (hiff x y)
  unfold FillInv at h ⊢
  rw [← hfun]
  exact h

theorem foldl_range'_succ {α : Type} (f : α → Nat → α) (a : α) (s n : Nat) :
    (List.range' s (n + 1)).foldl f a = f ((List.range' s n).foldl f a) (s + n) := by
  rw [List.range'_concat, List.foldl_append]
  simp

theorem fillRow_inv (t1 t2 : List Char) (len2 i : Nat) (m : Matrices) (hi : 1 ≤ i)
    (h : FillInv t1 t2 len2 i 0 m) :
    FillInv t1 t2 len2 (i + 1) 0 (fillRow t1 t2 len2 i m) := by
  have key : ∀ n, n + 1 ≤ len2 →
      FillInv t1 t2 len2 i n ((List.range' 1 n).foldl (fun s j => cellStep t1 t2 i j s) m) := by
    intro n
    induction n with
    | zero =>
      intro _
      simpa using h
    | succ n ih =>
      intro hn
      rw [foldl_range'_succ, Nat.add_comm 1 n]
      exact FillInv_step t1 t2 len2 i n _ hi (by omega) (ih (by omega))
  unfold fillRow
  by_cases hl : len2 = 0
  · subst hl
    simp only [Nat.zero_sub, List.range'_zero, List.foldl_nil]
    refine FillInv_congr t1 t2 0 i 0 (i + 1) 0 m ?_ h
    intro x y
    unfold filled
    omega
  · refine FillInv_congr t1 t2 len2 i (len2 - 1) (i + 1) 0 _ ?_ (key (len2 - 1) (by omega))
    intro x y
    unfold filled
    omega

theorem initMatrices_inv (t1 t2 : List Char) (len2 : Nat) :
    FillInv t1 t2 len2 1 0 initMatrices := by
  have hno : ∀ x y, ¬ filled len2 1 0 x y := by
    intro x y
    unfold filled
    omega
  refine ⟨?_, ?_, ?_, ?_, ?_, ?_, ?_⟩
  · intro x y hf
    exact absurd hf (hno x y)
  · intro x y _
    rfl
  · intro x y hf
    exact absurd hf (hno x y)
  · intro x y _
    rfl
  · intro x y hf
    exact absurd hf (hno x y)
  · rintro ⟨x, y, hf⟩
    exact absurd hf (hno x y)
  · intro _
    exact ⟨rfl, rfl, rfl⟩

theorem fill_inv (t1 t2 : List Char) (len1 len2 : Nat) :
    FillInv t1 t2 len2 (len1 - 1 + 1) 0 (fill t1 t2 len1 len2) := by
  have key : ∀ n, FillInv t1 t2 len2 (n + 1) 0
      ((List.range' 1 n).foldl (fun s i => fillRow t1 t2 len2 i s) initMatrices) := by
    intro n
    induction n with
    | zero => simpa using initMatrices_inv t1 t2 len2
    | succ n ih =>
      rw [foldl_range'_succ, Nat.add_comm 1 n]
      exact fillRow_inv t1 t2 len2 (n + 1) _ (by omega) ih
  exact key (len1 - 1)

theorem filled_final (len1 len2 x y : Nat) :
    filled len2 (len1 - 1 + 1) 0 x y ↔ 1 ≤ x ∧ x < len1 ∧ 1 ≤ y ∧ y < len2 := by
  unfold filled
  omega

theorem fill_A (t1 t2 : List Char) (len1 len2 x y : Nat) (hx : x < len1) (hy : y < len2) :
    (fill t1 t2 len1 len2).A x y = scoreAt t1 t2 x y := by
  obtain ⟨hA, hA0, -⟩ := fill_inv t1 t2 len1 len2
  by_cases hf : 1 ≤ x ∧ 1 ≤ y
  · exact hA x y ((filled_final len1 len2 x y).2 ⟨hf.1, hx, hf.2, hy⟩)
  · rw [hA0 x y (fun h => hf ⟨((filled_final len1 len2 x y).1 h).1,
      ((filled_final len1 len2 x y).1 h).2.2.1⟩)]
    by_cases h0 : x = 0
    · rw [h0, scoreAt_zero_left]
    · have : y = 0 := by omega
      rw [this, scoreAt_zero_right]

theorem fill_A_border (t1 t2 : List Char) (len1 len2 x y : Nat) (h : x = 0 ∨ y = 0) :
    (fill t1 t2 len1 len2).A x y = 0 := by
  obtain ⟨-, hA0, -⟩ := fill_inv t1 t2 len1 len2
  apply hA0
  rw [filled_final]
  omega

theorem fill_B (t1 t2 : List Char) (len1 len2 x y : Nat) (hx1 : 1 ≤ x) (hx : x < len1)
    (hy1 : 1 ≤ y) (hy : y < len2) :
    (fill t1 t2 len1 len2).B x y = dirAt t1 t2 x y := by
  obtain ⟨-, -, hB, -⟩ := fill_inv t1 t2 len1 len2
  exact hB x y ((filled_final len1 len2 x y).2 ⟨hx1, hx, hy1, hy⟩)

theorem fill_best_nonneg (t1 t2 : List Char) (len1 len2 : Nat) :
    0 ≤ (fill t1 t2 len1 len2).best := by
  obtain ⟨-, -, -, -, -, hopt, hnone⟩ := fill_inv t1 t2 len1 len2
  by_cases hex : ∃ x y, filled len2 (len1 - 1 + 1) 0 x y
  · rw [← (hopt hex).2.1]
    exact scoreAt_nonneg _ _ _ _
  · rw [(hnone hex).1]

theorem fill_best_ge (t1 t2 : List Char) (len1 len2 x y : Nat) (hx : x < len1) (hy : y < len2) :
    scoreAt t1 t2 x y ≤ (fill t1 t2 len1 len2).best := by
  obtain ⟨-, -, -, -, hbest, -⟩ := fill_inv t1 t2 len1 len2
  by_cases hf : 1 ≤ x ∧ 1 ≤ y
  · exact hbest x y ((filled_final len1 len2 x y).2 ⟨hf.1, hx, hf.2, hy⟩)
  · have h0 : scoreAt t1 t2 x y = 0 := by
      by_cases h0 : x = 0
      · rw [h0, scoreAt_zero_left]
      · have : y = 0 := by omega
        rw [this, scoreAt_zero_right]
    rw [h0]
    exact fill_best_nonneg t1 t2 len1 len2

theorem fill_opt (t1 t2 : List Char) (len1 len2 : Nat) (h1 : 1 < len1) (h2 : 1 < len2) :
    (1 ≤ (fill t1 t2 len1 len2).optlox ∧ (fill t1 t2 len1 len2).optlox < len1 ∧
      1 ≤ (fill t1 t2 len1 len2).optloy ∧ (fill t1 t2 len1 len2).optloy < len2) ∧
    scoreAt t1 t2 (fill t1 t2 len1 len2).optlox (fill t1 t2 len1 len2).optloy =
      (fill t1 t2 len1 len2).best ∧
    ∀ x y, 1 ≤ x → x < len1 → 1 ≤ y → y < len2 →
      scoreAt t1 t2 x y = (fill t1 t2 len1 len2).best →
      x < (fill t1 t2 len1 len2).optlox ∨
        (x = (fill t1 t2 len1 len2).optlox ∧ y ≤ (fill t1 t2 len1 len2).optloy) := by
  obtain ⟨-, -, -, -, -, hopt, -⟩ := fill_inv t1 t2 len1 len2
  have hex : ∃ x y, filled len2 (len1 - 1 + 1) 0 x y :=
    ⟨1, 1, (filled_final len1 len2 1 1).2 ⟨le_refl 1, h1, le_refl 1, h2⟩⟩
  obtain ⟨hf, hs, hlast⟩ := hopt hex
  refine ⟨?_, hs, ?_⟩
  · have := (filled_final len1 len2 _ _).1 hf
    omega
  · intro x y hx1 hx hy1 hy hsc
    exact hlast x y ((filled_final len1 len2 x y).2 ⟨hx1, hx, hy1, hy⟩) hsc

theorem fill_opt_none (t1 t2 : List Char) (len1 len2 : Nat) (h : len1 ≤ 1 ∨ len2 ≤ 1) :
    (fill t1 t2 len1 len2).best = 0 ∧ (fill t1 t2 len1 len2).optlox = 0 ∧
      (fill t1 t2 len1 len2).optloy = 0 := by
  obtain ⟨-, -, -, -, -, -, hnone⟩ := fill_inv t1 t2 len1 len2
  apply hnone
  rintro ⟨x, y, hf⟩
  have := (filled_final len1 len2 x y).1 hf
  omega

end FillLemmas

/-! ## Alignment of regions that agree along the last diagonal -/

section DiagonalLemmas

variable (t1 q1 t2 q2 : List Char) (d1 d2 k : Nat)

theorem diag_score (hd : d1 = 0 ∨ d2 = 0)
    (hk : ∀ r, r < k → charAt t1 (d1 + r) = charAt t2 (d2 + r)) :
    ∀ r, r ≤ k → scoreAt t1 t2 (d1 + r) (d2 + r) = r := by
  intro r
  induction r with
  | zero =>
    intro _
    rcases hd with hd | hd
    · rw [hd]
      exact scoreAt_zero_left t1 t2 _
    · rw [hd]
      exact scoreAt_zero_right t1 t2 _
  | succ r ih =>
    intro hr
    apply le_antisymm
    · have h := scoreAt_le_min t1 t2 (d1 + (r + 1)) (d2 + (r + 1))
      have e : ((min (d1 + (r + 1)) (d2 + (r + 1)) : Nat) : Int) = ((r + 1 : Nat) : Int) := by
        exact_mod_cast (by omega : min (d1 + (r + 1)) (d2 + (r + 1)) = r + 1)
      rw [e] at h
      exact h
    · rw [← Nat.add_assoc, ← Nat.add_assoc, scoreAt_succ, if_pos (hk r (by omega)),
        ih (by omega)]
      simp only [matchScore]
      exact le_trans (by push_cast; omega) (le_trans (le_max_left _ _) (le_max_right _ _))

theorem diag_dir (hd : d1 = 0 ∨ d2 = 0)
    (hk : ∀ r, r < k → charAt t1 (d1 + r) = charAt t2 (d2 + r)) (r : Nat) (hr : r < k) :
    dirAt t1 t2 (d1 + r + 1) (d2 + r + 1) = 0 := by
  have h1 := diag_score t1 t2 d1 d2 k hd hk (r + 1) (by omega)
  have h0 := diag_score t1 t2 d1 d2 k hd hk r (by omega)
  rw [← Nat.add_assoc, ← Nat.add_assoc] at h1
  unfold dirAt
  simp only [Nat.add_sub_cancel]
  rw [if_pos (hk r hr), h1, h0, if_pos (by simp [matchScore])]

theorem diag_opt (hd : d1 = 0 ∨ d2 = 0) (hk1 : 1 ≤ k)
    (hk : ∀ r, r < k → charAt t1 (d1 + r) = charAt t2 (d2 + r)) :
    (fill t1 t2 (d1 + k + 1) (d2 + k + 1)).optlox = d1 + k ∧
      (fill t1 t2 (d1 + k + 1) (d2 + k + 1)).optloy = d2 + k ∧
      (fill t1 t2 (d1 + k + 1) (d2 + k + 1)).best = k := by
  obtain ⟨hr, hs, hlast⟩ := fill_opt t1 t2 (d1 + k + 1) (d2 + k + 1) (by omega) (by omega)
  have hcorner := diag_score t1 t2 d1 d2 k hd hk k (le_refl k)
  have hge := fill_best_ge t1 t2 (d1 + k + 1) (d2 + k + 1) (d1 + k) (d2 + k) (by omega) (by omega)
  rw [hcorner] at hge
  have hle := scoreAt_le_min t1 t2 (fill t1 t2 (d1 + k + 1) (d2 + k + 1)).optlox
    (fill t1 t2 (d1 + k + 1) (d2 + k + 1)).optloy
  rw [hs] at hle
  have hmin : ((min (fill t1 t2 (d1 + k + 1) (d2 + k + 1)).optlox
      (fill t1 t2 (d1 + k + 1) (d2 + k + 1)).optloy : Nat) : Int) ≤ (k : Int) := by
    exact_mod_cast (by omega : min (fill t1 t2 (d1 + k + 1) (d2 + k + 1)).optlox
      (fill t1 t2 (d1 + k + 1) (d2 + k + 1)).optloy ≤ k)
  have hbest : (fill t1 t2 (d1 + k + 1) (d2 + k + 1)).best = k := by omega
  have := hlast (d1 + k) (d2 + k) (by omega) (by omega) (by omega) (by omega)
    (by rw [hcorner, hbest])
  omega

/-- The traceback from a cell of the last diagonal: `r` diagonal steps, all of
them matches, down to the border. -/
theorem diag_trace (hd : d1 = 0 ∨ d2 = 0)
    (hk : ∀ r, r < k → charAt t1 (d1 + r) = charAt t2 (d2 + r)) :
    ∀ r, r ≤ k → ∀ (fuel : Nat) (s : Trace), r ≤ fuel → s.i = d1 + r → s.j = d2 + r →
      s.max_score = r →
      (traceLoop t1 q1 t2 q2 (fill t1 t2 (d1 + k + 1) (d2 + k + 1)) fuel s).i = d1 ∧
      (traceLoop t1 q1 t2 q2 (fill t1 t2 (d1 + k + 1) (d2 + k + 1)) fuel s).j = d2 ∧
      (traceLoop t1 q1 t2 q2 (fill t1 t2 (d1 + k + 1) (d2 + k + 1)) fuel s).seq =
        s.seq ++ (List.range r).reverse.map (fun p => charAt t1 (d1 + p)) ∧
      (traceLoop t1 q1 t2 q2 (fill t1 t2 (d1 + k + 1) (d2 + k + 1)) fuel s).qual =
        s.qual ++ (List.range r).reverse.map (fun p =>
          if charAt q1 (d1 + p) > charAt q2 (d2 + p) then charAt q1 (d1 + p)
          else charAt q2 (d2 + p)) ∧
      (traceLoop t1 q1 t2 q2 (fill t1 t2 (d1 + k + 1) (d2 + k + 1)) fuel s).matches_ =
        s.matches_ + r ∧
      (traceLoop t1 q1 t2 q2 (fill t1 t2 (d1 + k + 1) (d2 + k + 1)) fuel s).mismatches =
        s.mismatches ∧
      (traceLoop t1 q1 t2 q2 (fill t1 t2 (d1 + k + 1) (d2 + k + 1)) fuel s).num_gaps =
        s.num_gaps := by
  intro r
  induction r with
  | zero =>
    intro _ fuel s _ hi hj hm
    have hstop : traceLoop t1 q1 t2 q2 (fill t1 t2 (d1 + k + 1) (d2 + k + 1)) fuel s = s := by
      cases fuel with
      | zero => rfl
      | succ fuel =>
        simp only [traceLoop]
        rw [if_neg]
        rw [hm]
        simp
    rw [hstop]
    simp [hi, hj]
  | succ r ih =>
    intro hr fuel s hfuel hi hj hm
    obtain ⟨fuel, rfl⟩ : ∃ f, fuel = f + 1 := ⟨fuel - 1, by omega⟩
    have hB : (fill t1 t2 (d1 + k + 1) (d2 + k + 1)).B s.i s.j = 0 := by
      rw [hi, hj, fill_B t1 t2 _ _ _ _ (by omega) (by omega) (by omega) (by omega),
        ← Nat.add_assoc, ← Nat.add_assoc]
      exact diag_dir t1 t2 d1 d2 k hd hk r (by omega)
    have hchar : charAt t1 (s.i - 1) = charAt t2 (s.j - 1) := by
      rw [hi, hj, ← Nat.add_assoc, ← Nat.add_assoc, Nat.add_sub_cancel, Nat.add_sub_cancel]
      exact hk r (by omega)
    have hi' : s.i - 1 = d1 + r := by omega
    have hj' : s.j - 1 = d2 + r := by omega
    simp only [traceLoop]
    rw [if_pos ⟨by rw [hm]; exact_mod_cast Nat.succ_pos r, by omega, by omega⟩,
      traceStep_diagonal t1 q1 t2 q2 _ s hB]
    obtain ⟨e1, e2, e3, e4, e5, e6, e7⟩ := ih (by omega) fuel
      { i := s.i - 1, j := s.j - 1,
        max_score := (fill t1 t2 (d1 + k + 1) (d2 + k + 1)).A (s.i - 1) (s.j - 1),
        seq := s.seq ++
          [if charAt q1 (s.i - 1) > charAt q2 (s.j - 1) then charAt t1 (s.i - 1)
            else charAt t2 (s.j - 1)],
        qual := s.qual ++
          [if charAt q1 (s.i - 1) > charAt q2 (s.j - 1) then charAt q1 (s.i - 1)
            else charAt q2 (s.j - 1)],
        matches_ :=
          if charAt t1 (s.i - 1) ≠ charAt t2 (s.j - 1) then s.matches_ else s.matches_ + 1,
        mismatches :=
          if charAt t1 (s.i - 1) ≠ charAt t2 (s.j - 1) then s.mismatches + 1 else s.mismatches,
        num_gaps := s.num_gaps }
      (by omega) hi' hj'
      (by
        show (fill t1 t2 (d1 + k + 1) (d2 + k + 1)).A (s.i - 1) (s.j - 1) = _
        rw [hi', hj', fill_A t1 t2 _ _ _ _ (by omega) (by omega)]
        exact diag_score t1 t2 d1 d2 k hd hk r (by omega))
    refine ⟨e1, e2, ?_, ?_, ?_, ?_, e7⟩
    · rw [e3]
      simp only [← hchar, ite_self, hi', List.range_succ, List.reverse_append,
        List.reverse_singleton, List.singleton_append, List.map_cons, List.append_assoc]
    · rw [e4]
      simp only [hi', hj', List.range_succ, List.reverse_append, List.reverse_singleton,
        List.singleton_append, List.map_cons, List.append_assoc]
    · rw [e5]
      simp only [hchar, ne_eq, not_true_eq_false, if_false]
      omega
    · rw [e6]
      simp only [hchar, ne_eq, not_true_eq_false, if_false]

theorem copyDown_zero (t : List Char) (a : Nat) :
    copyDown t 0 a = (List.range a).reverse.map (charAt t) := by
  induction a with
  | zero => rfl
  | succ a ih =>
    simp only [copyDown, List.range_succ, List.reverse_append, List.reverse_singleton,
      List.singleton_append, List.map_cons]
    rw [if_pos (Nat.succ_pos a), ih]

theorem copyDown_of_le (t : List Char) (lo a : Nat) (h : a ≤ lo) : copyDown t lo a = [] := by
  cases a with
  | zero => rfl
  | succ a =>
    simp only [copyDown]
    rw [if_neg (by omega)]

theorem map_charAt_range (t : List Char) (n : Nat) (h : n ≤ t.length) :
    (List.range n).map (charAt t) = t.take n := by
  apply List.ext_getElem
  · simp [h]
  · intro i h1 h2
    simp only [List.length_map, List.length_range] at h1
    simp [charAt, List.getElem?_eq_getElem (Nat.lt_of_lt_of_le h1 h)]

theorem charAt_take (t : List Char) (n p : Nat) (h : p < n) :
    charAt (t.take n) p = charAt t p := by
  unfold charAt
  simp only [List.getD_eq_getElem?_getD, List.getElem?_take_of_lt h]

theorem traceEnd_left_diag (hd : d1 = 0 ∨ d2 = 0) (hk1 : 1 ≤ k)
    (hk : ∀ r, r < k → charAt t1 (d1 + r) = charAt t2 (d2 + r)) :
    (traceEnd t1 q1 t2 q2 (d1 + k + 1) (d2 + k + 1) false).i = d1 ∧
    (traceEnd t1 q1 t2 q2 (d1 + k + 1) (d2 + k + 1) false).j = d2 ∧
    (traceEnd t1 q1 t2 q2 (d1 + k + 1) (d2 + k + 1) false).seq =
      (List.range k).reverse.map (fun p => charAt t1 (d1 + p)) ∧
    (traceEnd t1 q1 t2 q2 (d1 + k + 1) (d2 + k + 1) false).qual =
      (List.range k).reverse.map (fun p =>
        if charAt q1 (d1 + p) > charAt q2 (d2 + p) then charAt q1 (d1 + p)
        else charAt q2 (d2 + p)) ∧
    (traceEnd t1 q1 t2 q2 (d1 + k + 1) (d2 + k + 1) false).matches_ = k ∧
    (traceEnd t1 q1 t2 q2 (d1 + k + 1) (d2 + k + 1) false).mismatches = 0 ∧
    (traceEnd t1 q1 t2 q2 (d1 + k + 1) (d2 + k + 1) false).num_gaps = 0 := by
  obtain ⟨hx, hy, hb⟩ := diag_opt t1 t2 d1 d2 k hd hk1 hk
  have h := diag_trace t1 q1 t2 q2 d1 d2 k hd hk k (le_refl k)
    ((fill t1 t2 (d1 + k + 1) (d2 + k + 1)).optlox + (fill t1 t2 (d1 + k + 1) (d2 + k + 1)).optloy)
    (traceStart t1 q1 t2 q2 (d1 + k + 1) (d2 + k + 1) false) (by omega)
    (by simp only [traceStart, Bool.false_eq_true, if_false]; exact hx)
    (by simp only [traceStart, Bool.false_eq_true, if_false]; exact hy)
    (by simp only [traceStart, Bool.false_eq_true, if_false]; exact hb)
  unfold traceEnd
  obtain ⟨e1, e2, e3, e4, e5, e6, e7⟩ := h
  refine ⟨e1, e2, ?_, ?_, ?_, ?_, ?_⟩
  · rw [e3]
    simp only [traceStart, Bool.false_eq_true, if_false, List.nil_append]
  · rw [e4]
    simp only [traceStart, Bool.false_eq_true, if_false, List.nil_append]
  · rw [e5]
    simp only [traceStart, Bool.false_eq_true, if_false, Nat.zero_add]
  · rw [e6]
    simp only [traceStart, Bool.false_eq_true, if_false]
  · rw [e7]
    simp only [traceStart, Bool.false_eq_true, if_false, hy]
    omega

theorem traceEnd_right_diag (hk1 : 1 ≤ k)
    (hk : ∀ r, r < k → charAt t1 r = charAt t2 r) :
    (traceEnd t1 q1 t2 q2 (k + 1) (k + 1) true).i = 0 ∧
    (traceEnd t1 q1 t2 q2 (k + 1) (k + 1) true).j = 0 ∧
    (traceEnd t1 q1 t2 q2 (k + 1) (k + 1) true).seq =
      (List.range k).reverse.map (fun p => charAt t1 p) ∧
    (traceEnd t1 q1 t2 q2 (k + 1) (k + 1) true).qual =
      (List.range k).reverse.map (fun p =>
        if charAt q1 p > charAt q2 p then charAt q1 p else charAt q2 p) ∧
    (traceEnd t1 q1 t2 q2 (k + 1) (k + 1) true).matches_ = k ∧
    (traceEnd t1 q1 t2 q2 (k + 1) (k + 1) true).mismatches = 0 := by
  have hk' : ∀ r, r < k → charAt t1 (0 + r) = charAt t2 (0 + r) := by
    intro r hr
    rw [Nat.zero_add]
    exact hk r hr
  obtain ⟨hx, hy, hb⟩ := diag_opt t1 t2 0 0 k (Or.inl rfl) hk1 hk'
  simp only [Nat.zero_add] at hx hy hb
  have h := diag_trace t1 q1 t2 q2 0 0 k (Or.inl rfl) hk' k (le_refl k)
    ((fill t1 t2 (k + 1) (k + 1)).optlox + (fill t1 t2 (k + 1) (k + 1)).optloy)
    (traceStart t1 q1 t2 q2 (k + 1) (k + 1) true)
    (by rw [hx, hy]; omega)
    (by simp only [traceStart, if_true, Nat.lt_irrefl, gt_iff_lt, if_false, Nat.zero_add]; exact hx)
    (by simp only [traceStart, if_true, Nat.lt_irrefl, gt_iff_lt, if_false, Nat.zero_add]; exact hy)
    (by simp only [traceStart, if_true, Nat.lt_irrefl, gt_iff_lt, if_false, Nat.zero_add]; exact hb)
  simp only [Nat.zero_add] at h
  unfold traceEnd
  obtain ⟨e1, e2, e3, e4, e5, e6, -⟩ := h
  have hstart : (traceStart t1 q1 t2 q2 (k + 1) (k + 1) true).seq = [] ∧
      (traceStart t1 q1 t2 q2 (k + 1) (k + 1) true).qual = [] ∧
      (traceStart t1 q1 t2 q2 (k + 1) (k + 1) true).matches_ = 0 ∧
      (traceStart t1 q1 t2 q2 (k + 1) (k + 1) true).mismatches = 0 := by
    simp only [traceStart, if_true, Nat.lt_irrefl, gt_iff_lt, if_false, Nat.add_sub_cancel, hy,
      copyDown_of_le _ k k (le_refl k), and_self]
  refine ⟨e1, e2, ?_, ?_, ?_, ?_⟩
  · rw [e3, hstart.1, List.nil_append]
  · rw [e4, hstart.2.1, List.nil_append]
  · rw [e5, hstart.2.2.1, Nat.zero_add]
  · rw [e6, hstart.2.2.2]

theorem map_range_add (f : Nat → Char) (a b : Nat) :
    (List.range a).map f ++ (List.range b).map (fun p => f (a + p)) =
      (List.range (a + b)).map f := by
  rw [List.range_add, List.map_append, List.map_map]
  rfl

theorem charAt_append_right (x y : List Char) (r : Nat) :
    charAt (x ++ y) (x.length + r) = charAt y r := by
  unfold charAt
  simp only [List.getD_eq_getElem?_getD]
  rw [List.getElem?_append_right (by omega)]
  simp

theorem alignRegions_left_diag (hd : d1 = 0 ∨ d2 = 0) (hk1 : 1 ≤ k)
    (hk : ∀ r, r < k → charAt t1 (d1 + r) = charAt t2 (d2 + r)) :
    alignRegions t1 q1 t2 q2 (d1 + k + 1) (d2 + k + 1) false =
      { gaps := 0, matches_ := k, mismatches := 0,
        seq := (if d1 > d2 then (List.range d1).map (charAt t1)
            else (List.range d2).map (charAt t2)) ++
          (List.range k).map (fun p => charAt t1 (d1 + p)),
        qual := (if d1 > d2 then (List.range d1).map (charAt q1)
            else (List.range d2).map (charAt q2)) ++
          (List.range k).map (fun p =>
            if charAt q1 (d1 + p) > charAt q2 (d2 + p) then charAt q1 (d1 + p)
            else charAt q2 (d2 + p)) } := by
  obtain ⟨e1, e2, e3, e4, e5, e6, e7⟩ := traceEnd_left_diag t1 q1 t2 q2 d1 d2 k hd hk1 hk
  unfold alignRegions
  simp only [Bool.false_eq_true, if_false, e1, e2, e3, e4, e5, e6, e7, copyDown_zero]
  by_cases hgt : d1 > d2
  · have hgt' : d1 + k + 1 > d2 + k + 1 := by omega
    simp only [hgt, hgt', if_true, List.reverse_append, List.map_reverse, List.reverse_reverse]
  · have hgt' : ¬ d1 + k + 1 > d2 + k + 1 := by omega
    simp only [hgt, hgt', if_false, List.reverse_append, List.map_reverse, List.reverse_reverse]

theorem alignRegions_right_diag (hk1 : 1 ≤ k) (hk : ∀ r, r < k → charAt t1 r = charAt t2 r) :
    alignRegions t1 q1 t2 q2 (k + 1) (k + 1) true =
      { gaps := 0, matches_ := k, mismatches := 0,
        seq := (List.range k).map (fun p => charAt t1 p),
        qual := (List.range k).map (fun p =>
          if charAt q1 p > charAt q2 p then charAt q1 p else charAt q2 p) } := by
  obtain ⟨e1, e2, e3, e4, e5, e6⟩ := traceEnd_right_diag t1 q1 t2 q2 k hk1 hk
  unfold alignRegions
  simp only [if_true, e1, e2, e3, e4, e5, e6, List.map_reverse, List.reverse_reverse]
  rfl

theorem pid_all_matches (a : Alignment) (h0 : a.mismatches = 0) (h1 : 1 ≤ a.matches_) :
    a.pid = some 100 := by
  unfold Alignment.pid
  rw [h0, Nat.add_zero, if_neg (by omega)]
  have hne : ((a.matches_ : Nat) : ℚ) ≠ 0 := by
    exact_mod_cast (by omega : a.matches_ ≠ 0)
  congr 1
  field_simp

end DiagonalLemmas

/-! ## The lines of a record -/

section RecordLemmas

theorem map_charAt_range' (l : List Char) (e n : Nat) (h : l.length = n) :
    (List.range' e (n - e)).map (charAt l) = l.drop e := by
  have h1 := map_charAt_range (l.drop e) (n - e) (by rw [List.length_drop, h])
  rw [List.take_of_length_le (by rw [List.length_drop, h])] at h1
  rw [← h1, List.range'_eq_map_range, List.map_map]
  apply List.map_congr_left
  intro i _
  simp only [Function.comp_apply, charAt_drop]

theorem seqLine_eq (fmotif : List Char) (b : Block) (hseq : b.seq.length = b.slen)
    (hz : b.zstart ≤ b.slen) :
    seqLine fmotif b =
      b.seq.take b.zstart ++
        (List.replicate (scanSupports b.supports initKept).maxcopies.toNat fmotif).flatten ++
        b.seq.drop b.end_ := by
  unfold seqLine
  rw [map_charAt_range b.seq b.zstart (by omega), map_charAt_range' b.seq b.end_ b.slen hseq,
    List.map_const', List.length_range]

theorem qualLine_eq (fmotif : List Char) (b : Block) (hqual : b.qual.length = b.slen)
    (hz : b.zstart ≤ b.slen) :
    qualLine fmotif b =
      b.qual.take b.zstart ++
        List.replicate ((scanSupports b.supports initKept).maxcopies.toNat * fmotif.length) '!' ++
        b.qual.drop b.end_ := by
  unfold qualLine
  rw [map_charAt_range b.qual b.zstart (by omega), map_charAt_range' b.qual b.end_ b.slen hqual,
    List.map_const', List.length_range]

/-- For reads whose annotated repeat start lies inside the read, every block
of the store has `zstart <= slen`: the hypothesis of the record lemmas holds
for the blocks that the emitter visits. -/
theorem store_blocks_zstart_le (comp : Char → Char) (klength : Nat)
    (reads : List (FastqSequence × Header)) (h : ∀ r ∈ reads, r.2.rzstart ≤ r.1.slen) :
    ∀ e ∈ mergeReads comp klength reads, ∀ b ∈ e.2, b.zstart ≤ b.slen := by
  have hstep : ∀ (b : Block) (seq : FastqSequence) (motif : List Char) (c : Int)
      (zstart end_ : Nat), b.zstart ≤ b.slen →
      (AlignFlanks b seq motif c zstart end_).2.zstart ≤
        (AlignFlanks b seq motif c zstart end_).2.slen := by
    intro b seq motif c zstart end_ hb
    cases hflag : (AlignFlanks b seq motif c zstart end_).1
    · rw [AlignFlanks_unchanged b seq motif c zstart end_ hflag]
      exact hb
    · rw [AlignFlanks_flag] at hflag
      simp only [Bool.and_eq_true, Bool.not_eq_true'] at hflag
      rw [AlignFlanks_of_accepted b seq motif c zstart end_ hflag.1 hflag.2]
      simp only []
      omega
  unfold mergeReads
  apply foldl_processRead_preserves (fun _ b => b.zstart ≤ b.slen)
  · intro r hr
    exact ⟨fun b hb => hstep b _ _ _ _ _ hb, fun b hb => hstep b _ _ _ _ _ hb, h r hr⟩
  · intro e he
    simp at he

end RecordLemmas

/-! ## The copy-number tally -/

section TallyLemmas

theorem bumpSupport_copies (c : Int) (l : List Copies) :
    ((bumpSupport c l).1).map Copies.copies = l.map Copies.copies := by
  induction l with
  | nil => rfl
  | cons iter next ih =>
    simp only [bumpSupport]
    split_ifs
    · rfl
    · simp only [List.map_cons, ih]

theorem bumpSupport_found_iff (c : Int) (l : List Copies) :
    (bumpSupport c l).2 = true ↔ ∃ x ∈ l, x.copies = c := by
  induction l with
  | nil => simp [bumpSupport]
  | cons iter next ih =>
    simp only [bumpSupport]
    split_ifs with h
    · simp [h]
    · simp only [ih, List.mem_cons, exists_eq_or_imp, h, false_or]

theorem bumpSupport_of_not_found (c : Int) (l : List Copies)
    (h : ¬ ∃ x ∈ l, x.copies = c) : bumpSupport c l = (l, false) := by
  induction l with
  | nil => rfl
  | cons iter next ih =>
    have h1 : ¬ iter.copies = c := fun hc => h ⟨iter, List.mem_cons_self _ _, hc⟩
    have h2 : ¬ ∃ x ∈ next, x.copies = c :=
      fun ⟨x, hx, hc⟩ => h ⟨x, List.mem_cons_of_mem _ hx, hc⟩
    simp only [bumpSupport]
    rw [if_neg h1, ih h2]

theorem bumpSupport_of_found (c : Int) (l : List Copies) (hnd : (l.map Copies.copies).Nodup)
    (h : ∃ x ∈ l, x.copies = c) :
    bumpSupport c l =
      (l.map (fun x => if x.copies = c then { copies := c, nsupport := x.nsupport + 1 } else x),
        true) := by
  induction l with
  | nil =>
    obtain ⟨x, hx, -⟩ := h
    exact absurd hx (List.not_mem_nil x)
  | cons iter next ih =>
    rw [List.map_cons, List.nodup_cons] at hnd
    simp only [bumpSupport, List.map_cons]
    by_cases hc : iter.copies = c
    · rw [if_pos hc, if_pos hc]
      have hrest : next.map (fun x =>
          if x.copies = c then { copies := c, nsupport := x.nsupport + 1 } else x) = next := by
        rw [List.map_congr_left (g := id), List.map_id]
        intro x hx
        have hne : ¬ x.copies = c := by
          intro hxc
          apply hnd.1
          rw [hc, ← hxc]
          exact List.mem_map_of_mem _ hx
        simp only [hne, if_false, id]
      rw [hrest, hc]
    · rw [if_neg hc, if_neg hc]
      have hex : ∃ x ∈ next, x.copies = c := by
        obtain ⟨x, hx, hxc⟩ := h
        rcases List.mem_cons.1 hx with hx | hx
        · rw [hx] at hxc
          exact absurd hxc hc
        · exact ⟨x, hx, hxc⟩
      rw [ih hnd.2 hex]

theorem AlignFlanks_supports (block : Block) (seq : FastqSequence) (motif : List Char)
    (copies : Int) (zstart end_ : Nat)
    (h : (AlignFlanks block seq motif copies zstart end_).1 = true) :
    (AlignFlanks block seq motif copies zstart end_).2.supports =
      if (bumpSupport copies block.supports).2 = false then
        { copies := copies, nsupport := 1 } :: (bumpSupport copies block.supports).1
      else (bumpSupport copies block.supports).1 := by
  rw [AlignFlanks_flag] at h
  simp only [Bool.and_eq_true, Bool.not_eq_true'] at h
  rw [AlignFlanks_of_accepted block seq motif copies zstart end_ h.1 h.2]
  rfl

theorem AlignFlanks_supports_new (block : Block) (seq : FastqSequence) (motif : List Char)
    (copies : Int) (zstart end_ : Nat)
    (h : (AlignFlanks block seq motif copies zstart end_).1 = true)
    (hnew : ¬ ∃ x ∈ block.supports, x.copies = copies) :
    (AlignFlanks block seq motif copies zstart end_).2.supports =
      { copies := copies, nsupport := 1 } :: block.supports := by
  rw [AlignFlanks_supports block seq motif copies zstart end_ h,
    bumpSupport_of_not_found copies block.supports hnew]
  rfl

theorem AlignFlanks_supports_copies (block : Block) (seq : FastqSequence) (motif : List Char)
    (copies : Int) (zstart end_ : Nat)
    (h : (AlignFlanks block seq motif copies zstart end_).1 = true)
    (hold : ∃ x ∈ block.supports, x.copies = copies) :
    (AlignFlanks block seq motif copies zstart end_).2.supports.map Copies.copies =
      block.supports.map Copies.copies := by
  rw [AlignFlanks_supports block seq motif copies zstart end_ h,
    if_neg (by rw [(bumpSupport_found_iff copies block.supports).2 hold]; decide),
    bumpSupport_copies]

theorem AlignFlanks_nodup (block : Block) (seq : FastqSequence) (motif : List Char)
    (copies : Int) (zstart end_ : Nat) (hnd : (block.supports.map Copies.copies).Nodup) :
    ((AlignFlanks block seq motif copies zstart end_).2.supports.map Copies.copies).Nodup := by
  cases hflag : (AlignFlanks block seq motif copies zstart end_).1
  · rw [AlignFlanks_unchanged block seq motif copies zstart end_ hflag]
    exact hnd
  · by_cases hold : ∃ x ∈ block.supports, x.copies = copies
    · rw [AlignFlanks_supports_copies block seq motif copies zstart end_ hflag hold]
      exact hnd
    · rw [AlignFlanks_supports_new block seq motif copies zstart end_ hflag hold, List.map_cons,
        List.nodup_cons]
      refine ⟨?_, hnd⟩
      intro hmem
      obtain ⟨x, hx, hxc⟩ := List.mem_map.1 hmem
      exact hold ⟨x, hx, hxc⟩

theorem store_tally_nodup (comp : Char → Char) (klength : Nat)
    (reads : List (FastqSequence × Header)) :
    ∀ e ∈ mergeReads comp klength reads, ∀ b ∈ e.2, (b.supports.map Copies.copies).Nodup := by
  unfold mergeReads
  apply foldl_processRead_preserves (fun _ b => (b.supports.map Copies.copies).Nodup)
  · intro r _
    refine ⟨fun b hb => AlignFlanks_nodup b _ _ _ _ _ hb,
      fun b hb => AlignFlanks_nodup b _ _ _ _ _ hb, ?_⟩
    simp [newBlock]
  · intro e he
    simp at he

end TallyLemmas

/-! ## The support counter and the tally -/

section SupportLemmas

theorem bumpSupport_nsupport_sum (c : Int) (l : List Copies) :
    (((bumpSupport c l).1).map Copies.nsupport).sum =
      (l.map Copies.nsupport).sum + (if (bumpSupport c l).2 = true then 1 else 0) := by
  induction l with
  | nil => rfl
  | cons iter next ih =>
    simp only [bumpSupport]
    by_cases hc : iter.copies = c
    · simp only [if_pos hc, List.map_cons, List.sum_cons, if_true]
      omega
    · simp only [if_neg hc, List.map_cons, List.sum_cons, ih]
      omega

theorem AlignFlanks_support (block : Block) (seq : FastqSequence) (motif : List Char)
    (copies : Int) (zstart end_ : Nat) :
    (AlignFlanks block seq motif copies zstart end_).2.support =
      block.support + (if (AlignFlanks block seq motif copies zstart end_).1 = true then 1 else 0) := by
  cases hflag : (AlignFlanks block seq motif copies zstart end_).1
  · rw [AlignFlanks_unchanged block seq motif copies zstart end_ hflag]
    rfl
  · rw [AlignFlanks_flag] at hflag
    simp only [Bool.and_eq_true, Bool.not_eq_true'] at hflag
    rw [AlignFlanks_of_accepted block seq motif copies zstart end_ hflag.1 hflag.2]
    rfl

theorem AlignFlanks_nsupport_sum (block : Block) (seq : FastqSequence) (motif : List Char)
    (copies : Int) (zstart end_ : Nat) :
    ((AlignFlanks block seq motif copies zstart end_).2.supports.map Copies.nsupport).sum =
      (block.supports.map Copies.nsupport).sum +
        (if (AlignFlanks block seq motif copies zstart end_).1 = true then 1 else 0) := by
  cases hflag : (AlignFlanks block seq motif copies zstart end_).1
  · rw [AlignFlanks_unchanged block seq motif copies zstart end_ hflag]
    rfl
  · rw [AlignFlanks_supports block seq motif copies zstart end_ hflag]
    have hsum := bumpSupport_nsupport_sum copies block.supports
    cases hfound : (bumpSupport copies block.supports).2
    · rw [hfound] at hsum
      rw [if_pos rfl, List.map_cons, List.sum_cons, hsum]
      simp only [Bool.false_eq_true, if_false, if_true]
      omega
    · rw [hfound] at hsum
      rw [if_neg (by decide), hsum]

theorem AlignFlanks_support_inv (block : Block) (seq : FastqSequence) (motif : List Char)
    (copies : Int) (zstart end_ : Nat)
    (h : block.support = (block.supports.map Copies.nsupport).sum ∧ 1 ≤ block.support) :
    (AlignFlanks block seq motif copies zstart end_).2.support =
        ((AlignFlanks block seq motif copies zstart end_).2.supports.map Copies.nsupport).sum ∧
      1 ≤ (AlignFlanks block seq motif copies zstart end_).2.support := by
  rw [AlignFlanks_support, AlignFlanks_nsupport_sum, h.1]
  constructor
  · rfl
  · have := h.2
    rw [h.1] at this
    omega

theorem newBlock_support_inv (sequence : FastqSequence) (h : Header) :
    (newBlock sequence h).support = ((newBlock sequence h).supports.map Copies.nsupport).sum ∧
      1 ≤ (newBlock sequence h).support := by
  simp [newBlock]

end SupportLemmas

/-! ## The acceptance test and the merge (`AlignFlanks`) -/

set_option maxRecDepth 1000000 in
/-- C1 (the code departs from the claim): `AlignFlanks` returns TRUE for
`nanBlock` and `nanRead` although the left-flank alignment has no aligned
position, so that its percent identity is `0.0 / 0`, not a value `>= 90`: the
test `pid < pid_threshold` is false on NaN.  The state is reached by the read
loop itself: after the first two reads of `nanReads` the store holds exactly
`nanBlock`, and the third read is merged into it. -/
theorem alignFlanks_accepts_undefined_pid :
    (Align nanBlock.seq nanBlock.qual 0 nanBlock.zstart nanRead.bases nanRead.quals 0 1 false).pid = none ∧
    (Align nanBlock.seq nanBlock.qual 0 nanBlock.zstart nanRead.bases nanRead.quals 0 1 false).gaps = 0 ∧
    (AlignFlanks nanBlock nanRead "CA".toList 1 1 3).1 = true ∧
    mergeReads dnaComplement 1 (nanReads.take 2) = [("CA C T".toList, [nanBlock])] ∧
    mergeReads dnaComplement 1 nanReads =
      [("CA C T".toList, [(AlignFlanks nanBlock nanRead "CA".toList 1 1 3).2])] := by
  refine ⟨?_, by decide, by decide, by decide, by decide⟩
  have h : (Align nanBlock.seq nanBlock.qual 0 nanBlock.zstart nanRead.bases nanRead.quals 0 1
      false).matches_ + (Align nanBlock.seq nanBlock.qual 0 nanBlock.zstart nanRead.bases
      nanRead.quals 0 1 false).mismatches = 0 := by decide
  unfold Alignment.pid
  rw [if_pos h]

/-- C2: when the left-flank or the right-flank alignment fails the threshold,
`AlignFlanks` returns FALSE and leaves the block, with all its fields and its
tally, exactly as it was. -/
theorem alignFlanks_reject_keeps_block (block : Block) (seq : FastqSequence)
    (motif : List Char) (copies : Int) (zstart end_ : Nat)
    (h : rejected (Align block.seq block.qual 0 block.zstart seq.bases seq.quals 0 zstart false) = true ∨
      rejected (Align block.seq block.qual block.end_ block.slen seq.bases seq.quals end_ seq.slen true) = true) :
    (AlignFlanks block seq motif copies zstart end_).1 = false ∧
      (AlignFlanks block seq motif copies zstart end_).2 = block := by
  rw [AlignFlanks_of_rejected block seq motif copies zstart end_ h]
  exact ⟨rfl, rfl⟩

set_option maxRecDepth 1000000 in
theorem alignFlanks_reject_keeps_block_witness :
    rejected (Align sampleBlock.seq sampleBlock.qual 0 sampleBlock.zstart farRead.bases
      farRead.quals 0 4 false) = true ∧
    (AlignFlanks sampleBlock farRead "CA".toList 1 4 6).1 = false ∧
      (AlignFlanks sampleBlock farRead "CA".toList 1 4 6).2 = sampleBlock :=
  ⟨by decide, alignFlanks_reject_keeps_block sampleBlock farRead "CA".toList 1 4 6
    (Or.inl (by decide))⟩

/-- C3: after an accepted merge, with `L` and `R` the left and right results of
`Align` on the block as it was: `zstart = |L.seq|`, `end = zstart + |motif|`,
`slen = end + |R.seq|`, `seq = L.seq ++ motif ++ R.seq`,
`qual = L.qual ++ '!' * |motif| ++ R.qual`, and `support` has grown by one. -/
theorem alignFlanks_merge_fields (block : Block) (seq : FastqSequence)
    (motif : List Char) (copies : Int) (zstart end_ : Nat)
    (h : (AlignFlanks block seq motif copies zstart end_).1 = true) :
    (AlignFlanks block seq motif copies zstart end_).2.zstart =
      (Align block.seq block.qual 0 block.zstart seq.bases seq.quals 0 zstart false).seq.length ∧
    (AlignFlanks block seq motif copies zstart end_).2.end_ =
      (AlignFlanks block seq motif copies zstart end_).2.zstart + motif.length ∧
    (AlignFlanks block seq motif copies zstart end_).2.slen =
      (AlignFlanks block seq motif copies zstart end_).2.end_ +
        (Align block.seq block.qual block.end_ block.slen seq.bases seq.quals end_ seq.slen true).seq.length ∧
    (AlignFlanks block seq motif copies zstart end_).2.seq =
      (Align block.seq block.qual 0 block.zstart seq.bases seq.quals 0 zstart false).seq ++ motif ++
        (Align block.seq block.qual block.end_ block.slen seq.bases seq.quals end_ seq.slen true).seq ∧
    (AlignFlanks block seq motif copies zstart end_).2.qual =
      (Align block.seq block.qual 0 block.zstart seq.bases seq.quals 0 zstart false).qual ++
        List.replicate motif.length '!' ++
        (Align block.seq block.qual block.end_ block.slen seq.bases seq.quals end_ seq.slen true).qual ∧
    (AlignFlanks block seq motif copies zstart end_).2.support = block.support + 1 := by
  rw [AlignFlanks_flag] at h
  simp only [Bool.and_eq_true, Bool.not_eq_true'] at h
  rw [AlignFlanks_of_accepted block seq motif copies zstart end_ h.1 h.2]
  exact ⟨rfl, rfl, rfl, rfl, rfl, rfl⟩

set_option maxRecDepth 1000000 in
theorem alignFlanks_merge_fields_witness :
    (AlignFlanks sampleBlock nearRead "CA".toList 2 2 6).1 = true ∧
    (AlignFlanks sampleBlock nearRead "CA".toList 2 2 6).2.zstart = 2 ∧
    (AlignFlanks sampleBlock nearRead "CA".toList 2 2 6).2.seq = "GACAT".toList ∧
    (AlignFlanks sampleBlock nearRead "CA".toList 2 2 6).2.qual = "JJ!!J".toList ∧
    (AlignFlanks sampleBlock nearRead "CA".toList 2 2 6).2.support = 2 := by
  have h := alignFlanks_merge_fields sampleBlock nearRead "CA".toList 2 2 6 (by decide)
  have hL : Align sampleBlock.seq sampleBlock.qual 0 sampleBlock.zstart nearRead.bases
      nearRead.quals 0 2 false = ⟨0, 1, 0, "GA".toList, "JJ".toList⟩ := by decide
  have hR : Align sampleBlock.seq sampleBlock.qual sampleBlock.end_ sampleBlock.slen
      nearRead.bases nearRead.quals 6 nearRead.slen true = ⟨0, 1, 0, "T".toList, "J".toList⟩ := by
    decide
  rw [hL, hR] at h
  exact ⟨by decide, h.1, h.2.2.2.1, h.2.2.2.2.1, h.2.2.2.2.2⟩

/-! ## Invariants of the blocks in the store -/

/-- C4: when every read has bases and qualities of length `slen`, every block
in the store after any number of reads (each block was created from a read and
then went through accepted and rejected merge attempts) has
`|seq| = |qual| = slen`. -/
theorem store_blocks_lengths (comp : Char → Char) (klength : Nat)
    (reads : List (FastqSequence × Header))
    (h : ∀ r ∈ reads, r.1.bases.length = r.1.slen ∧ r.1.quals.length = r.1.slen) :
    ∀ e ∈ mergeReads comp klength reads, ∀ b ∈ e.2,
      b.seq.length = b.slen ∧ b.qual.length = b.slen := by
  unfold mergeReads
  apply foldl_processRead_preserves (fun _ b => b.seq.length = b.slen ∧ b.qual.length = b.slen)
  · intro r hr
    refine ⟨fun b hb => AlignFlanks_lengths b _ _ _ _ _ hb,
      fun b hb => AlignFlanks_lengths b _ _ _ _ _ hb, newBlock_lengths comp r.1 r.2 (h r hr)⟩
  · intro e he
    simp at he

set_option maxRecDepth 1000000 in
theorem store_blocks_lengths_witness :
    (∀ r ∈ nanReads, r.1.bases.length = r.1.slen ∧ r.1.quals.length = r.1.slen) ∧
    ("CA C T".toList, [mergedBlock]) ∈ mergeReads dnaComplement 1 nanReads ∧
    mergedBlock.seq.length = mergedBlock.slen ∧ mergedBlock.qual.length = mergedBlock.slen :=
  ⟨by decide, by decide,
    store_blocks_lengths dnaComplement 1 nanReads (by decide) ("CA C T".toList, [mergedBlock])
      (by decide) mergedBlock (by decide)⟩

set_option maxRecDepth 1000000 in
/-- C5 (as stated, refuted): the block created from the first read of
`nanReads` is stored under the key `CA C T` with `zstart = 4` and `end = 8`,
the whole annotated repeat of two copies, not `zstart + |CA| = 6`; with
`include_all` and `min_threshold = 1` this block passes the output filter and
the `ForceAssert` of line 471 is false on it. -/
theorem created_block_spans_whole_repeat :
    mergeReads dnaComplement 1 (nanReads.take 1) = [("CA C T".toList, [firstBlock])] ∧
    keyMotif "CA C T".toList = "CA".toList ∧
    firstBlock.end_ ≠ firstBlock.zstart + (keyMotif "CA C T".toList).length ∧
    emitted 1 10000 true firstBlock = true ∧
    assertion (keyMotif "CA C T".toList) firstBlock = false := by
  refine ⟨by decide, by decide, by decide, by decide, by decide⟩

/-- C5 (amended): for reads whose motifs are `%s` tokens, every block in the
store into which a read has been merged (`support >= 2`) satisfies
`end = zstart + |motif of its key|`, and the assertion checked at emission
holds for every block that passes the output filter when `include_all` is
false or `min_threshold >= 2`. -/
theorem store_blocks_motif_span (comp : Char → Char) (klength : Nat)
    (reads : List (FastqSequence × Header))
    (h : ∀ r ∈ reads, isToken r.2.fmotif ∧ isToken r.2.rmotif) :
    ∀ e ∈ mergeReads comp klength reads, ∀ b ∈ e.2,
      (2 ≤ b.support → b.end_ = b.zstart + (keyMotif e.1).length) ∧
      (∀ min_threshold max_threshold include_all,
        emitted min_threshold max_threshold include_all b = true →
        (include_all = false ∨ 2 ≤ min_threshold) → assertion (keyMotif e.1) b = true) := by
  have hinv : ∀ e ∈ mergeReads comp klength reads, ∀ b ∈ e.2, spanInv e.1 b := by
    unfold mergeReads
    apply foldl_processRead_preserves spanInv
    · intro r hr
      refine ⟨fun b hb => AlignFlanks_spanInv _ b _ _ _ _ _
          (keyMotif_flankKey _ _ _ _ _ (h r hr).1) hb,
        fun b hb => AlignFlanks_spanInv _ b _ _ _ _ _
          (keyMotif_flankKey _ _ _ _ _ (h r hr).2) hb, ?_⟩
      left
      exact ⟨rfl, r.2.rcopies, rfl⟩
    · intro e he
      simp at he
  intro e he b hb
  have hb' := hinv e he b hb
  have h2 : 2 ≤ b.support → b.end_ = b.zstart + (keyMotif e.1).length := by
    intro hs
    rcases hb' with hb' | hb'
    · omega
    · exact hb'.2
  refine ⟨h2, ?_⟩
  intro min_threshold max_threshold include_all hem hopt
  unfold assertion
  rw [decide_eq_true_eq]
  rcases hb' with hb' | hb'
  · rcases hopt with hopt | hopt
    · obtain ⟨c, hc⟩ := hb'.2
      rw [hopt, emitted_fresh min_threshold max_threshold b c hc] at hem
      exact absurd hem (by decide)
    · have := (emitted_support _ _ _ b hem).1
      omega
  · exact hb'.2

set_option maxRecDepth 1000000 in
theorem store_blocks_motif_span_witness :
    (∀ r ∈ nanReads, isToken r.2.fmotif ∧ isToken r.2.rmotif) ∧
    ("CA C T".toList, [mergedBlock]) ∈ mergeReads dnaComplement 1 nanReads ∧
    2 ≤ mergedBlock.support ∧
    mergedBlock.end_ = mergedBlock.zstart + (keyMotif "CA C T".toList).length ∧
    emitted 2 10000 true mergedBlock = true ∧
    assertion (keyMotif "CA C T".toList) mergedBlock = true := by
  have h := store_blocks_motif_span dnaComplement 1 nanReads (by decide)
    ("CA C T".toList, [mergedBlock]) (by decide) mergedBlock (by decide)
  exact ⟨by decide, by decide, by decide, h.1 (by decide), by decide,
    h.2 2 10000 true (by decide) (Or.inr (le_refl 2))⟩

/-! ## Keys, chains and insertion -/

set_option maxRecDepth 1000000 in
/-- C6 (the code departs from the claim): the second read of `lostReads` has
the key `CA G T` of the block created from the first read, is rejected by that
block in the chain walk (its forward key `TG A C` is not in the store), and a
new block `lostBlock` is created for it.  `SllAddHead` links it in front of the
local copy `head` only: the store after the read is the store before it, and
`lostBlock` is not in the chain of the key. -/
theorem new_block_not_linked_into_chain :
    mergeReads dnaComplement 1 (lostReads.take 1) = [("CA G T".toList, [keptBlock])] ∧
    CheckInSparseWordHashMap [("CA G T".toList, [keptBlock])] "TG A C".toList = false ∧
    CheckInSparseWordHashMap [("CA G T".toList, [keptBlock])] "CA G T".toList = true ∧
    (walkChain { bases := "GCATCCCTA".toList, quals := "IIIIIIIII".toList, slen := 9 }
      "CA".toList 1 1 3 [keptBlock]).1 = false ∧
    insertBlock [("CA G T".toList, [keptBlock])] "CA G T".toList true lostBlock =
      ([("CA G T".toList, [keptBlock])], [lostBlock, keptBlock]) ∧
    mergeReads dnaComplement 1 lostReads = [("CA G T".toList, [keptBlock])] ∧
    lostBlock ∉ chainOf (mergeReads dnaComplement 1 lostReads) "CA G T".toList := by
  refine ⟨by decide, by decide, by decide, by decide, by decide, by decide, by decide⟩

/-- C7: for reads with `klength <= zstart`, `end + klength <= |bases|` and the
repeat start inside the read (`zstart <= |bases|`, as `zstart <= end` gives),
the key is `motif ++ " " ++ leftflank ++ " " ++ rightflank`, with `leftflank`
the `klength` bases `bases[zstart-klength .. zstart)` and `rightflank` the
`klength` bases `bases[end .. end+klength)`, and two keys are equal exactly when
the motifs and both flanks are. -/
theorem flankKey_eq_iff (klength : Nat) (motif1 bases1 : List Char) (zstart1 end1 : Nat)
    (motif2 bases2 : List Char) (zstart2 end2 : Nat)
    (hz1 : klength ≤ zstart1) (hr1 : zstart1 ≤ bases1.length)
    (he1 : end1 + klength ≤ bases1.length)
    (hz2 : klength ≤ zstart2) (hr2 : zstart2 ≤ bases2.length)
    (he2 : end2 + klength ≤ bases2.length) :
    flankKey motif1 bases1 klength zstart1 end1 =
        motif1 ++ [' '] ++ (bases1.take zstart1).drop (zstart1 - klength) ++ [' '] ++
          (bases1.take (end1 + klength)).drop end1 ∧
    flankKey motif2 bases2 klength zstart2 end2 =
        motif2 ++ [' '] ++ (bases2.take zstart2).drop (zstart2 - klength) ++ [' '] ++
          (bases2.take (end2 + klength)).drop end2 ∧
    ((bases1.take zstart1).drop (zstart1 - klength)).length = klength ∧
    ((bases1.take (end1 + klength)).drop end1).length = klength ∧
    (flankKey motif1 bases1 klength zstart1 end1 = flankKey motif2 bases2 klength zstart2 end2 ↔
      motif1 = motif2 ∧
      (bases1.take zstart1).drop (zstart1 - klength) = (bases2.take zstart2).drop (zstart2 - klength) ∧
      (bases1.take (end1 + klength)).drop end1 = (bases2.take (end2 + klength)).drop end2) := by
  have key : ∀ (motif bases : List Char) (zstart end_ : Nat), klength ≤ zstart →
      flankKey motif bases klength zstart end_ =
        motif ++ [' '] ++ (bases.take zstart).drop (zstart - klength) ++ [' '] ++
          (bases.take (end_ + klength)).drop end_ := by
    intro motif bases zstart end_ hz
    unfold flankKey memcpy
    simp only []
    rw [List.drop_take zstart (zstart - klength), List.drop_take (end_ + klength) end_]
    have e1 : zstart - (zstart - klength) = klength := by omega
    have e2 : end_ + klength - end_ = klength := by omega
    rw [e1, e2]
  have len : ∀ (bases : List Char) (zstart end_ : Nat), klength ≤ zstart →
      zstart ≤ bases.length →
      end_ + klength ≤ bases.length →
      ((bases.take zstart).drop (zstart - klength)).length = klength ∧
        ((bases.take (end_ + klength)).drop end_).length = klength := by
    intro bases zstart end_ hz hr he
    simp only [List.length_drop, List.length_take]
    omega
  obtain ⟨hl1, hrr1⟩ := len bases1 zstart1 end1 hz1 hr1 he1
  obtain ⟨hl2, hrr2⟩ := len bases2 zstart2 end2 hz2 hr2 he2
  refine ⟨key _ _ _ _ hz1, key _ _ _ _ hz2, hl1, hrr1, ?_⟩
  rw [key _ _ _ _ hz1, key _ _ _ _ hz2]
  constructor
  · intro h
    simp only [List.append_assoc, List.singleton_append] at h
    have h1 := List.append_inj' h (by simp [hl1, hl2, hrr1, hrr2])
    have h2 := List.cons.inj h1.2
    have h3 := List.append_inj h2.2 (by rw [hl1, hl2])
    exact ⟨h1.1, h3.1, (List.cons.inj h3.2).2⟩
  · rintro ⟨hm, hl, hr⟩
    rw [hm, hl, hr]

theorem flankKey_eq_iff_witness :
    (1 ≤ 1 ∧ 1 ≤ "GCACATA".toList.length ∧ 5 + 1 ≤ "GCACATA".toList.length) ∧
    (1 ≤ 1 ∧ 1 ≤ "GCATCCCTA".toList.length ∧ 3 + 1 ≤ "GCATCCCTA".toList.length) ∧
    flankKey "CA".toList "GCACATA".toList 1 1 5 = "CA G T".toList ∧
    flankKey "CA".toList "GCACATA".toList 1 1 5 = flankKey "CA".toList "GCATCCCTA".toList 1 1 3 := by
  have h := flankKey_eq_iff 1 "CA".toList "GCACATA".toList 1 5 "CA".toList "GCATCCCTA".toList 1 3
    (by decide) (by decide) (by decide) (by decide) (by decide) (by decide)
  refine ⟨by decide, by decide, ?_, ?_⟩
  · rw [h.1]
    decide
  · exact h.2.2.2.2.2 ⟨rfl, by decide, by decide⟩

set_option maxRecDepth 1000000 in
/-- A walk over three members: the first rejects the read, the second accepts
it and is replaced by its merged state, the third (equal to the second before
the merge) is left as it was. -/
theorem walkChain_example :
    walkChain { bases := "GCATCCCTA".toList, quals := "JJJJJJJJJ".toList, slen := 9 }
        "CA".toList 1 1 3 [keptBlock, secondAllele, secondAllele] =
      (true, [keptBlock,
        { seq := "GCATCCCTA".toList, qual := "J!!JJJJJJ".toList, zstart := 1, end_ := 3,
          slen := 9, support := 2, supports := [{ copies := 1, nsupport := 2 }] },
        secondAllele]) := by
  decide

/-- C8: the chain walk is first-fit.  Either some member accepts the read, all
members stored before it have rejected it, and the chain afterwards is the
chain before with that one member replaced by its merged state (members before
and after it as they were), or every member rejects the read and the chain is
returned as it was. -/
theorem walkChain_first_fit (sequence : FastqSequence) (motif : List Char) (copies : Int)
    (zstart end_ : Nat) (chain : List Block) :
    (∃ pre b post, chain = pre ++ b :: post ∧
        (∀ x ∈ pre, (AlignFlanks x sequence motif copies zstart end_).1 = false) ∧
        (AlignFlanks b sequence motif copies zstart end_).1 = true ∧
        walkChain sequence motif copies zstart end_ chain =
          (true, pre ++ (AlignFlanks b sequence motif copies zstart end_).2 :: post)) ∨
    ((∀ x ∈ chain, (AlignFlanks x sequence motif copies zstart end_).1 = false) ∧
        walkChain sequence motif copies zstart end_ chain = (false, chain)) := by
  induction chain with
  | nil =>
    right
    exact ⟨by simp, rfl⟩
  | cons iter next ih =>
    cases hflag : (AlignFlanks iter sequence motif copies zstart end_).1
    · have hsame := AlignFlanks_unchanged iter sequence motif copies zstart end_ hflag
      rcases ih with ⟨pre, b, post, hch, hpre, hb, hw⟩ | ⟨hall, hw⟩
      · left
        refine ⟨iter :: pre, b, post, by rw [hch, List.cons_append], ?_, hb, ?_⟩
        · intro x hx
          rcases List.mem_cons.1 hx with hx | hx
          · rw [hx]
            exact hflag
          · exact hpre x hx
        · simp only [walkChain, hflag, Bool.false_eq_true, if_false, hsame, hw, List.cons_append]
      · right
        refine ⟨?_, ?_⟩
        · intro x hx
          rcases List.mem_cons.1 hx with hx | hx
          · rw [hx]
            exact hflag
          · exact hall x hx
        · simp only [walkChain, hflag, Bool.false_eq_true, if_false, hsame, hw]
    · left
      refine ⟨[], iter, next, rfl, by simp, hflag, ?_⟩
      simp only [walkChain, hflag, if_true, List.nil_append]

/-! ## The output filter -/

/-- C9: with `include_all` false, a block whose tally copy numbers are in
`1 .. 65535` passes the output filter exactly when
`min_threshold <= support <= max_threshold` and exactly two of its tally
entries have `nsupport >= 2`. -/
theorem emitted_biallelic_iff (min_threshold max_threshold : Nat) (b : Block)
    (h : ∀ c ∈ b.supports, 0 < c.copies ∧ c.copies < 65536) :
    emitted min_threshold max_threshold false b = true ↔
      min_threshold ≤ b.support ∧ b.support ≤ max_threshold ∧
        b.supports.countP (fun c => decide (2 ≤ c.nsupport)) = 2 := by
  obtain ⟨h1, h2⟩ := scanSupports_init b.supports h
  unfold emitted
  simp only [Bool.not_false, Bool.true_and, Bool.false_and, Bool.or_false, Bool.and_eq_true,
    decide_eq_true_eq, beq_iff_eq, bne_iff_ne, ne_eq, ge_iff_le]
  constructor
  · rintro ⟨⟨ha, hb⟩, hc, hd⟩
    refine ⟨ha, hb, ?_⟩
    have := h1.1 hd
    by_contra hcon
    exact (h2.2 (by omega)) hc
  · rintro ⟨ha, hb, hc⟩
    refine ⟨⟨ha, hb⟩, ?_, ?_⟩
    · by_contra hcon
      have := h2.1 hcon
      omega
    · exact h1.2 (by omega)

/-- The example of the biallelic filter: tallies (copies 10, nsupport 2) and
(copies 12, nsupport 1) give one qualifying entry, and the block does not pass
the filter although its support is within the thresholds. -/
theorem emitted_biallelic_iff_witness :
    (∀ c ∈ oneAlleleBlock.supports, 0 < c.copies ∧ c.copies < 65536) ∧
    oneAlleleBlock.supports.countP (fun c => decide (2 ≤ c.nsupport)) = 1 ∧
    ¬ (emitted 1 10000 false oneAlleleBlock = true) := by
  have h := emitted_biallelic_iff 1 10000 oneAlleleBlock (by decide)
  refine ⟨by decide, by decide, ?_⟩
  rw [h]
  decide

set_option maxRecDepth 1000000 in
/-- C10 (the code departs from the claim): the four reads `noAlleleReads` are
merged into one block none of whose tally entries has `nsupport >= 2`, and with
`include_all` that block passes the output filter (support 4 is within the
default thresholds 4 and 10000): the three slots stay 0, the test is
`copies[2] == 0` alone, and the block is written with copy number 0 and
`maxcopies = 0`. -/
theorem emitted_all_without_allele :
    mergeReads dnaComplement 1 noAlleleReads = [("CA G T".toList, [noAlleleBlock])] ∧
    noAlleleBlock.supports.countP (fun c => decide (2 ≤ c.nsupport)) = 0 ∧
    scanSupports noAlleleBlock.supports initKept = initKept ∧
    emitted 4 10000 true noAlleleBlock = true := by
  refine ⟨by decide, by decide, by decide, by decide⟩

/-! ## The traceback of `Align` -/

set_option maxRecDepth 1000000 in
/-- C16 (as stated, refuted): on equal qualities the diagonal step keeps the
base of the second operand.  At cell `(1, 1)` with bases `A` and `C`, both of
quality `I`, the step writes `C`; and `Align` of `GGAGG` against `GGCGG`, all
qualities `I`, yields the consensus `GGCGG`. -/
theorem diagonal_tie_keeps_second_operand :
    (traceStep "A".toList "I".toList "C".toList "I".toList initMatrices cellOne).seq =
      "C".toList ∧
    (Align "GGAGG".toList "IIIII".toList 0 5 "GGCGG".toList "IIIII".toList 0 5 false).seq =
      "GGCGG".toList := by
  refine ⟨by decide, by decide⟩

/-- C16 (amended): at a diagonal step of the traceback (`B[i][j] == 0`) the
consensus takes base and quality of the first operand when its quality is
strictly higher, and base and quality of the second operand otherwise, also
when the two qualities are equal; the step counts as a match when the two
bases are equal and as a mismatch otherwise, and moves to cell `(i-1, j-1)`. -/
theorem diagonal_step (t1 q1 t2 q2 : List Char) (m : Matrices) (s : Trace)
    (h : m.B s.i s.j = 0) :
    (charAt q1 (s.i - 1) > charAt q2 (s.j - 1) →
      (traceStep t1 q1 t2 q2 m s).seq = s.seq ++ [charAt t1 (s.i - 1)] ∧
      (traceStep t1 q1 t2 q2 m s).qual = s.qual ++ [charAt q1 (s.i - 1)]) ∧
    (charAt q1 (s.i - 1) ≤ charAt q2 (s.j - 1) →
      (traceStep t1 q1 t2 q2 m s).seq = s.seq ++ [charAt t2 (s.j - 1)] ∧
      (traceStep t1 q1 t2 q2 m s).qual = s.qual ++ [charAt q2 (s.j - 1)]) ∧
    (charAt t1 (s.i - 1) = charAt t2 (s.j - 1) →
      (traceStep t1 q1 t2 q2 m s).matches_ = s.matches_ + 1 ∧
      (traceStep t1 q1 t2 q2 m s).mismatches = s.mismatches) ∧
    (charAt t1 (s.i - 1) ≠ charAt t2 (s.j - 1) →
      (traceStep t1 q1 t2 q2 m s).matches_ = s.matches_ ∧
      (traceStep t1 q1 t2 q2 m s).mismatches = s.mismatches + 1) ∧
    (traceStep t1 q1 t2 q2 m s).i = s.i - 1 ∧ (traceStep t1 q1 t2 q2 m s).j = s.j - 1 := by
  rw [traceStep_diagonal t1 q1 t2 q2 m s h]
  refine ⟨?_, ?_, ?_, ?_, rfl, rfl⟩
  · intro hq
    simp only [hq, if_true, and_self]
  · intro hq
    have hq' : ¬ charAt q1 (s.i - 1) > charAt q2 (s.j - 1) := not_lt.2 hq
    simp only [hq', if_false, and_self]
  · intro ht
    simp only [ht, ne_eq, not_true_eq_false, if_false, and_self]
  · intro ht
    simp only [ne_eq, ht, not_false_eq_true, if_true, and_self]

theorem diagonal_step_witness :
    initMatrices.B cellOne.i cellOne.j = 0 ∧
    (traceStep "A".toList "J".toList "C".toList "I".toList initMatrices cellOne).seq =
      "A".toList ∧
    (traceStep "A".toList "J".toList "C".toList "I".toList initMatrices cellOne).mismatches = 1 := by
  have h := diagonal_step "A".toList "J".toList "C".toList "I".toList initMatrices cellOne
    (by decide)
  exact ⟨by decide, (h.1 (by decide)).1, (h.2.2.2.1 (by decide)).2⟩

set_option maxRecDepth 1000000 in
/-- C17 (the code departs from the claim): in right-flank mode with the first
region longer, the overhang loop runs on the first region but stops at
`optloy`, the index of the best cell in the second region, not at `optlox`.
For the right flanks `TACGT` and `TCG` the best cell is `(4, 3)`; the bases of
`TACGT` after index 4 are `T`, but the loop copies `GT`, and the merged region
is `CGGT`: the `G` aligned in the traceback appears twice.  `AlignFlanks`
accepts the merge, and the read loop reaches this state from `dupReads`. -/
theorem right_overhang_uses_optloy :
    (fill "TACGT".toList "TCG".toList 6 4).optlox = 4 ∧
    (fill "TACGT".toList "TCG".toList 6 4).optloy = 3 ∧
    (traceStart "TACGT".toList "IIIII".toList "TCG".toList "JJJ".toList 6 4 true).seq =
      "TG".toList ∧
    Align dupBlock.seq dupBlock.qual dupBlock.end_ dupBlock.slen dupRead.bases dupRead.quals 3
        dupRead.slen true =
      { gaps := 1, matches_ := 2, mismatches := 0, seq := "CGGT".toList, qual := "JJII".toList } ∧
    (AlignFlanks dupBlock dupRead "CA".toList 1 1 3).1 = true ∧
    (AlignFlanks dupBlock dupRead "CA".toList 1 1 3).2.seq = "GCACGGT".toList ∧
    mergeReads dnaComplement 1 (dupReads.take 1) = [("CA G T".toList, [dupBlock])] ∧
    mergeReads dnaComplement 1 dupReads =
      [("CA G T".toList, [(AlignFlanks dupBlock dupRead "CA".toList 1 1 3).2])] := by
  refine ⟨by decide, by decide, by decide, by decide, by decide, by decide, by decide, by decide⟩

/-- C20: the gap count returned by `Align`.  In right-flank mode it is
`|i - j|` for the cell `(i, j)` at which the traceback loop stops; in
left-flank mode it is `len2 - 1 - optloy` plus the number of gap steps that
the traceback loop takes. -/
theorem align_gap_count (seq1 qual1 : List Char) (zstart1 end1 : Nat) (seq2 qual2 : List Char)
    (zstart2 end2 : Nat) :
    (Align seq1 qual1 zstart1 end1 seq2 qual2 zstart2 end2 true).gaps =
      (((traceEnd (seq1.drop zstart1) (qual1.drop zstart1) (seq2.drop zstart2)
          (qual2.drop zstart2) (end1 - zstart1 + 1) (end2 - zstart2 + 1) true).i : Int) -
        ((traceEnd (seq1.drop zstart1) (qual1.drop zstart1) (seq2.drop zstart2)
          (qual2.drop zstart2) (end1 - zstart1 + 1) (end2 - zstart2 + 1) true).j : Int)).natAbs ∧
    (Align seq1 qual1 zstart1 end1 seq2 qual2 zstart2 end2 false).gaps =
      ((end2 - zstart2 + 1) - 1 -
          (fill (seq1.drop zstart1) (seq2.drop zstart2) (end1 - zstart1 + 1)
            (end2 - zstart2 + 1)).optloy) +
        gapSteps (seq1.drop zstart1) (qual1.drop zstart1) (seq2.drop zstart2)
          (qual2.drop zstart2)
          (fill (seq1.drop zstart1) (seq2.drop zstart2) (end1 - zstart1 + 1) (end2 - zstart2 + 1))
          ((fill (seq1.drop zstart1) (seq2.drop zstart2) (end1 - zstart1 + 1)
              (end2 - zstart2 + 1)).optlox +
            (fill (seq1.drop zstart1) (seq2.drop zstart2) (end1 - zstart1 + 1)
              (end2 - zstart2 + 1)).optloy)
          (traceStart (seq1.drop zstart1) (qual1.drop zstart1) (seq2.drop zstart2)
            (qual2.drop zstart2) (end1 - zstart1 + 1) (end2 - zstart2 + 1) false) := by
  rw [Align_eq_regions, Align_eq_regions]
  constructor
  · simp only [alignRegions, if_true]
    omega
  · simp only [alignRegions, Bool.false_eq_true, if_false]
    unfold traceEnd
    rw [traceLoop_num_gaps]
    simp only [traceStart, Bool.false_eq_true, if_false]
    omega

/-! ## The score matrix of `Align` -/

/-- C18: the matrix `A` that `Align` fills for regions `t1`, `t2` and
dimensions `len1`, `len2` has zero borders and satisfies the recurrence
`A[i][j] = max(A[i][j-1]-3, A[i-1][j]-3, A[i-1][j-1] + (1 or -1), 0)` at every
cell with `1 <= i < len1`, `1 <= j < len2`; `best` is the score of the cell
`(optlox, optloy)` from which the traceback starts and bounds every cell, and
every cell with `i, j >= 1` that holds `best` comes no later than
`(optlox, optloy)` in row-major order; when the matrix has a cell with
`i, j >= 1`, `(optlox, optloy)` is such a cell. -/
theorem fill_recurrence_and_last_max (t1 q1 t2 q2 : List Char) (len1 len2 : Nat) (g : Bool) :
    (∀ i j, i = 0 ∨ j = 0 → (fill t1 t2 len1 len2).A i j = 0) ∧
    (∀ i j, 1 ≤ i → i < len1 → 1 ≤ j → j < len2 →
      (fill t1 t2 len1 len2).A i j =
        max (max ((fill t1 t2 len1 len2).A i (j - 1) - 3) ((fill t1 t2 len1 len2).A (i - 1) j - 3))
          (max ((fill t1 t2 len1 len2).A (i - 1) (j - 1) +
            (if charAt t1 (i - 1) = charAt t2 (j - 1) then 1 else -1)) 0)) ∧
    ((traceStart t1 q1 t2 q2 len1 len2 g).i = (fill t1 t2 len1 len2).optlox ∧
      (traceStart t1 q1 t2 q2 len1 len2 g).j = (fill t1 t2 len1 len2).optloy ∧
      (traceStart t1 q1 t2 q2 len1 len2 g).max_score = (fill t1 t2 len1 len2).best) ∧
    (fill t1 t2 len1 len2).A (fill t1 t2 len1 len2).optlox (fill t1 t2 len1 len2).optloy =
      (fill t1 t2 len1 len2).best ∧
    (∀ i j, (fill t1 t2 len1 len2).A i j ≤ (fill t1 t2 len1 len2).best) ∧
    (∀ i j, 1 ≤ i → i < len1 → 1 ≤ j → j < len2 →
      (fill t1 t2 len1 len2).A i j = (fill t1 t2 len1 len2).best →
      i < (fill t1 t2 len1 len2).optlox ∨
        (i = (fill t1 t2 len1 len2).optlox ∧ j ≤ (fill t1 t2 len1 len2).optloy)) ∧
    (1 < len1 → 1 < len2 →
      1 ≤ (fill t1 t2 len1 len2).optlox ∧ (fill t1 t2 len1 len2).optlox < len1 ∧
      1 ≤ (fill t1 t2 len1 len2).optloy ∧ (fill t1 t2 len1 len2).optloy < len2) := by
  refine ⟨fun i j h => fill_A_border t1 t2 len1 len2 i j h, ?_, ?_, ?_, ?_, ?_, ?_⟩
  · intro i j hi1 hi hj1 hj
    obtain ⟨i', rfl⟩ : ∃ i', i = i' + 1 := ⟨i - 1, by omega⟩
    obtain ⟨j', rfl⟩ : ∃ j', j = j' + 1 := ⟨j - 1, by omega⟩
    simp only [Nat.add_sub_cancel]
    rw [fill_A t1 t2 len1 len2 _ _ hi hj, fill_A t1 t2 len1 len2 (i' + 1) j' hi (by omega),
      fill_A t1 t2 len1 len2 i' (j' + 1) (by omega) hj,
      fill_A t1 t2 len1 len2 i' j' (by omega) (by omega), scoreAt_succ]
    simp only [gapScore, matchScore, mismatchScore]
    split_ifs <;> rfl
  · unfold traceStart
    split_ifs <;> exact ⟨rfl, rfl, rfl⟩
  · by_cases h : 1 < len1 ∧ 1 < len2
    · obtain ⟨hr, hs, -⟩ := fill_opt t1 t2 len1 len2 h.1 h.2
      rw [fill_A t1 t2 len1 len2 _ _ hr.2.1 hr.2.2.2, hs]
    · obtain ⟨hb, hx, hy⟩ := fill_opt_none t1 t2 len1 len2 (by omega)
      rw [hx, hy, hb]
      exact fill_A_border t1 t2 len1 len2 0 0 (Or.inl rfl)
  · intro i j
    by_cases h : i < len1 ∧ j < len2
    · rw [fill_A t1 t2 len1 len2 i j h.1 h.2]
      exact fill_best_ge t1 t2 len1 len2 i j h.1 h.2
    · obtain ⟨-, hA0, -⟩ := fill_inv t1 t2 len1 len2
      rw [hA0 i j (fun hf => h (by have := (filled_final len1 len2 i j).1 hf; omega))]
      exact fill_best_nonneg t1 t2 len1 len2
  · intro i j hi1 hi hj1 hj hb
    have h1 : 1 < len1 := by omega
    have h2 : 1 < len2 := by omega
    rw [fill_A t1 t2 len1 len2 i j hi hj] at hb
    exact (fill_opt t1 t2 len1 len2 h1 h2).2.2 i j hi1 hi hj1 hj hb
  · intro h1 h2
    exact (fill_opt t1 t2 len1 len2 h1 h2).1

/-! ## Alignment of flanks that agree -/

/-- C12: self-merge.  For a non-empty flank found at `zstart1` of the first
sequence and at `zstart2` of the second, `Align` in left-flank mode and in
right-flank mode returns no mismatch, no gap, percent identity 100, the flank
itself as merged sequence, and at each position the higher of the two input
qualities as merged quality. -/
theorem align_identical_flanks (seq1 qual1 : List Char) (zstart1 : Nat) (seq2 qual2 : List Char)
    (zstart2 : Nat) (flank : List Char) (g : Bool) (hne : flank ≠ [])
    (h1 : (seq1.drop zstart1).take flank.length = flank)
    (h2 : (seq2.drop zstart2).take flank.length = flank) :
    (Align seq1 qual1 zstart1 (zstart1 + flank.length) seq2 qual2 zstart2
      (zstart2 + flank.length) g).mismatches = 0 ∧
    (Align seq1 qual1 zstart1 (zstart1 + flank.length) seq2 qual2 zstart2
      (zstart2 + flank.length) g).gaps = 0 ∧
    (Align seq1 qual1 zstart1 (zstart1 + flank.length) seq2 qual2 zstart2
      (zstart2 + flank.length) g).pid = some 100 ∧
    (Align seq1 qual1 zstart1 (zstart1 + flank.length) seq2 qual2 zstart2
      (zstart2 + flank.length) g).seq = flank ∧
    (Align seq1 qual1 zstart1 (zstart1 + flank.length) seq2 qual2 zstart2
      (zstart2 + flank.length) g).qual =
      (List.range flank.length).map
        (fun p => max (charAt qual1 (zstart1 + p)) (charAt qual2 (zstart2 + p))) := by
  have hpos : 1 ≤ flank.length := by
    cases flank with
    | nil => exact absurd rfl hne
    | cons c l => simp
  have hlen1 : flank.length ≤ (seq1.drop zstart1).length := by
    have := congrArg List.length h1
    rw [List.length_take] at this
    omega
  have hk : ∀ r, r < flank.length →
      charAt (seq1.drop zstart1) r = charAt (seq2.drop zstart2) r := by
    intro r hr
    rw [← charAt_take (seq1.drop zstart1) flank.length r hr,
      ← charAt_take (seq2.drop zstart2) flank.length r hr, h1, h2]
  have hseq : (List.range flank.length).map (fun p => charAt (seq1.drop zstart1) p) = flank := by
    have := map_charAt_range (seq1.drop zstart1) flank.length hlen1
    rw [h1] at this
    exact this
  have hqual : (List.range flank.length).map (fun p =>
      if charAt (qual1.drop zstart1) p > charAt (qual2.drop zstart2) p then
        charAt (qual1.drop zstart1) p
      else charAt (qual2.drop zstart2) p) =
      (List.range flank.length).map
        (fun p => max (charAt qual1 (zstart1 + p)) (charAt qual2 (zstart2 + p))) := by
    apply List.map_congr_left
    intro p _
    rw [charAt_drop, charAt_drop, max_def]
    split_ifs with ha hb hb
    · exact absurd ha (not_lt.2 hb)
    · rfl
    · rfl
    · exact absurd (not_lt.1 ha) hb
  have key : Align seq1 qual1 zstart1 (zstart1 + flank.length) seq2 qual2 zstart2
      (zstart2 + flank.length) g =
      { gaps := 0, matches_ := flank.length, mismatches := 0, seq := flank,
        qual := (List.range flank.length).map
          (fun p => max (charAt qual1 (zstart1 + p)) (charAt qual2 (zstart2 + p))) } := by
    rw [Align_eq_regions, Nat.add_sub_cancel_left, Nat.add_sub_cancel_left]
    cases g
    · have h := alignRegions_left_diag (seq1.drop zstart1) (qual1.drop zstart1)
        (seq2.drop zstart2) (qual2.drop zstart2) 0 0 flank.length (Or.inl rfl) hpos
        (by simpa using hk)
      simp only [Nat.zero_add, Nat.lt_irrefl, gt_iff_lt, if_false, List.range_zero,
        List.map_nil, List.nil_append] at h
      rw [h, hseq, hqual]
    · rw [alignRegions_right_diag _ _ _ _ _ hpos hk, hseq, hqual]
  rw [key]
  exact ⟨rfl, rfl, pid_all_matches _ rfl hpos, rfl, rfl⟩

theorem align_identical_flanks_witness :
    "GAT".toList ≠ [] ∧
    (("CCGATCA".toList).drop 2).take "GAT".toList.length = "GAT".toList ∧
    (("GATCAT".toList).drop 0).take "GAT".toList.length = "GAT".toList ∧
    (Align "CCGATCA".toList "IJIJIJI".toList 2 (2 + "GAT".toList.length) "GATCAT".toList
      "JIIIII".toList 0 (0 + "GAT".toList.length) true).seq = "GAT".toList ∧
    (Align "CCGATCA".toList "IJIJIJI".toList 2 (2 + "GAT".toList.length) "GATCAT".toList
      "JIIIII".toList 0 (0 + "GAT".toList.length) true).pid = some 100 := by
  have h := align_identical_flanks "CCGATCA".toList "IJIJIJI".toList 2 "GATCAT".toList
    "JIIIII".toList 0 "GAT".toList true (by decide) (by decide) (by decide)
  exact ⟨by decide, by decide, by decide, h.2.2.2.1, h.2.2.1⟩

set_option maxRecDepth 1000000 in
/-- C13 (as stated, refuted): the single bases `A` (quality `J`) and `C`
(quality `I`) differ and the first has the higher quality, yet the merged
consensus of `Align` is `C` in left-flank mode and empty in right-flank mode:
the only cell scores 0, so the traceback loop takes no step. -/
theorem single_mismatch_ignores_quality :
    Align "A".toList "J".toList 0 1 "C".toList "I".toList 0 1 false =
      { gaps := 0, matches_ := 0, mismatches := 0, seq := "C".toList, qual := "I".toList } ∧
    Align "A".toList "J".toList 0 1 "C".toList "I".toList 0 1 true =
      { gaps := 0, matches_ := 0, mismatches := 0, seq := [], qual := [] } := by
  refine ⟨by decide, by decide⟩

/-- C13 (amended): for two 1-character flanks whose bases differ, whatever
their qualities, `Align` aligns no position (no match, no mismatch, no gap);
in left-flank mode the merged consensus is the single base of the second
input with its quality, in right-flank mode it is empty. -/
theorem align_single_mismatch (seq1 qual1 : List Char) (zstart1 : Nat) (seq2 qual2 : List Char)
    (zstart2 : Nat) (h : charAt seq1 zstart1 ≠ charAt seq2 zstart2) :
    Align seq1 qual1 zstart1 (zstart1 + 1) seq2 qual2 zstart2 (zstart2 + 1) false =
      { gaps := 0, matches_ := 0, mismatches := 0, seq := [charAt seq2 zstart2],
        qual := [charAt qual2 zstart2] } ∧
    Align seq1 qual1 zstart1 (zstart1 + 1) seq2 qual2 zstart2 (zstart2 + 1) true =
      { gaps := 0, matches_ := 0, mismatches := 0, seq := [], qual := [] } := by
  have h' : charAt (seq1.drop zstart1) 0 ≠ charAt (seq2.drop zstart2) 0 := by
    rw [charAt_drop, charAt_drop]
    exact h
  have hf : (fill (seq1.drop zstart1) (seq2.drop zstart2) 2 2).best = 0 ∧
      (fill (seq1.drop zstart1) (seq2.drop zstart2) 2 2).optlox = 1 ∧
      (fill (seq1.drop zstart1) (seq2.drop zstart2) 2 2).optloy = 1 := by
    simp [fill, fillRow, cellStep, initMatrices, h', gapScore, mismatchScore, matchScore,
      List.range']
  obtain ⟨hb, hx, hy⟩ := hf
  have e2 : charAt (seq2.drop zstart2) 0 = charAt seq2 zstart2 := by rw [charAt_drop]; rfl
  have e3 : charAt (qual2.drop zstart2) 0 = charAt qual2 zstart2 := by rw [charAt_drop]; rfl
  rw [Align_eq_regions, Align_eq_regions, Nat.add_sub_cancel_left, Nat.add_sub_cancel_left]
  constructor
  · simp [alignRegions, traceEnd, traceStart, hb, hx, hy, traceLoop, copyDown, e2, e3]
  · simp [alignRegions, traceEnd, traceStart, hb, hx, hy, traceLoop, copyDown]

theorem align_single_mismatch_witness :
    charAt "A".toList 0 ≠ charAt "C".toList 0 ∧
    (Align "A".toList "I".toList 0 (0 + 1) "C".toList "J".toList 0 (0 + 1) false).seq =
      [charAt "C".toList 0] :=
  ⟨by decide,
    congrArg Alignment.seq
      (align_single_mismatch "A".toList "I".toList 0 "C".toList "J".toList 0 (by decide)).1⟩

/-- C19: left-flank extension.  For two non-empty left flanks one of which is
a suffix of the other, `Align` in left-flank mode returns no gap, no mismatch,
percent identity 100 and the longer flank as merged sequence. -/
theorem align_left_suffix_extension (seq1 qual1 : List Char) (zstart1 : Nat)
    (seq2 qual2 : List Char) (zstart2 : Nat) (flank1 flank2 : List Char)
    (hne1 : flank1 ≠ []) (hne2 : flank2 ≠ [])
    (h1 : (seq1.drop zstart1).take flank1.length = flank1)
    (h2 : (seq2.drop zstart2).take flank2.length = flank2)
    (hsuf : flank1 <:+ flank2 ∨ flank2 <:+ flank1) :
    (Align seq1 qual1 zstart1 (zstart1 + flank1.length) seq2 qual2 zstart2
      (zstart2 + flank2.length) false).gaps = 0 ∧
    (Align seq1 qual1 zstart1 (zstart1 + flank1.length) seq2 qual2 zstart2
      (zstart2 + flank2.length) false).mismatches = 0 ∧
    (Align seq1 qual1 zstart1 (zstart1 + flank1.length) seq2 qual2 zstart2
      (zstart2 + flank2.length) false).pid = some 100 ∧
    (Align seq1 qual1 zstart1 (zstart1 + flank1.length) seq2 qual2 zstart2
      (zstart2 + flank2.length) false).seq =
      (if flank2.length ≤ flank1.length then flank1 else flank2) := by
  have hpos1 : 1 ≤ flank1.length := by
    cases flank1 with
    | nil => exact absurd rfl hne1
    | cons c l => simp
  have hpos2 : 1 ≤ flank2.length := by
    cases flank2 with
    | nil => exact absurd rfl hne2
    | cons c l => simp
  have hlen1 : flank1.length ≤ (seq1.drop zstart1).length := by
    have := congrArg List.length h1
    rw [List.length_take] at this
    omega
  have hlen2 : flank2.length ≤ (seq2.drop zstart2).length := by
    have := congrArg List.length h2
    rw [List.length_take] at this
    omega
  have hc1 : ∀ r, r < flank1.length → charAt (seq1.drop zstart1) r = charAt flank1 r := by
    intro r hr
    rw [← charAt_take (seq1.drop zstart1) flank1.length r hr, h1]
  have hc2 : ∀ r, r < flank2.length → charAt (seq2.drop zstart2) r = charAt flank2 r := by
    intro r hr
    rw [← charAt_take (seq2.drop zstart2) flank2.length r hr, h2]
  have hs1 := map_charAt_range (seq1.drop zstart1) flank1.length hlen1
  have hs2 := map_charAt_range (seq2.drop zstart2) flank2.length hlen2
  rw [h1] at hs1
  rw [h2] at hs2
  rw [Align_eq_regions, Nat.add_sub_cancel_left, Nat.add_sub_cancel_left]
  rcases hsuf with ⟨x, hx⟩ | ⟨x, hx⟩
  · -- the first flank is a suffix of the second
    have hl : flank2.length = x.length + flank1.length := by
      rw [← hx, List.length_append]
    have hk : ∀ r, r < flank1.length →
        charAt (seq1.drop zstart1) (0 + r) = charAt (seq2.drop zstart2) (x.length + r) := by
      intro r hr
      rw [Nat.zero_add, hc1 r hr, hc2 (x.length + r) (by omega), ← hx, charAt_append_right]
    have h := alignRegions_left_diag (seq1.drop zstart1) (qual1.drop zstart1)
      (seq2.drop zstart2) (qual2.drop zstart2) 0 x.length flank1.length (Or.inl rfl) hpos1 hk
    rw [Nat.zero_add, ← hl] at h
    rw [h]
    refine ⟨rfl, rfl, pid_all_matches _ rfl hpos1, ?_⟩
    simp only [Nat.not_lt_zero, gt_iff_lt, if_false]
    have hmap : (List.range flank1.length).map
        (fun p => charAt (seq1.drop zstart1) (0 + p)) =
        (List.range flank1.length).map
          (fun p => charAt (seq2.drop zstart2) (x.length + p)) := by
      apply List.map_congr_left
      intro p hp
      exact hk p (List.mem_range.1 hp)
    rw [hmap, map_range_add (charAt (seq2.drop zstart2)), ← hl, hs2]
    split_ifs with hle
    · have hx0 : x = [] := List.length_eq_zero.1 (by omega)
      rw [hx0, List.nil_append] at hx
      exact hx.symm
    · rfl
  · -- the second flank is a suffix of the first
    have hl : flank1.length = x.length + flank2.length := by
      rw [← hx, List.length_append]
    have hk : ∀ r, r < flank2.length →
        charAt (seq1.drop zstart1) (x.length + r) = charAt (seq2.drop zstart2) (0 + r) := by
      intro r hr
      rw [Nat.zero_add, hc2 r hr, hc1 (x.length + r) (by omega), ← hx, charAt_append_right]
    have h := alignRegions_left_diag (seq1.drop zstart1) (qual1.drop zstart1)
      (seq2.drop zstart2) (qual2.drop zstart2) x.length 0 flank2.length (Or.inr rfl) hpos2 hk
    rw [Nat.zero_add, ← hl] at h
    rw [h]
    refine ⟨rfl, rfl, pid_all_matches _ rfl hpos2, ?_⟩
    have hle : flank2.length ≤ flank1.length := by omega
    rw [if_pos hle]
    by_cases hx0 : x.length > 0
    · simp only [hx0, if_true]
      rw [map_range_add (charAt (seq1.drop zstart1)), ← hl, hs1]
    · have hx1 : x = [] := List.length_eq_zero.1 (by omega)
      subst hx1
      simp only [List.length_nil, Nat.lt_irrefl, gt_iff_lt, if_false, List.range_zero,
        List.map_nil, List.nil_append, Nat.zero_add] at hl ⊢
      rw [← hl]
      exact hs1

theorem align_left_suffix_extension_witness :
    "AC".toList ≠ [] ∧ "GGAC".toList ≠ [] ∧
    (("ACCAT".toList).drop 0).take "AC".toList.length = "AC".toList ∧
    (("GGACCAT".toList).drop 0).take "GGAC".toList.length = "GGAC".toList ∧
    ("AC".toList <:+ "GGAC".toList ∨ "GGAC".toList <:+ "AC".toList) ∧
    (Align "ACCAT".toList "IIIII".toList 0 (0 + "AC".toList.length) "GGACCAT".toList
      "JJJJJJJ".toList 0 (0 + "GGAC".toList.length) false).seq = "GGAC".toList := by
  have hs : "AC".toList <:+ "GGAC".toList := ⟨"GG".toList, by decide⟩
  have h := align_left_suffix_extension "ACCAT".toList "IIIII".toList 0 "GGACCAT".toList
    "JJJJJJJ".toList 0 "AC".toList "GGAC".toList (by decide) (by decide) (by decide) (by decide)
    (Or.inl hs)
  exact ⟨by decide, by decide, by decide, by decide, Or.inl hs, h.2.2.2⟩

/-! ## The record of an emitted block -/

set_option maxRecDepth 1000000 in
/-- C11 (as stated, refuted): `truncBlock` passes the output filter and its
kept entries have the copy numbers 65537 and 3, but the 16-bit slots hold 1
and 3: `maxcopies` is 3, not the largest kept copy number, and the record
shows the copies `1,3`, three copies of the motif and the end field 7. -/
theorem record_truncates_copy_numbers :
    emitted 4 10000 false truncBlock = true ∧
    (truncBlock.supports.filter (fun c => decide (2 ≤ c.nsupport))).take 3 =
      [{ copies := 65537, nsupport := 2 }, { copies := 3, nsupport := 2 }] ∧
    (scanSupports truncBlock.supports initKept).maxcopies = 3 ∧
    printBlock 1 "CA".toList false truncBlock =
      "@Block1\tCA\t1,3\t1\t7\nGCACACAT\n+\nI!!!!!!I\n".toList := by
  refine ⟨by decide, by decide, by decide, by decide⟩

/-- C11 (amended): the record written for a block with `|seq| = |qual| = slen`,
`zstart <= slen` and tally copy numbers in `1 .. 65535`.  `maxcopies` is the
largest copy number among the kept tally entries; the sequence line is
`seq[0..zstart)`, `maxcopies` copies of the motif, `seq[end..slen)`; the
quality line is `qual[0..zstart)`, `maxcopies * |motif|` characters `!`,
`qual[end..slen)`; both lines have the same length; the header ends with the
fields `zstart` and `zstart + maxcopies * |motif|`. -/
theorem emitted_block_record (bindex : Nat) (fmotif : List Char) (include_all : Bool)
    (b : Block) (hseq : b.seq.length = b.slen) (hqual : b.qual.length = b.slen)
    (hz : b.zstart ≤ b.slen) (hc : ∀ c ∈ b.supports, 0 < c.copies ∧ c.copies < 65536) :
    (∀ e ∈ (b.supports.filter (fun c => decide (2 ≤ c.nsupport))).take 3,
      e.copies ≤ (scanSupports b.supports initKept).maxcopies) ∧
    ((b.supports.filter (fun c => decide (2 ≤ c.nsupport))).take 3 ≠ [] →
      ∃ e ∈ (b.supports.filter (fun c => decide (2 ≤ c.nsupport))).take 3,
        (scanSupports b.supports initKept).maxcopies = e.copies) ∧
    seqLine fmotif b =
      b.seq.take b.zstart ++
        (List.replicate (scanSupports b.supports initKept).maxcopies.toNat fmotif).flatten ++
        b.seq.drop b.end_ ∧
    qualLine fmotif b =
      b.qual.take b.zstart ++
        List.replicate ((scanSupports b.supports initKept).maxcopies.toNat * fmotif.length) '!' ++
        b.qual.drop b.end_ ∧
    (seqLine fmotif b).length = (qualLine fmotif b).length ∧
    (∃ pre, headerLine bindex fmotif include_all b =
      pre ++ ['\t'] ++ printDec b.zstart ++ ['\t'] ++
        printDec (b.zstart + (scanSupports b.supports initKept).maxcopies.toNat * fmotif.length) ++
        ['\n']) ∧
    printBlock bindex fmotif include_all b =
      headerLine bindex fmotif include_all b ++ seqLine fmotif b ++ ['\n', '+', '\n'] ++
        qualLine fmotif b ++ ['\n'] := by
  obtain ⟨hm1, -, hm3⟩ := scanSupports_maxcopies_largest b.supports hc
  refine ⟨hm1, hm3, seqLine_eq fmotif b hseq hz, qualLine_eq fmotif b hqual hz, ?_, ?_, rfl⟩
  · rw [seqLine_eq fmotif b hseq hz, qualLine_eq fmotif b hqual hz]
    simp only [List.length_append, List.length_take, List.length_drop, List.length_replicate,
      List.length_flatten, List.map_replicate, List.sum_replicate, hseq, hqual, smul_eq_mul]
  · exact ⟨_, rfl⟩

set_option maxRecDepth 1000000 in
theorem emitted_block_record_witness :
    renderBlock.seq.length = renderBlock.slen ∧ renderBlock.qual.length = renderBlock.slen ∧
    renderBlock.zstart = 5 ∧ "CA".toList.length = 2 ∧
    (scanSupports renderBlock.supports initKept).maxcopies = 3 ∧
    (∀ c ∈ renderBlock.supports, 0 < c.copies ∧ c.copies < 65536) ∧
    seqLine "CA".toList renderBlock = "GGGGG".toList ++ "CACACA".toList ++ "TT".toList ∧
    qualLine "CA".toList renderBlock = "IIIII".toList ++ "!!!!!!".toList ++ "JJ".toList ∧
    printBlock 1 "CA".toList false renderBlock =
      "@Block1\tCA\t2,3\t5\t11\nGGGGGCACACATT\n+\nIIIII!!!!!!JJ\n".toList := by
  have h := emitted_block_record 1 "CA".toList false renderBlock (by decide) (by decide)
    (by decide) (by decide)
  refine ⟨by decide, by decide, by decide, by decide, by decide, by decide, ?_, ?_, by decide⟩
  · rw [h.2.2.1]
    decide
  · rw [h.2.2.2.1]
    decide

/-! ## The copy-number tally of a block -/

/-- C14: every block of the store has a tally without two entries of the same
copy number, and an accepted merge of a read with copy count `c` into it
either raises by one the `nsupport` of the entry with `copies = c`, adding no
entry and leaving all other entries as they were, or, when there is no such
entry, adds the one entry `(c, 1)` to the entries as they were; the tally
afterwards again has no two entries of the same copy number. -/
theorem tally_update (comp : Char → Char) (klength : Nat)
    (reads : List (FastqSequence × Header)) :
    ∀ e ∈ mergeReads comp klength reads, ∀ b ∈ e.2,
      (b.supports.map Copies.copies).Nodup ∧
      ∀ (seq : FastqSequence) (motif : List Char) (c : Int) (zstart end_ : Nat),
        (AlignFlanks b seq motif c zstart end_).1 = true →
        ((∃ x ∈ b.supports, x.copies = c) →
          (AlignFlanks b seq motif c zstart end_).2.supports =
            b.supports.map (fun x =>
              if x.copies = c then { copies := c, nsupport := x.nsupport + 1 } else x)) ∧
        ((¬ ∃ x ∈ b.supports, x.copies = c) →
          (AlignFlanks b seq motif c zstart end_).2.supports =
            { copies := c, nsupport := 1 } :: b.supports) ∧
        ((AlignFlanks b seq motif c zstart end_).2.supports.map Copies.copies).Nodup := by
  intro e he b hb
  have hnd := store_tally_nodup comp klength reads e he b hb
  refine ⟨hnd, ?_⟩
  intro seq motif c zstart end_ hacc
  refine ⟨?_, ?_, AlignFlanks_nodup b seq motif c zstart end_ hnd⟩
  · intro hold
    rw [AlignFlanks_supports b seq motif c zstart end_ hacc,
      bumpSupport_of_found c b.supports hnd hold]
    rfl
  · intro hnew
    exact AlignFlanks_supports_new b seq motif c zstart end_ hacc hnew

set_option maxRecDepth 1000000 in
theorem tally_update_witness :
    ("CA G T".toList, [createdBlock]) ∈ mergeReads dnaComplement 1 (noAlleleReads.take 1) ∧
    (AlignFlanks createdBlock twoCopyRead "CA".toList 2 1 5).1 = true ∧
    (AlignFlanks createdBlock twoCopyRead "CA".toList 2 1 5).2.supports =
      [{ copies := 2, nsupport := 1 }, { copies := 1, nsupport := 1 }] ∧
    (AlignFlanks createdBlock oneCopyRead "CA".toList 1 1 3).1 = true ∧
    (AlignFlanks createdBlock oneCopyRead "CA".toList 1 1 3).2.supports =
      [{ copies := 1, nsupport := 2 }] := by
  have h := (tally_update dnaComplement 1 (noAlleleReads.take 1) ("CA G T".toList, [createdBlock])
    (by decide) createdBlock (by decide)).2
  have h2 := h twoCopyRead "CA".toList 2 1 5 (by decide)
  have h1 := h oneCopyRead "CA".toList 1 1 3 (by decide)
  refine ⟨by decide, by decide, ?_, by decide, ?_⟩
  · rw [h2.2.1 (by decide)]
    rfl
  · rw [h1.1 (by decide)]
    rfl

set_option maxRecDepth 1000000 in
/-- C15 (as stated, refuted): the reads `orderReads` show copy number 2 first
and copy number 1 second, each twice; in the tally of the resulting block the
entry of copy number 1 comes first and that of copy number 2 last, the
emitter keeps them in that order, and the header lists `1,2`: the later-seen
copy number before the earlier-seen one. -/
theorem tally_is_newest_first :
    mergeReads dnaComplement 1 orderReads = [("CA G T".toList, [orderBlock])] ∧
    orderBlock.supports.map Copies.copies = [1, 2] ∧
    (scanSupports orderBlock.supports initKept).copies = [1, 2, 0] ∧
    headerLine 1 "CA".toList false orderBlock = "@Block1\tCA\t1,2\t1\t5\n".toList := by
  refine ⟨by decide, by decide, by decide, by decide⟩

/-- C15 (amended): the tally is kept newest-first.  An accepted merge with a
copy number not yet in the tally puts the new entry at the head, in front of
all earlier entries, and one with a copy number already present leaves the
order of the copy numbers unchanged.  The emitter scans from the head: slot
`idx` of `copies[3]` holds the `idx`-th entry with `nsupport >= 2` counted
from the head (or 0 when there is none), and the header prints slot 0 before
slot 1. -/
theorem tally_order (b : Block) (seq : FastqSequence) (motif : List Char) (c : Int)
    (zstart end_ : Nat) (h : (AlignFlanks b seq motif c zstart end_).1 = true) :
    ((¬ ∃ x ∈ b.supports, x.copies = c) →
      (AlignFlanks b seq motif c zstart end_).2.supports =
        { copies := c, nsupport := 1 } :: b.supports) ∧
    ((∃ x ∈ b.supports, x.copies = c) →
      (AlignFlanks b seq motif c zstart end_).2.supports.map Copies.copies =
        b.supports.map Copies.copies) ∧
    (∀ (l : List Copies) (idx : Nat), idx < 3 →
      (scanSupports l initKept).copies.getD idx 0 =
        (((l.filter (fun x => decide (2 ≤ x.nsupport)))[idx]?).map
          (fun x => (x.copies % 65536).toNat)).getD 0) ∧
    (∀ (l : List Copies) (include_all : Bool),
      (scanSupports l initKept).copies.getD 1 0 ≠ 0 →
      copiesText include_all (scanSupports l initKept) =
        printDec ((scanSupports l initKept).copies.getD 0 0) ++ [','] ++
          printDec ((scanSupports l initKept).copies.getD 1 0)) := by
  refine ⟨AlignFlanks_supports_new b seq motif c zstart end_ h,
    AlignFlanks_supports_copies b seq motif c zstart end_ h, ?_, ?_⟩
  · intro l idx hidx
    have hs := scanSupports_copies l initKept (by decide) (by decide) idx hidx
    rw [hs]
    have hidx' : idx = 0 ∨ idx = 1 ∨ idx = 2 := by omega
    rcases hidx' with h0 | h0 | h0 <;> simp [h0, initKept]
  · intro l include_all hne
    unfold copiesText
    rw [if_neg]
    intro hcon
    rw [Bool.and_eq_true, beq_iff_eq] at hcon
    exact hne hcon.2

set_option maxRecDepth 1000000 in
theorem tally_order_witness :
    (AlignFlanks createdBlock twoCopyRead "CA".toList 2 1 5).1 = true ∧
    (¬ ∃ x ∈ createdBlock.supports, x.copies = 2) ∧
    (AlignFlanks createdBlock twoCopyRead "CA".toList 2 1 5).2.supports =
      { copies := 2, nsupport := 1 } :: createdBlock.supports ∧
    (scanSupports orderBlock.supports initKept).copies.getD 0 0 = 1 := by
  have h := tally_order createdBlock twoCopyRead "CA".toList 2 1 5 (by decide)
  refine ⟨by decide, by decide, h.1 (by decide), ?_⟩
  rw [h.2.2.1 orderBlock.supports 0 (by decide)]
  decide

/-! ## The support invariant of a block -/

/-- C21: the counter `support` of a block equals the sum of `nsupport` over
the entries of its tally, and is at least 1.  This holds for the block built
at lines 405-414 from any read and annotation and after any sequence of calls
of `AlignFlanks` on it, accepted or rejected, whatever read, motif, copy number
and offsets each call is given; and it holds for every block of the store after
any number of reads.  The counters are natural numbers here: the widths of the
fields `support` and `nsupport` are declared in a header that is not part of
the source file, and no wrap-around is modelled. -/
theorem support_equals_tally_sum (comp : Char → Char) (klength : Nat)
    (reads : List (FastqSequence × Header)) (sequence : FastqSequence) (h : Header)
    (attempts : List (FastqSequence × List Char × Int × Nat × Nat)) :
    ((attempts.foldl (fun b a => (AlignFlanks b a.1 a.2.1 a.2.2.1 a.2.2.2.1 a.2.2.2.2).2)
          (newBlock sequence h)).support =
        ((attempts.foldl (fun b a => (AlignFlanks b a.1 a.2.1 a.2.2.1 a.2.2.2.1 a.2.2.2.2).2)
          (newBlock sequence h)).supports.map Copies.nsupport).sum ∧
      1 ≤ (attempts.foldl (fun b a => (AlignFlanks b a.1 a.2.1 a.2.2.1 a.2.2.2.1 a.2.2.2.2).2)
          (newBlock sequence h)).support) ∧
    ∀ e ∈ mergeReads comp klength reads, ∀ b ∈ e.2,
      b.support = (b.supports.map Copies.nsupport).sum ∧ 1 ≤ b.support := by
  constructor
  · have h0 := newBlock_support_inv sequence h
    revert h0
    generalize newBlock sequence h = b
    induction attempts generalizing b with
    | nil => intro h0; simpa using h0
    | cons a rest ih =>
      intro h0
      simp only [List.foldl_cons]
      exact ih _ (AlignFlanks_support_inv b a.1 a.2.1 a.2.2.1 a.2.2.2.1 a.2.2.2.2 h0)
  · unfold mergeReads
    apply foldl_processRead_preserves
      (fun _ b => b.support = (b.supports.map Copies.nsupport).sum ∧ 1 ≤ b.support)
    · intro r _
      exact ⟨fun b hb => AlignFlanks_support_inv b _ _ _ _ _ hb,
        fun b hb => AlignFlanks_support_inv b _ _ _ _ _ hb, newBlock_support_inv _ _⟩
    · intro e he
      simp at he

set_option maxRecDepth 1000000 in
theorem support_equals_tally_sum_witness :
    (AlignFlanks (newBlock twoCopyRead supportHeader) oneCopyRead "CA".toList 1 1 3).1 = true ∧
    (AlignFlanks (AlignFlanks (newBlock twoCopyRead supportHeader) oneCopyRead "CA".toList 1 1 3).2
      gapRead "CA".toList 1 4 6).1 = false ∧
    supportAttempts.foldl (fun b a => (AlignFlanks b a.1 a.2.1 a.2.2.1 a.2.2.2.1 a.2.2.2.2).2)
      (newBlock twoCopyRead supportHeader) = supportBlock ∧
    (supportBlock.support = (supportBlock.supports.map Copies.nsupport).sum ∧
      1 ≤ supportBlock.support) ∧
    ("CA G T".toList, [orderBlock]) ∈ mergeReads dnaComplement 1 orderReads ∧
    orderBlock.support = (orderBlock.supports.map Copies.nsupport).sum ∧
    1 ≤ orderBlock.support := by
  have hfold : supportAttempts.foldl
      (fun b a => (AlignFlanks b a.1 a.2.1 a.2.2.1 a.2.2.2.1 a.2.2.2.2).2)
      (newBlock twoCopyRead supportHeader) = supportBlock := by decide
  have hthm := support_equals_tally_sum dnaComplement 1 orderReads twoCopyRead supportHeader
    supportAttempts
  rw [hfold] at hthm
  exact ⟨by decide, by decide, hfold, hthm.1, by decide,
    hthm.2 ("CA G T".toList, [orderBlock]) (by decide) orderBlock (by decide)⟩

end BaitSTR
